import Mathlib

/-!
# ion: container IP address management over a shared lease table

A shallow embedding of `main.go` (the allocator: `parseSubnetRange`, `getOrAllocateIP`,
`allocateIP`, `releaseIP`, `nextIP`, `validIP`, `getIPs`, `getIP`) together with the parts of
Go's `net` package the allocator calls (`ParseIP`, `ParseCIDR`, `IP.Equal`, `IP.String`,
`IP.Mask`, `CIDRMask`, `IPNet.Contains`), and of the constructor `New` of the store client
in `clients/store/client.go` with the two pools of the `Store` it returns.

Conventions of the embedding:

* a Go `string` is the list of its characters (`Str`); the code only ever inspects ASCII
  characters, so byte positions and character positions coincide on everything it reads;
* a `net.IP` is the list of its bytes, every byte a natural number below 256; the `nil`
  slice is the empty list;
* the readers of address text follow the library of current Go releases: a decimal octet
  with a leading zero (`10.0.0.02`) and a group of more than four hexadecimal digits are
  not addresses;
* the Redis hash stored under `ipsKey` is an association list from identifier to the stored
  text; a backend that cannot be reached makes every backend call fail;
* a Go function that can return an error, panic, or loop forever returns an `Outcome`;
* a connection pool is the address its dial function connects to; what the backend
  answers while `New` runs is given as `Replies`, and the commands `New` sends are
  recorded in its result.
-/

namespace Ion

/-! ## Go values -/

/-- Go `string`: the list of its characters. -/
abbrev Str := List Char

/-- Go `net.IP`: a byte slice, `nil` being the empty list. -/
abbrev IP := List Nat

/-- Go `net.IPMask`: a byte slice. -/
abbrev IPMask := List Nat

/-- Go `net.IPNet`: a network number and its mask. -/
structure IPNet where
  IP : IP
  Mask : IPMask
deriving DecidableEq, Repr

/-- Go error values the allocator can return: `*net.ParseError`, the `fmt.Errorf` strings of
`main.go`, and a failure of the key-value backend. -/
inductive Error where
  | ParseError (type : Str) (text : Str)
  | errorString (msg : Str)
  | backend
deriving DecidableEq, Repr

/-- Result of running a Go function: a normal return, a returned error, a runtime panic
(index out of range), or a loop that never exits. -/
inductive Outcome (α : Type) where
  | ok (v : α)
  | err (e : Error)
  | panic
  | diverges
deriving DecidableEq, Repr

/-! ## Go `net`: text to address -/

/-- Length of an IPv4 address in bytes (`net.IPv4len`). -/
def IPv4len : Nat := 4

/-- Length of an IPv6 address in bytes (`net.IPv6len`). -/
def IPv6len : Nat := 16

/-- Bound above which the decimal and hexadecimal readers give up (`net.big`). -/
def big : Nat := 0xFFFFFF

/-- The twelve bytes that precede an IPv4 address in its 16-byte form (`net.v4InV6Prefix`). -/
def v4InV6Pfx : List Nat := [0, 0, 0, 0, 0, 0, 0, 0, 0, 0, 0xff, 0xff]

/-- Go `net.IPv4(a, b, c, d)`: the 16-byte form of an IPv4 address. -/
def IPv4 (a b c d : Nat) : IP := v4InV6Pfx ++ [a, b, c, d]

/-- Loop of `net.dtoi`: reads decimal digits, returning the number, the characters consumed
and whether the number stayed below `big`. -/
def dtoiLoop : Str → Nat → Nat → Nat × Nat × Bool
  | [], n, i => (n, i, true)
  | c :: cs, n, i =>
    if 48 ≤ c.toNat ∧ c.toNat ≤ 57 then
      if big ≤ n * 10 + (c.toNat - 48) then (big, i, false)
      else dtoiLoop cs (n * 10 + (c.toNat - 48)) (i + 1)
    else (n, i, true)

/-- Go `net.dtoi`: decimal to integer; `(n, i, ok)` with `i` the characters consumed. -/
def dtoi (s : Str) : Nat × Nat × Bool :=
  match dtoiLoop s 0 0 with
  | (n, i, false) => (n, i, false)
  | (n, i, true) => if i = 0 then (0, 0, false) else (n, i, true)

/-- Value of a hexadecimal digit, if the character is one (the three ranges of `net.xtoi`). -/
def hexVal (c : Char) : Option Nat :=
  if 48 ≤ c.toNat ∧ c.toNat ≤ 57 then some (c.toNat - 48)
  else if 97 ≤ c.toNat ∧ c.toNat ≤ 102 then some (c.toNat - 97 + 10)
  else if 65 ≤ c.toNat ∧ c.toNat ≤ 70 then some (c.toNat - 65 + 10)
  else none

/-- Loop of `net.xtoi`. -/
def xtoiLoop : Str → Nat → Nat → Nat × Nat × Bool
  | [], n, i => (n, i, true)
  | c :: cs, n, i =>
    match hexVal c with
    | some d =>
      if big ≤ n * 16 + d then (0, i, false)
      else xtoiLoop cs (n * 16 + d) (i + 1)
    | none => (n, i, true)

/-- Go `net.xtoi`: hexadecimal to integer; `(n, i, ok)` with `i` the characters consumed. -/
def xtoi (s : Str) : Nat × Nat × Bool :=
  match xtoiLoop s 0 0 with
  | (n, i, false) => (n, i, false)
  | (n, i, true) => if i = 0 then (0, 0, false) else (n, i, true)

/-- The separator test of `net.parseIPv4`: every octet but the first follows a `.`, which
is dropped. -/
def skipDot (i : Nat) (s : Str) : Option Str :=
  if 0 < i then
    match s with
    | c :: t => if c = '.' then some t else none
    | [] => none
  else some s

/-- The four rounds of the loop of `net.parseIPv4`: `k` rounds remain, `i` is the octet
index, `p` the octets read so far. Returns the octets and the unread text. An octet of
more than one digit that begins with `0` is rejected, as the library rejects it. -/
def parseIPv4Octets : Nat → Nat → Str → List Nat → Option (List Nat × Str)
  | 0, _, s, p => some (p, s)
  | k + 1, i, s, p =>
    if s.length = 0 then none
    else
      match skipDot i s with
      | none => none
      | some s1 =>
        if (dtoi s1).2.2 = false ∨ 0xFF < (dtoi s1).1 then none
        else if 1 < (dtoi s1).2.1 ∧ s1.head? = some '0' then none
        else parseIPv4Octets k (i + 1) (s1.drop (dtoi s1).2.1) (p ++ [(dtoi s1).1])

/-- Go `net.parseIPv4`: dotted decimal to the 16-byte form, `nil` when malformed. -/
def parseIPv4 (s : Str) : IP :=
  match parseIPv4Octets IPv4len 0 s [] with
  | some (p, []) => IPv4 (p.getD 0 0) (p.getD 1 0) (p.getD 2 0) (p.getD 3 0)
  | _ => []

/-- Loop of `net.parseIPv6`. The 16-byte array being filled is represented by the bytes
written so far (`ip`, whose length is the write index `i`); `ell` is the position of the
ellipsis, if one was seen. Returns the state at loop exit, or `none` where the Go code
returns `nil`. A group of more than four hexadecimal digits is rejected, as the library
rejects it. -/
def parseIPv6Loop : Nat → Str → IP → Option Nat → Option (Str × IP × Option Nat)
  | 0, s, ip, ell => some (s, ip, ell)
  | f + 1, s, ip, ell =>
    if IPv6len ≤ ip.length then some (s, ip, ell)
    else if (xtoi s).2.2 = false ∨ 0xFFFF < (xtoi s).1 ∨ 4 < (xtoi s).2.1 then none
    else if (xtoi s).2.1 < s.length ∧ s.getD (xtoi s).2.1 ' ' = '.' then
      if ell = none ∧ ip.length ≠ IPv6len - IPv4len then none
      else if IPv6len < ip.length + IPv4len then none
      else if parseIPv4 s = [] then none
      else some ([], ip ++ (parseIPv4 s).drop 12, ell)
    else if (s.drop (xtoi s).2.1).length = 0 then
      some ([], ip ++ [(xtoi s).1 / 256 % 256, (xtoi s).1 % 256], ell)
    else if (s.drop (xtoi s).2.1).head? ≠ some ':' ∨ (s.drop (xtoi s).2.1).length = 1 then none
    else if (s.drop ((xtoi s).2.1 + 1)).head? = some ':' then
      if ell ≠ none then none
      else if (s.drop ((xtoi s).2.1 + 2)).length = 0 then
        some ([], ip ++ [(xtoi s).1 / 256 % 256, (xtoi s).1 % 256], some (ip.length + 2))
      else
        parseIPv6Loop f (s.drop ((xtoi s).2.1 + 2))
          (ip ++ [(xtoi s).1 / 256 % 256, (xtoi s).1 % 256]) (some (ip.length + 2))
    else
      parseIPv6Loop f (s.drop ((xtoi s).2.1 + 1))
        (ip ++ [(xtoi s).1 / 256 % 256, (xtoi s).1 % 256]) ell

/-- End of `net.parseIPv6`: the whole text must be used; a short address is completed by
expanding the ellipsis into zero bytes. -/
def parseIPv6Finish : Option (Str × IP × Option Nat) → IP
  | none => []
  | some (s, ip, ell) =>
    if s.length ≠ 0 then []
    else if ip.length < IPv6len then
      match ell with
      | none => []
      | some e => ip.take e ++ List.replicate (IPv6len - ip.length) 0 ++ ip.drop e
    else
      match ell with
      | none => ip
      | some _ => []

/-- Go `net.parseIPv6`: IPv6 text to 16 bytes, `nil` when malformed. -/
def parseIPv6 (s : Str) : IP :=
  match s with
  | ':' :: ':' :: [] => List.replicate IPv6len 0
  | ':' :: ':' :: t => parseIPv6Finish (parseIPv6Loop 9 t [] (some 0))
  | _ => parseIPv6Finish (parseIPv6Loop 9 s [] none)

/-- Scan of `net.ParseIP` for the first `.` or `:`, which selects the reader. -/
def parseIPScan (s : Str) : Str → IP
  | [] => []
  | c :: cs =>
    if c = '.' then parseIPv4 s
    else if c = ':' then parseIPv6 s
    else parseIPScan s cs

/-- Go `net.ParseIP`: an address in 16-byte form, or `nil`. -/
def ParseIP (s : Str) : IP := parseIPScan s s

/-- One byte of `net.CIDRMask`: `^byte(0xff >> n)` for `n < 8`. -/
def maskByte (n : Nat) : Nat := 255 - 255 / 2 ^ n

/-- Loop of `net.CIDRMask` over the `l` bytes of the mask, `n` one-bits left to place. -/
def cidrMaskLoop : Nat → Nat → List Nat
  | 0, _ => []
  | l + 1, n => if 8 ≤ n then 0xff :: cidrMaskLoop l (n - 8) else maskByte n :: cidrMaskLoop l 0

/-- Go `net.CIDRMask(ones, bits)`. -/
def CIDRMask (ones bits : Nat) : IPMask :=
  if bits ≠ 8 * IPv4len ∧ bits ≠ 8 * IPv6len then []
  else if bits < ones then []
  else cidrMaskLoop (bits / 8) ones

/-- Whether every byte is `0xff` (`net.allFF`). -/
def allFF (b : List Nat) : Bool := b.all (fun c => c = 0xff)

/-- Go `IP.Mask`: the address with the mask applied, `nil` when the lengths do not fit. -/
def ipMask (ip : IP) (mask : IPMask) : IP :=
  let mask1 := if mask.length = IPv6len ∧ ip.length = IPv4len ∧ allFF (mask.take 12) = true
    then mask.drop 12 else mask
  let ip1 := if mask1.length = IPv4len ∧ ip.length = IPv6len ∧ ip.take 12 = v4InV6Pfx
    then ip.drop 12 else ip
  if ip1.length ≠ mask1.length then []
  else List.zipWith (fun a b => a &&& b) ip1 mask1

/-- Position of the first occurrence of a character (`bytealg.IndexByteString`). -/
def indexByte (s : Str) (c : Char) : Option Nat :=
  match s with
  | [] => none
  | d :: t => if d = c then some 0 else (indexByte t c).map (· + 1)

/-- Go `net.ParseCIDR`: the address of the text and the network it implies. -/
def ParseCIDR (s : Str) : Outcome (IP × IPNet) :=
  match indexByte s '/' with
  | none => .err (.ParseError "CIDR address".data s)
  | some i =>
    let addr := s.take i
    let mask := s.drop (i + 1)
    let ip4 := parseIPv4 addr
    let iplen := if ip4 = [] then IPv6len else IPv4len
    let ip := if ip4 = [] then parseIPv6 addr else ip4
    match dtoi mask with
    | (n, j, ok) =>
      if ip = [] ∨ ok = false ∨ j ≠ mask.length ∨ 8 * iplen < n then
        .err (.ParseError "CIDR address".data s)
      else
        .ok (ip, { IP := ipMask ip (CIDRMask n (8 * iplen)), Mask := CIDRMask n (8 * iplen) })

/-! ## Go `net`: address to text, comparison -/

/-- Go `IP.To4`: the 4-byte form of an IPv4 address, `nil` for anything else. -/
def ipTo4 (ip : IP) : IP :=
  if ip.length = IPv4len then ip
  else if ip.length = IPv6len ∧ ip.take 10 = List.replicate 10 0 ∧ ip.getD 10 0 = 0xff
      ∧ ip.getD 11 0 = 0xff then ip.drop 12
  else []

/-- Go `IP.Equal`: equality that identifies an IPv4 address with its 16-byte form. -/
def ipEqual (ip x : IP) : Bool :=
  if ip.length = x.length then decide (ip = x)
  else if ip.length = IPv4len ∧ x.length = IPv6len then
    decide (x.take 12 = v4InV6Pfx) && decide (ip = x.drop 12)
  else if ip.length = IPv6len ∧ x.length = IPv4len then
    decide (ip.take 12 = v4InV6Pfx) && decide (ip.drop 12 = x)
  else false

/-- Loop of `net.uitoa`, filling the buffer from its end. -/
def uitoaLoop : Nat → Nat → Str → Str
  | 0, _, buf => buf
  | f + 1, val, buf =>
    if 10 ≤ val then uitoaLoop f (val / 10) (Char.ofNat (48 + val % 10) :: buf)
    else Char.ofNat (48 + val) :: buf

/-- Go `net.uitoa`: decimal text of an unsigned integer. -/
def uitoa (val : Nat) : Str :=
  if val = 0 then ['0'] else uitoaLoop 20 val []

/-- The digit table `net.hexDigit`. -/
def hexDigit (v : Nat) : Char :=
  if v < 10 then Char.ofNat (48 + v) else Char.ofNat (87 + v)

/-- Loop of `net.appendHex` over the nibble positions `j - 1, ..., 0`: a digit is written
once the value shifted to that position is non-zero. -/
def appendHexLoop : Nat → Nat → Str
  | 0, _ => []
  | j + 1, i =>
    (if 0 < i / 16 ^ j then [hexDigit (i / 16 ^ j % 16)] else []) ++ appendHexLoop j i

/-- Go `net.appendHex`: hexadecimal text without leading zeros. -/
def appendHex (i : Nat) : Str :=
  if i = 0 then ['0'] else appendHexLoop 8 i

/-- Go `net.hexString`: two hexadecimal digits per byte. -/
def hexString (b : List Nat) : Str :=
  b.flatMap (fun c => [hexDigit (c / 16 % 16), hexDigit (c % 16)])

/-- The 16-bit field of an address that starts at byte `i`. -/
def field (p : IP) (i : Nat) : Nat := p.getD i 0 * 256 + p.getD (i + 1) 0

/-- Inner loop of the zero-run search of `IP.String`: advances `j` over zero fields. -/
def zeroRunEnd (p : IP) : Nat → Nat → Nat
  | 0, j => j
  | f + 1, j =>
    if j < IPv6len ∧ p.getD j 0 = 0 ∧ p.getD (j + 1) 0 = 0 then zeroRunEnd p f (j + 2) else j

/-- Outer loop of the zero-run search of `IP.String`: `e` is the best run `(e0, e1)` found
so far, `none` standing for `e0 = e1 = -1`. -/
def zeroRunLoop (p : IP) : Nat → Nat → Option (Nat × Nat) → Option (Nat × Nat)
  | 0, _, e => e
  | f + 1, i, e =>
    if IPv6len ≤ i then e
    else
      let j := zeroRunEnd p 8 i
      let best := match e with
        | none => 0
        | some (e0, e1) => e1 - e0
      if i < j ∧ best < j - i then zeroRunLoop p f (j + 2) (some (i, j))
      else zeroRunLoop p f (i + 2) e

/-- The run of zero fields that `IP.String` writes as `::`: the longest one, the first on
a tie, and none when it is a single field. -/
def zeroRun (p : IP) : Option (Nat × Nat) :=
  match zeroRunLoop p 8 0 none with
  | none => none
  | some (e0, e1) => if e1 - e0 ≤ 2 then none else some (e0, e1)

/-- The test `i == e0` of the printing loop of `IP.String`: the end of the zero run when
byte `i` starts it. -/
def runAt (e : Option (Nat × Nat)) (i : Nat) : Option Nat :=
  match e with
  | none => none
  | some (e0, e1) => if i = e0 then some e1 else none

/-- Printing loop of `IP.String` from byte `i` on: the text it appends. -/
def string6Loop (p : IP) (e : Option (Nat × Nat)) : Nat → Nat → Str
  | 0, _ => []
  | f + 1, i =>
    if IPv6len ≤ i then []
    else
      match runAt e i with
      | some e1 =>
        [':', ':'] ++ (if IPv6len ≤ e1 then []
                       else appendHex (field p e1) ++ string6Loop p e f (e1 + 2))
      | none =>
        (if 0 < i then [':'] else []) ++ appendHex (field p i) ++ string6Loop p e f (i + 2)

/-- Go `IP.String`: dotted decimal for IPv4, the RFC 5952 text for IPv6. -/
def ipString (ip : IP) : Str :=
  if ip.length = 0 then "<nil>".data
  else
    let p4 := ipTo4 ip
    if p4.length = IPv4len then
      uitoa (p4.getD 0 0) ++ ['.'] ++ uitoa (p4.getD 1 0) ++ ['.'] ++ uitoa (p4.getD 2 0)
        ++ ['.'] ++ uitoa (p4.getD 3 0)
    else if ip.length ≠ IPv6len then '?' :: hexString ip
    else string6Loop ip (zeroRun ip) 9 0

/-- Go `net.networkNumberAndMask`: the network number and mask in matching lengths, a pair
of `nil` when they do not fit. -/
def networkNumberAndMask (n : IPNet) : Ion.IP × IPMask :=
  if ipTo4 n.IP = [] ∧ n.IP.length ≠ IPv6len then ([], [])
  else if n.Mask.length = IPv4len then
    if (if ipTo4 n.IP = [] then n.IP else ipTo4 n.IP).length ≠ IPv4len then ([], [])
    else (if ipTo4 n.IP = [] then n.IP else ipTo4 n.IP, n.Mask)
  else if n.Mask.length = IPv6len then
    (if ipTo4 n.IP = [] then n.IP else ipTo4 n.IP,
      if (if ipTo4 n.IP = [] then n.IP else ipTo4 n.IP).length = IPv4len then n.Mask.drop 12
      else n.Mask)
  else ([], [])

/-- Go `IPNet.Contains`: whether the address, masked, is the network number, masked. -/
def IPNet.Contains (n : IPNet) (ip : Ion.IP) : Bool :=
  if (if ipTo4 ip = [] then ip else ipTo4 ip).length ≠ (networkNumberAndMask n).1.length then
    false
  else
    decide (List.zipWith (fun a b => a &&& b) (networkNumberAndMask n).1
        (networkNumberAndMask n).2
      = List.zipWith (fun a b => a &&& b) (if ipTo4 ip = [] then ip else ipTo4 ip)
        (networkNumberAndMask n).2)

/-! ## Go `strings` and maps -/

/-- Go `strings.Split(s, sep)` for a one-character separator. -/
def split (sep : Char) : Str → List Str
  | [] => [[]]
  | c :: cs =>
    if c = sep then [] :: split sep cs
    else
      match split sep cs with
      | [] => [[c]]
      | p :: ps => (c :: p) :: ps

/-- Go map index with the comma-ok form, `v, exists := m[k]`. -/
def mapGet {α : Type} (m : List (Str × α)) (k : Str) : Option α :=
  match m with
  | [] => none
  | e :: t => if e.1 = k then some e.2 else mapGet t k

/-! ## The key-value backend -/

/-- The backend as the allocator sees it: whether it can be reached, and the Redis hash
stored under `ipsKey`, from identifier to the text of its address. -/
structure Backend where
  reachable : Bool
  ips : List (Str × Str)
deriving DecidableEq, Repr

/-- Redis `HSET key field value`: the field now holds the value. -/
def hset (h : List (Str × Str)) (field value : Str) : List (Str × Str) :=
  h.filter (fun e => e.1 ≠ field) ++ [(field, value)]

/-- Redis `HDEL key field`: the field is gone. -/
def hdel (h : List (Str × Str)) (field : Str) : List (Str × Str) :=
  h.filter (fun e => e.1 ≠ field)

/-! ## main.go -/

/-- The Redis key of the lease table. -/
def ipsKey : Str := "stellarproject.io/ips".data

/-- The range to allocate from: `subnetRange` of `main.go`. -/
structure subnetRange where
  Start : IP
  End : IP
  Subnet : IPNet
deriving DecidableEq, Repr

/-- The function `getConn`: a connection to the store, or the backend error. -/
def getConn (b : Backend) : Outcome Unit :=
  if b.reachable = true then .ok () else .err .backend

/-- The function `getIPs`: the whole lease table, every stored text read with `ParseIP`. -/
def getIPs (b : Backend) : Outcome (List (Str × IP)) :=
  match getConn b with
  | .ok _ => .ok (b.ips.map (fun e => (e.1, ParseIP e.2)))
  | .err e => .err e
  | .panic => .panic
  | .diverges => .diverges

/-- The function `getIP`: the address held by `id`, `nil` when it holds none. -/
def getIP (b : Backend) (id : Str) : Outcome IP :=
  match getIPs b with
  | .ok allIPs =>
    match mapGet allIPs id with
    | some ip => .ok ip
    | none => .ok []
  | .err e => .err e
  | .panic => .panic
  | .diverges => .diverges

/-- Loop of `nextIP` over the byte positions `j - 1, ..., 0`: increment with 8-bit
wrap-around, stopping at the first byte that does not wrap to zero. -/
def nextIPLoop : Nat → IP → IP
  | 0, ip => ip
  | j + 1, ip =>
    if 0 < (ip.getD j 0 + 1) % 256 then ip.set j ((ip.getD j 0 + 1) % 256)
    else nextIPLoop j (ip.set j ((ip.getD j 0 + 1) % 256))

/-- The function `nextIP`: the address after `ip`. -/
def nextIP (ip : IP) : IP := nextIPLoop ip.length ip

/-- The function `validIP`: false for a final octet of 0, 1 or 255; `none` stands for the
index-out-of-range panic of `ip[len(ip)-1]` on an empty address. -/
def validIP (ip : IP) : Option Bool :=
  match ip.getLast? with
  | none => none
  | some v => if v = 0 ∨ v = 1 ∨ v = 255 then some false else some true

/-- The function `parseSubnetRange`: a CIDR such as `10.0.0.0/8`, or a range such as
`10.0.0.100-10.0.0.200/24`. -/
def parseSubnetRange (subnet : Str) : Outcome subnetRange :=
  let parts := split '-' subnet
  if parts.length = 1 then
    match ParseCIDR (parts.getD 0 []) with
    | .ok (ip, sub) =>
      if ip.length = 0 then .panic
      else .ok { Start := ip, End := ip.set (ip.length - 1) 254, Subnet := sub }
    | .err e => .err e
    | .panic => .panic
    | .diverges => .diverges
  else if 2 < parts.length ∨ ¬ '/' ∈ subnet then
    .err (.errorString
      "invalid range specified; expect format 10.0.0.100-10.0.0.200/24".data)
  else
    match ParseCIDR (parts.getD 1 []) with
    | .ok (e, sub) => .ok { Start := ParseIP (parts.getD 0 []), End := e, Subnet := sub }
    | .err e => .err e
    | .panic => .panic
    | .diverges => .diverges

/-- The candidate loop of `allocateIP`, `for ip := r.Start; !ip.Equal(r.End); nextIP(ip)`,
run for at most the given number of loop tests. `ok none` is the normal exit of the loop,
`ok (some ip)` the candidate it stops at. -/
def allocLoop (lookup : List (Str × Str)) (End : IP) : Nat → IP → Outcome (Option IP)
  | 0, _ => .diverges
  | f + 1, ip =>
    if ipEqual ip End = true then .ok none
    else
      match validIP ip with
      | none => .panic
      | some false => allocLoop lookup End f (nextIP ip)
      | some true =>
        if (mapGet lookup (ipString ip)).isSome = true then allocLoop lookup End f (nextIP ip)
        else .ok (some ip)

/-- The function `allocateIP`. The loop variable takes at most `256 ^ len` distinct values,
so a loop that has not exited after that many tests never exits. -/
def allocateIP (b : Backend) (id : Str) (r : subnetRange) : Outcome IP × Backend :=
  match getConn b with
  | .ok _ =>
    match getIPs b with
    | .ok reservedIPs =>
      match mapGet reservedIPs id with
      | some ip => (.ok ip, b)
      | none =>
        match allocLoop (reservedIPs.map (fun e => (ipString e.2, e.1))) r.End
            (256 ^ r.Start.length) r.Start with
        | .ok (some ip) => (.ok ip, { b with ips := hset b.ips id (ipString ip) })
        | .ok none => (.err (.errorString "no available IPs".data), b)
        | .err e => (.err e, b)
        | .panic => (.panic, b)
        | .diverges => (.diverges, b)
    | .err e => (.err e, b)
    | .panic => (.panic, b)
    | .diverges => (.diverges, b)
  | .err e => (.err e, b)
  | .panic => (.panic, b)
  | .diverges => (.diverges, b)

/-- The function `getOrAllocateIP`. -/
def getOrAllocateIP (b : Backend) (id subnet : Str) : Outcome (IP × IPNet) × Backend :=
  match parseSubnetRange subnet with
  | .ok r =>
    match getIP b id with
    | .ok ip =>
      if ip ≠ [] then (.ok (ip, r.Subnet), b)
      else
        match allocateIP b id r with
        | (.ok ip1, b1) => (.ok (ip1, r.Subnet), b1)
        | (.err e, b1) => (.err e, b1)
        | (.panic, b1) => (.panic, b1)
        | (.diverges, b1) => (.diverges, b1)
    | .err e => (.err e, b)
    | .panic => (.panic, b)
    | .diverges => (.diverges, b)
  | .err e => (.err e, b)
  | .panic => (.panic, b)
  | .diverges => (.diverges, b)

/-- The function `releaseIP`. -/
def releaseIP (b : Backend) (id : Str) : Outcome Unit × Backend :=
  match getConn b with
  | .ok _ =>
    match getIP b id with
    | .ok ip =>
      if ip ≠ [] then (.ok (), { b with ips := hdel b.ips id })
      else (.ok (), b)
    | .err e => (.err e, b)
    | .panic => (.panic, b)
    | .diverges => (.diverges, b)
  | .err e => (.err e, b)
  | .panic => (.panic, b)
  | .diverges => (.diverges, b)

/-! ## Notions used to state the properties -/

/-- A decimal digit. -/
def isDig (c : Char) : Prop := 48 ≤ c.toNat ∧ c.toNat ≤ 57

/-- Numeric value of an address: its bytes read as a big-endian number. -/
def ipVal (ip : IP) : Nat := ip.foldl (fun acc x => acc * 256 + x) 0

/-- The `n`-byte big-endian encoding of `v`, taken modulo `256 ^ n`. -/
def ofVal : Nat → Nat → IP
  | 0, _ => []
  | n + 1, v => ofVal n (v / 256) ++ [v % 256]

/-- An address of `n` bytes: a list of length `n` whose entries are bytes. -/
def isAddr (n : Nat) (ip : IP) : Prop := ip.length = n ∧ ∀ x ∈ ip, x < 256

/-- A candidate that the loop of `allocateIP` passes over: `validIP` rejects it, or its text
is a key of the lookup table. -/
def skipped (lookup : List (Str × Str)) (ip : IP) : Prop :=
  validIP ip = some false
    ∨ (validIP ip = some true ∧ (mapGet lookup (ipString ip)).isSome = true)

/-- An address whose final octet is 0, 1 or 255: the network, gateway and broadcast
convention of `validIP`. -/
def reservedSuffix (a : IP) : Prop :=
  a.getLast? = some 0 ∨ a.getLast? = some 1 ∨ a.getLast? = some 255

/-- The address `a` is a value of the lease table: some entry's text reads as `a`. -/
def leased (T : List (Str × Str)) (a : IP) : Prop := ∃ e ∈ T, ParseIP e.2 = a

/-- The addresses a scan of the range may hand out: as long as the start, numerically in
`[start, end)`, final octet not reserved, not a value of the lease table. -/
def eligible (T : List (Str × Str)) (r : subnetRange) (a : IP) : Prop :=
  isAddr r.Start.length a ∧ ipVal r.Start ≤ ipVal a ∧ ipVal a < ipVal r.End
    ∧ ¬ reservedSuffix a ∧ ¬ leased T a

/-- The number a run of decimal digits denotes when read after `n`, as `net.dtoi` reads
it: `none` when a character is not a digit or the number reaches `big`. -/
def digitsVal : Str → Nat → Option Nat
  | [], n => some n
  | c :: cs, n =>
    if 48 ≤ c.toNat ∧ c.toNat ≤ 57 then
      if big ≤ n * 10 + (c.toNat - 48) then none else digitsVal cs (n * 10 + (c.toNat - 48))
    else none

/-- What the zero-run search of `IP.String` guarantees about a run `(e0, e1)`: even
bounds inside the address, and only zero bytes in between. -/
def goodRun (p : IP) (e0 e1 : Nat) : Prop :=
  e0 % 2 = 0 ∧ e1 % 2 = 0 ∧ e0 < e1 ∧ e1 ≤ 16 ∧ ∀ k, e0 ≤ k → k < e1 → p.getD k 0 = 0

/-! ## The two phases of `allocateIP` -/

/-- The function `allocateIP` up to its choice of a candidate: the connection, the read of
the lease table with `getIPs`, the lookup table and the candidate loop. It reads the
backend and writes nothing; with the result comes the `HSET` that remains to be issued,
as the pair of field and value, when a candidate was chosen. -/
def allocateIPSelect (b : Backend) (id : Str) (r : subnetRange) :
    Outcome IP × Option (Str × Str) :=
  match getConn b with
  | .ok _ =>
    match getIPs b with
    | .ok reservedIPs =>
      match mapGet reservedIPs id with
      | some ip => (.ok ip, none)
      | none =>
        match allocLoop (reservedIPs.map (fun e => (ipString e.2, e.1))) r.End
            (256 ^ r.Start.length) r.Start with
        | .ok (some ip) => (.ok ip, some (id, ipString ip))
        | .ok none => (.err (.errorString "no available IPs".data), none)
        | .err e => (.err e, none)
        | .panic => (.panic, none)
        | .diverges => (.diverges, none)
    | .err e => (.err e, none)
    | .panic => (.panic, none)
    | .diverges => (.diverges, none)
  | .err e => (.err e, none)
  | .panic => (.panic, none)
  | .diverges => (.diverges, none)

/-- The write of `allocateIP`, `c.Do("HSET", ipsKey, id, ip.String())`, applied to the
backend as it is when the write arrives. -/
def allocateIPWrite (b : Backend) (w : Option (Str × Str)) : Backend :=
  match w with
  | some (id, v) => { b with ips := hset b.ips id v }
  | none => b

/-! ## Sequences of calls -/

/-- No two identifiers hold the same address: two entries of the lease table under
different identifiers never read as the same address. An entry whose text `ParseIP` does
not read holds no address, as for `getIP`, which returns `nil` for it. -/
def noShared (T : List (Str × Str)) : Prop :=
  ∀ e1 ∈ T, ∀ e2 ∈ T, e1.1 ≠ e2.1 → ParseIP e1.2 ≠ [] → ParseIP e1.2 ≠ ParseIP e2.2

/-- A call of the allocator: `getOrAllocateIP(id, subnet)` or `releaseIP(id)`. -/
inductive Call where
  | getOrAllocate (id subnet : Str)
  | release (id : Str)
deriving DecidableEq, Repr

/-- The backend after one call has run to its end. -/
def step (b : Backend) : Call → Backend
  | .getOrAllocate id subnet => (getOrAllocateIP b id subnet).2
  | .release id => (releaseIP b id).2

/-- The backend after the calls of a list, one after another. -/
def run (b : Backend) (cs : List Call) : Backend := cs.foldl step b

/-! ## The store client: clients/store/client.go -/

/-- The constant `Address`: the fixed local endpoint of the store. -/
def Address : Str := "127.0.0.1:9300".data

/-- The constant `MasterKey`: the key that holds the address of the master. -/
def MasterKey : Str := "stellarproject.io/master".data

/-- A `redis.Pool` as `New` builds it: the address its dial function connects to, and the
number of idle connections it keeps. -/
structure Pool where
  addr : Str
  maxIdle : Nat
deriving DecidableEq, Repr

/-- The type `Store`: the pool `m` for writes and the pool `s` for reads. -/
structure Store where
  m : Pool
  s : Pool
deriving DecidableEq, Repr

/-- The method `Conn`, `s.s.Get()`, as the endpoint the connection it returns dials. -/
def Store.Conn (st : Store) : Str := st.s.addr

/-- The method `RWConn`, `s.m.Get()`, as the endpoint the connection it returns dials. -/
def Store.RWConn (st : Store) : Str := st.m.addr

/-- What `redis.String(conn.Do("GET", MasterKey))` returns: the stored text, the error
`redis.ErrNil` of a key that is not there, or another error with its message. -/
inductive GetReply where
  | value (master : Str)
  | errNil
  | errOther (msg : Str)
deriving DecidableEq, Repr

/-- The answers of the backend at the local endpoint while `New` runs: the reply to the
`GET` of the master key, and the error of the `SETEX`, `none` when it succeeds. -/
structure Replies where
  get : GetReply
  setex : Option Str
deriving DecidableEq, Repr

/-- A command that `New` sends with `conn.Do`. -/
inductive Command where
  | get (key : Str)
  | setex (key : Str) (ttl : Nat) (value : Str)
deriving DecidableEq, Repr

/-- An error of `New`: `errors.Wrap(cause, msg)`. -/
inductive StoreError where
  | wrap (cause msg : Str)
deriving DecidableEq, Repr

/-- What a call of `New` comes to: the returned `*Store` (`none` for `nil`), the returned
error (`none` for `nil`), the commands sent before it returns, in order, and the
background task it leaves behind, as the period of its ticker in seconds and the command
it sends at every tick. -/
structure NewResult where
  store : Option Store
  err : Option StoreError
  sent : List Command
  refresh : Option (Nat × Command)
deriving DecidableEq, Repr

/-- The function `New`. -/
def New (env : Replies) (myAddress : Str) : NewResult :=
  let slave : Pool := { addr := Address, maxIdle := 5 }
  let st : Store := { m := slave, s := slave }
  match env.get with
  | .errNil =>
    if myAddress ≠ [] then
      match env.setex with
      | some cause =>
        { store := none, err := some (.wrap cause "set master key with ttl".data),
          sent := [.get MasterKey, .setex MasterKey 60 myAddress], refresh := none }
      | none =>
        { store := some st, err := none,
          sent := [.get MasterKey, .setex MasterKey 60 myAddress],
          refresh := some (45, .setex MasterKey 60 myAddress) }
    else { store := some st, err := none, sent := [.get MasterKey], refresh := none }
  | .errOther cause =>
    { store := none, err := some (.wrap cause "get master key".data),
      sent := [.get MasterKey], refresh := none }
  | .value master =>
    { store := some { st with m := { addr := master, maxIdle := 5 } }, err := none,
      sent := [.get MasterKey], refresh := none }

/-- The writes of the master key among the commands a call of `New` sent. -/
def pointerWrites (r : NewResult) : List Command :=
  r.sent.filter (fun c =>
    match c with
    | .setex key _ _ => key = MasterKey
    | .get _ => false)

/-! # Theorems -/

/-! ## Facts about the text readers -/

theorem dtoiLoop_true (s : Str) : ∀ (n i n1 i1 : Nat), dtoiLoop s n i = (n1, i1, true) →
    ∃ k, i1 = i + k ∧ k ≤ s.length ∧ (∀ c ∈ s.take k, isDig c) := by
  induction s with
  | nil =>
    intro n i n1 i1 h
    simp [dtoiLoop] at h
    exact ⟨0, by omega, by simp, by simp⟩
  | cons c cs ih =>
    intro n i n1 i1 h
    unfold dtoiLoop at h
    split at h
    · rename_i hc
      split at h
      · simp at h
      · obtain ⟨k, hk, hle, hall⟩ := ih _ _ _ _ h
        refine ⟨k + 1, by omega, by simp; omega, ?_⟩
        intro x hx
        simp [List.take_succ_cons] at hx
        rcases hx with rfl | hx
        · exact hc
        · exact hall x hx
    · simp at h
      exact ⟨0, by omega, by simp, by simp⟩

theorem dtoi_true (s : Str) (n c : Nat) (h : dtoi s = (n, c, true)) :
    c ≤ s.length ∧ 0 < c ∧ (∀ x ∈ s.take c, isDig x) := by
  unfold dtoi at h
  split at h
  · simp at h
  · rename_i n1 i1 hl
    split at h
    · simp at h
    · simp at h
      obtain ⟨k, hk, hle, hall⟩ := dtoiLoop_true s 0 0 n1 i1 hl
      obtain ⟨-, rfl⟩ := h
      refine ⟨by omega, by omega, ?_⟩
      have : i1 = k := by omega
      subst this
      exact hall

theorem skipDot_some (i : Nat) (s s1 : Str) (h : skipDot i s = some s1) :
    (i = 0 ∧ s1 = s) ∨ (0 < i ∧ s = '.' :: s1) := by
  unfold skipDot at h
  split at h
  · rename_i hi
    split at h
    · split at h
      · rename_i hc
        simp at h
        subst h
        exact Or.inr ⟨hi, by rw [hc]⟩
      · simp at h
    · simp at h
  · simp at h
    exact Or.inl ⟨by omega, h.symm⟩

theorem parseIPv4Octets_chars : ∀ (k i : Nat) (s : Str) (p p1 : List Nat) (rest : Str),
    parseIPv4Octets k i s p = some (p1, rest) →
    ∃ pre, s = pre ++ rest ∧ (∀ c ∈ pre, isDig c ∨ c = '.') ∧ (0 < i → 0 < k → '.' ∈ pre) := by
  intro k
  induction k with
  | zero =>
    intro i s p p1 rest h
    simp [parseIPv4Octets] at h
    exact ⟨[], by simp [h.2], by simp, by omega⟩
  | succ k ih =>
    intro i s p p1 rest h
    unfold parseIPv4Octets at h
    split at h
    · simp at h
    · split at h
      · simp at h
      · rename_i s1 hs1
        split at h
        · simp at h
        · rename_i hok
          split at h
          · simp at h
          have hok1 : (dtoi s1).2.2 = true := by
            cases hb : (dtoi s1).2.2 <;> simp_all
          have hd : dtoi s1 = ((dtoi s1).1, (dtoi s1).2.1, true) := by
            rw [← hok1]
          obtain ⟨hc, -, hall⟩ := dtoi_true s1 _ _ hd
          obtain ⟨pre, hpre, hall2, -⟩ := ih _ _ _ _ _ h
          have hs1' : s1 = s1.take (dtoi s1).2.1 ++ (pre ++ rest) := by
            rw [← hpre, List.take_append_drop]
          rcases skipDot_some i s s1 hs1 with ⟨hi, rfl⟩ | ⟨hi, rfl⟩
          · refine ⟨s1.take (dtoi s1).2.1 ++ pre, by rw [List.append_assoc]; exact hs1', ?_, by omega⟩
            intro x hx
            simp only [List.mem_append] at hx
            rcases hx with hx | hx
            · exact Or.inl (hall x hx)
            · exact hall2 x hx
          · refine ⟨'.' :: (s1.take (dtoi s1).2.1 ++ pre), ?_, ?_, ?_⟩
            · simp only [List.cons_append, List.append_assoc]
              rw [← hs1']
            · intro x hx
              simp at hx
              rcases hx with rfl | hx | hx
              · exact Or.inr rfl
              · exact Or.inl (hall x hx)
              · exact hall2 x hx
            · intro _ _
              simp

theorem parseIPv4_chars (A : Str) (h : parseIPv4 A ≠ []) :
    (∀ c ∈ A, isDig c ∨ c = '.') ∧ '.' ∈ A := by
  unfold parseIPv4 at h
  split at h
  · rename_i p hp
    obtain ⟨pre, hpre, hall, -⟩ := parseIPv4Octets_chars _ _ _ _ _ _ hp
    simp at hpre
    subst hpre
    refine ⟨hall, ?_⟩
    simp only [IPv4len] at hp
    unfold parseIPv4Octets at hp
    split at hp
    · simp at hp
    · split at hp
      · simp at hp
      · rename_i s1 hs1
        split at hp
        · simp at hp
        · split at hp
          · simp at hp
          obtain ⟨pre, hpre, -, hdot⟩ := parseIPv4Octets_chars _ _ _ _ _ _ hp
          simp at hpre
          have h1 : '.' ∈ s1.drop (dtoi s1).2.1 := by
            rw [hpre]; exact hdot (by omega) (by omega)
          have h2 : '.' ∈ s1 := List.mem_of_mem_drop h1
          rcases skipDot_some _ _ _ hs1 with ⟨-, rfl⟩ | ⟨hi, -⟩
          · exact h2
          · omega
  · exact absurd rfl h

theorem isDig_ne (c : Char) (h : isDig c ∨ c = '.') : c ≠ ':' ∧ c ≠ '/' ∧ c ≠ '-' := by
  rcases h with h | h
  · unfold isDig at h
    refine ⟨?_, ?_, ?_⟩ <;> (intro hc; subst hc; revert h; decide)
  · subst h
    decide

theorem parseIPScan_v4 (s : Str) : ∀ t : Str, (∀ c ∈ t, isDig c ∨ c = '.') → '.' ∈ t →
    parseIPScan s t = parseIPv4 s := by
  intro t
  induction t with
  | nil => intro _ h; simp at h
  | cons c cs ih =>
    intro hall hdot
    unfold parseIPScan
    by_cases hc : c = '.'
    · simp [hc]
    · have hne := (isDig_ne c (hall c (by simp))).1
      simp only [hc, hne, if_false]
      apply ih
      · intro x hx; exact hall x (by simp [hx])
      · simp at hdot
        rcases hdot with h | h
        · exact absurd h.symm hc
        · exact h

/-- On dotted-decimal text `ParseIP` is `parseIPv4`. -/
theorem ParseIP_v4 (A : Str) (h : parseIPv4 A ≠ []) : ParseIP A = parseIPv4 A := by
  obtain ⟨hall, hdot⟩ := parseIPv4_chars A h
  exact parseIPScan_v4 A A hall hdot

theorem indexByte_append (A m : Str) (c : Char) (h : c ∉ A) :
    indexByte (A ++ c :: m) c = some A.length := by
  induction A with
  | nil => simp [indexByte]
  | cons d t ih =>
    simp at h
    have e : indexByte ((d :: t) ++ c :: m) c
        = if d = c then some 0 else (indexByte (t ++ c :: m) c).map (· + 1) := rfl
    rw [e, if_neg (fun hd => h.1 hd.symm), ih h.2]
    simp

theorem cidrMaskLoop_length : ∀ (l n : Nat), (cidrMaskLoop l n).length = l := by
  intro l
  induction l with
  | zero => intro n; simp [cidrMaskLoop]
  | succ l ih =>
    intro n
    unfold cidrMaskLoop
    split <;> simp [ih]

theorem CIDRMask_length32 (n : Nat) (h : n ≤ 32) : (CIDRMask n 32).length = 4 := by
  unfold CIDRMask
  have h1 : ¬ 32 < n := by omega
  simp [IPv4len, IPv6len, cidrMaskLoop_length, h1]

theorem ipMask_v4 (a b c d : Nat) (m : IPMask) (h : m.length = 4) :
    ipMask (IPv4 a b c d) m = List.zipWith (fun x y => x &&& y) [a, b, c, d] m := by
  unfold ipMask
  simp [h, IPv4, IPv4len, IPv6len, v4InV6Pfx]

theorem dtoi_digits (m : Str) (n : Nat) (h : dtoi m = (n, m.length, true)) :
    ∀ c ∈ m, isDig c := by
  obtain ⟨-, -, hall⟩ := dtoi_true m n _ h
  simpa using hall

/-- The reading of `A/m` by `ParseCIDR` when `A` is dotted decimal and `m` a bit count. -/
theorem ParseCIDR_v4 (A m : Str) (a b c d n : Nat) (hA : parseIPv4 A = IPv4 a b c d)
    (hm : dtoi m = (n, m.length, true)) (hn : n ≤ 32) :
    ParseCIDR (A ++ '/' :: m) = .ok (IPv4 a b c d,
      { IP := List.zipWith (fun x y => x &&& y) [a, b, c, d] (CIDRMask n 32),
        Mask := CIDRMask n 32 }) := by
  have hne : parseIPv4 A ≠ [] := by rw [hA]; simp [IPv4, v4InV6Pfx]
  have hsl : '/' ∉ A := fun hc => (isDig_ne _ ((parseIPv4_chars A hne).1 _ hc)).2.1 rfl
  unfold ParseCIDR
  rw [indexByte_append A m '/' hsl]
  simp only [List.take_left', List.drop_succ_cons, List.drop_left', hA, hm]
  have h4 : IPv4 a b c d ≠ [] := by simp [IPv4, v4InV6Pfx]
  have h1 : ¬ 32 < n := by omega
  simp [h4, IPv4len, hm, ipMask_v4 _ _ _ _ _ (CIDRMask_length32 n hn), h1]

theorem split_no_sep (c : Char) (s : Str) (h : c ∉ s) : split c s = [s] := by
  induction s with
  | nil => simp [split]
  | cons d t ih =>
    simp at h
    unfold split
    rw [if_neg (fun hd => h.1 hd.symm), ih h.2]

theorem split_append (c : Char) (x y : Str) (h : c ∉ x) :
    split c (x ++ c :: y) = x :: split c y := by
  induction x with
  | nil => simp [split]
  | cons d t ih =>
    simp at h
    have e : split c ((d :: t) ++ c :: y) = if d = c then [] :: split c (t ++ c :: y)
        else match split c (t ++ c :: y) with
          | [] => [[d]]
          | p :: ps => (d :: p) :: ps := rfl
    rw [e, if_neg (fun hd => h.1 hd.symm), ih h.2]

theorem split_length (c : Char) (s : Str) : (split c s).length = s.count c + 1 := by
  induction s with
  | nil => simp [split]
  | cons d t ih =>
    unfold split
    by_cases hd : d = c
    · subst hd
      simp [ih]
    · rw [if_neg hd]
      have hcount : (d :: t).count c = t.count c := by
        rw [List.count_cons]
        simp [hd]
      rw [hcount, ← ih]
      split
      · rename_i h0
        rw [h0] at ih
        simp at ih
      · rename_i p ps hp
        rw [hp]
        simp

theorem ParseCIDR_cases (y : Str) :
    (∃ e, ParseCIDR y = .err e) ∨ (∃ r, ParseCIDR y = .ok r) := by
  unfold ParseCIDR
  cases indexByte y '/' with
  | none => exact Or.inl ⟨_, rfl⟩
  | some i =>
    dsimp only
    split <;> split <;> first | exact Or.inl ⟨_, rfl⟩ | exact Or.inr ⟨_, rfl⟩

theorem ParseCIDR_not_ok (y : Str) (h : ∀ r, ParseCIDR y ≠ .ok r) : ∃ e, ParseCIDR y = .err e := by
  rcases ParseCIDR_cases y with h1 | ⟨r, hr⟩
  · exact h1
  · exact absurd hr (h r)

/-- A text without a dash is read as a CIDR: the range starts at the address of the text
and ends at that address with its last byte set to 254. -/
theorem parseSubnetRange_no_dash (s : Str) (ip : IP) (sub : IPNet) (hdash : '-' ∉ s)
    (hc : ParseCIDR s = .ok (ip, sub)) (hne : ip ≠ []) :
    parseSubnetRange s
      = .ok { Start := ip, End := ip.set (ip.length - 1) 254, Subnet := sub } := by
  unfold parseSubnetRange
  simp only [split_no_sep _ _ hdash, List.length_singleton, if_true, List.getD_cons_zero, hc]
  rw [if_neg (by rw [List.length_eq_zero]; exact hne)]

/-- The text `A/m` of a dotted-decimal address and a bit count has no dash. -/
theorem cidr_text_no_dash (A m : Str) (n : Nat) (hne : parseIPv4 A ≠ [])
    (hm : dtoi m = (n, m.length, true)) : '-' ∉ A ++ '/' :: m := by
  intro hc
  simp only [List.mem_append, List.mem_cons] at hc
  rcases hc with hc | hc | hc
  · exact (isDig_ne _ ((parseIPv4_chars A hne).1 _ hc)).2.2 rfl
  · exact absurd hc (by decide)
  · exact (isDig_ne _ (Or.inl (dtoi_digits m n hm _ hc))).2.2 rfl

/-- C3: a CIDR-only text `A/m`, with `A` dotted decimal for `a.b.c.d` and `m` a bit count
`n ≤ 32`, parses to the range that starts at `a.b.c.d` itself, ends at `a.b.c.254`
whatever `n` is, and has as subnet the address masked with the `n`-bit mask. -/
theorem parseSubnetRange_cidr_only (A m : Str) (a b c d n : Nat)
    (hA : parseIPv4 A = IPv4 a b c d) (hm : dtoi m = (n, m.length, true)) (hn : n ≤ 32) :
    parseSubnetRange (A ++ '/' :: m) = .ok
      { Start := IPv4 a b c d, End := IPv4 a b c 254,
        Subnet := { IP := List.zipWith (fun x y => x &&& y) [a, b, c, d] (CIDRMask n 32),
                    Mask := CIDRMask n 32 } } := by
  have hne : parseIPv4 A ≠ [] := by rw [hA]; simp [IPv4, v4InV6Pfx]
  have h4 : IPv4 a b c d ≠ [] := by simp [IPv4, v4InV6Pfx]
  rw [parseSubnetRange_no_dash _ _ _ (cidr_text_no_dash A m n hne hm)
    (ParseCIDR_v4 A m a b c d n hA hm hn) h4]
  rfl

/-- C3, on the text of the test `TestParseSubnetRangeSubnetOnly`. -/
theorem parseSubnetRange_cidr_only_witness :
    (parseIPv4 "10.100.0.1".data = IPv4 10 100 0 1
      ∧ dtoi "24".data = (24, "24".data.length, true) ∧ 24 ≤ 32)
    ∧ parseSubnetRange ("10.100.0.1".data ++ '/' :: "24".data) = .ok
      { Start := IPv4 10 100 0 1, End := IPv4 10 100 0 254,
        Subnet := { IP := List.zipWith (fun x y => x &&& y) [10, 100, 0, 1] (CIDRMask 24 32),
                    Mask := CIDRMask 24 32 } } :=
  ⟨⟨by decide, by decide, by decide⟩,
    parseSubnetRange_cidr_only _ _ 10 100 0 1 24 (by decide) (by decide) (by decide)⟩

/-- C4: a range text `A-B/m`, with `A` and `B` dotted decimal and `m` a bit count `n ≤ 32`,
parses to the range from the address of `A` to the address of `B`, with the subnet of
`B/m`; the address of `A` is not compared with that subnet. -/
theorem parseSubnetRange_explicit_range (A B m : Str) (a b c d e f g h n : Nat)
    (hA : parseIPv4 A = IPv4 a b c d) (hB : parseIPv4 B = IPv4 e f g h)
    (hm : dtoi m = (n, m.length, true)) (hn : n ≤ 32) :
    parseSubnetRange (A ++ '-' :: (B ++ '/' :: m)) = .ok
      { Start := IPv4 a b c d, End := IPv4 e f g h,
        Subnet := { IP := List.zipWith (fun x y => x &&& y) [e, f, g, h] (CIDRMask n 32),
                    Mask := CIDRMask n 32 } } := by
  have hneA : parseIPv4 A ≠ [] := by rw [hA]; simp [IPv4, v4InV6Pfx]
  have hneB : parseIPv4 B ≠ [] := by rw [hB]; simp [IPv4, v4InV6Pfx]
  have hdA : '-' ∉ A := fun hc => (isDig_ne _ ((parseIPv4_chars A hneA).1 _ hc)).2.2 rfl
  have hdB : '-' ∉ B ++ '/' :: m := by
    intro hc
    simp only [List.mem_append, List.mem_cons] at hc
    rcases hc with hc | hc | hc
    · exact (isDig_ne _ ((parseIPv4_chars B hneB).1 _ hc)).2.2 rfl
    · exact absurd hc (by decide)
    · exact (isDig_ne _ (Or.inl (dtoi_digits m n hm _ hc))).2.2 rfl
  have hsl : '/' ∈ A ++ '-' :: (B ++ '/' :: m) := by simp
  unfold parseSubnetRange
  simp only [split_append _ _ _ hdA, split_no_sep _ _ hdB, hsl, not_true_eq_false,
    ParseCIDR_v4 B m e f g h n hB hm hn, ParseIP_v4 A hneA, hA]
  have e0 : [A, B ++ '/' :: m].getD 0 [] = A := rfl
  have e1 : [A, B ++ '/' :: m].getD 1 [] = B ++ '/' :: m := rfl
  have e2 : [A, B ++ '/' :: m].length = 2 := rfl
  rw [e0, e1, e2, if_neg (by omega), if_neg (by simp),
    ParseCIDR_v4 B m e f g h n hB hm hn, ParseIP_v4 A hneA, hA]

/-- C4, on the text of the test `TestParseSubnetRangeStartEnd`. -/
theorem parseSubnetRange_explicit_range_witness :
    (parseIPv4 "10.100.0.100".data = IPv4 10 100 0 100
      ∧ parseIPv4 "10.100.0.200".data = IPv4 10 100 0 200
      ∧ dtoi "24".data = (24, "24".data.length, true) ∧ 24 ≤ 32)
    ∧ parseSubnetRange ("10.100.0.100".data ++ '-' :: ("10.100.0.200".data ++ '/' :: "24".data))
      = .ok
      { Start := IPv4 10 100 0 100, End := IPv4 10 100 0 200,
        Subnet := { IP := List.zipWith (fun x y => x &&& y) [10, 100, 0, 200] (CIDRMask 24 32),
                    Mask := CIDRMask 24 32 } } :=
  ⟨⟨by decide, by decide, by decide, by decide⟩,
    parseSubnetRange_explicit_range _ _ _ 10 100 0 100 10 100 0 200 24
      (by decide) (by decide) (by decide) (by decide)⟩

/-- C5: a text with a dash is rejected with an error when it has two dashes or more, or no
slash, or when the text after its only dash is not accepted by `ParseCIDR`. -/
theorem parseSubnetRange_malformed (s : Str) (hdash : '-' ∈ s)
    (hbad : 2 ≤ s.count '-' ∨ '/' ∉ s
      ∨ ∃ x y, s = x ++ '-' :: y ∧ '-' ∉ x ∧ '-' ∉ y ∧ ∀ r, ParseCIDR y ≠ .ok r) :
    ∃ e, parseSubnetRange s = .err e := by
  have hlen := split_length '-' s
  have hpos : 0 < s.count '-' := List.count_pos_iff.mpr hdash
  unfold parseSubnetRange
  simp only []
  rw [if_neg (by omega)]
  by_cases hc : 2 < (split '-' s).length ∨ ¬ '/' ∈ s
  · rw [if_pos hc]
    exact ⟨_, rfl⟩
  · rw [if_neg hc]
    rcases hbad with h2 | hns | ⟨x, y, rfl, hx, hy, hbad⟩
    · exact absurd (Or.inl (by omega)) hc
    · exact absurd (Or.inr hns) hc
    · rw [split_append _ _ _ hx, split_no_sep _ _ hy]
      have e1 : [x, y].getD 1 [] = y := rfl
      obtain ⟨e, he⟩ := ParseCIDR_not_ok y hbad
      rw [e1, he]
      exact ⟨_, rfl⟩

/-- C5, on the text of the test `TestParseSubnetRangeInvalid`. -/
theorem parseSubnetRange_malformed_witness :
    ('-' ∈ "1.2.3.4-254/24".data
      ∧ (2 ≤ "1.2.3.4-254/24".data.count '-' ∨ '/' ∉ "1.2.3.4-254/24".data
        ∨ ∃ x y, "1.2.3.4-254/24".data = x ++ '-' :: y ∧ '-' ∉ x ∧ '-' ∉ y
          ∧ ∀ r, ParseCIDR y ≠ .ok r))
    ∧ ∃ e, parseSubnetRange "1.2.3.4-254/24".data = .err e :=
  have hb : 2 ≤ "1.2.3.4-254/24".data.count '-' ∨ '/' ∉ "1.2.3.4-254/24".data
      ∨ ∃ x y, "1.2.3.4-254/24".data = x ++ '-' :: y ∧ '-' ∉ x ∧ '-' ∉ y
        ∧ ∀ r, ParseCIDR y ≠ .ok r :=
    Or.inr (Or.inr ⟨"1.2.3.4".data, "254/24".data, by decide, by decide, by decide,
      fun r hr => by
        have e : ParseCIDR "254/24".data
            = .err (.ParseError "CIDR address".data "254/24".data) := by decide
        rw [e] at hr
        exact Outcome.noConfusion hr⟩)
  ⟨⟨by decide, hb⟩, parseSubnetRange_malformed _ (by decide) hb⟩

/-- C6: the range text `bogus-10.0.0.200/24`, whose start is not an address, is accepted:
the parsed range has the `nil` start that `ParseIP` returned, and allocating from it panics
on the last-octet index. -/
theorem parseSubnetRange_nil_start :
    ParseIP "bogus".data = []
    ∧ parseSubnetRange "bogus-10.0.0.200/24".data = .ok
      { Start := [], End := IPv4 10 0 0 200,
        Subnet := { IP := [10, 0, 0, 0], Mask := [255, 255, 255, 0] } }
    ∧ (getOrAllocateIP { reachable := true, ips := [] } "c1".data
        "bogus-10.0.0.200/24".data).1 = .panic := by
  refine ⟨by decide, by decide, by decide⟩

theorem ipVal_snoc (l : IP) (x : Nat) : ipVal (l ++ [x]) = ipVal l * 256 + x := by
  simp [ipVal, List.foldl_append]

theorem ofVal_length : ∀ (n v : Nat), (ofVal n v).length = n := by
  intro n
  induction n with
  | zero => intro v; rfl
  | succ n ih => intro v; simp [ofVal, ih]

theorem ofVal_isAddr (n v : Nat) : isAddr n (ofVal n v) := by
  refine ⟨ofVal_length n v, ?_⟩
  induction n generalizing v with
  | zero => simp [ofVal]
  | succ n ih =>
    intro x hx
    simp only [ofVal, List.mem_append, List.mem_singleton] at hx
    rcases hx with hx | rfl
    · exact ih _ x hx
    · omega

theorem ipVal_ofVal : ∀ (n v : Nat), ipVal (ofVal n v) = v % 256 ^ n := by
  intro n
  induction n with
  | zero => intro v; simp [ofVal, ipVal, Nat.mod_one]
  | succ n ih =>
    intro v
    rw [ofVal, ipVal_snoc, ih, pow_succ, Nat.mul_comm (256 ^ n) 256, Nat.mod_mul]
    ring

theorem ofVal_mod : ∀ (n v : Nat), ofVal n (v % 256 ^ n) = ofVal n v := by
  intro n
  induction n with
  | zero => intro v; rfl
  | succ n ih =>
    intro v
    simp only [ofVal]
    have h1 : v % 256 ^ (n + 1) % 256 = v % 256 := by
      rw [pow_succ, Nat.mul_comm]
      exact Nat.mod_mul_right_mod v 256 (256 ^ n)
    have h2 : v % 256 ^ (n + 1) / 256 = v / 256 % 256 ^ n := by
      rw [pow_succ]
      exact Nat.mod_mul_left_div_self v 256 (256 ^ n)
    rw [h1, h2, ih]

theorem isAddr_snoc (n : Nat) (l : IP) (x : Nat) :
    isAddr (n + 1) (l ++ [x]) ↔ isAddr n l ∧ x < 256 := by
  unfold isAddr
  constructor
  · rintro ⟨hl, hall⟩
    refine ⟨⟨by simpa using hl, fun y hy => hall y (by simp [hy])⟩, hall x (by simp)⟩
  · rintro ⟨⟨hl, hall⟩, hx⟩
    refine ⟨by simp [hl], ?_⟩
    intro y hy
    simp only [List.mem_append, List.mem_singleton] at hy
    rcases hy with hy | rfl
    · exact hall y hy
    · exact hx

theorem ofVal_ipVal : ∀ (n : Nat) (ip : IP), isAddr n ip → ofVal n (ipVal ip) = ip := by
  intro n
  induction n with
  | zero =>
    intro ip h
    have : ip = [] := List.length_eq_zero.mp h.1
    simp [this, ofVal]
  | succ n ih =>
    intro ip h
    rcases List.eq_nil_or_concat ip with h0 | ⟨l, x, rfl⟩
    · rw [h0] at h; exact absurd h.1 (by simp)
    · rw [List.concat_eq_append] at h ⊢
      obtain ⟨hl, hx⟩ := (isAddr_snoc n l x).mp h
      rw [ipVal_snoc, ofVal]
      have h1 : (ipVal l * 256 + x) / 256 = ipVal l := by omega
      have h2 : (ipVal l * 256 + x) % 256 = x := by omega
      rw [h1, h2, ih l hl]

theorem ipVal_lt (n : Nat) (ip : IP) (h : isAddr n ip) : ipVal ip < 256 ^ n := by
  rw [← ofVal_ipVal n ip h, ipVal_ofVal]
  exact Nat.mod_lt _ (by positivity)

theorem ipVal_inj (n : Nat) (a b : IP) (ha : isAddr n a) (hb : isAddr n b)
    (h : ipVal a = ipVal b) : a = b := by
  rw [← ofVal_ipVal n a ha, ← ofVal_ipVal n b hb, h]

/-! ## The increment -/

theorem nextIPLoop_append : ∀ (j : Nat) (l suf : IP), j ≤ l.length →
    nextIPLoop j (l ++ suf) = nextIPLoop j l ++ suf := by
  intro j
  induction j with
  | zero => intro l suf _; rfl
  | succ j ih =>
    intro l suf hj
    have hlt : j < l.length := by omega
    unfold nextIPLoop
    have e1 : (l ++ suf).getD j 0 = l.getD j 0 := by
      simp [List.getD_eq_getElem?_getD, List.getElem?_append_left hlt]
    have e2 : ∀ v, (l ++ suf).set j v = l.set j v ++ suf := by
      intro v
      rw [List.set_append_left _ _ hlt]
    rw [e1, e2]
    split
    · rfl
    · rw [ih _ _ (by simp; omega)]

theorem nextIP_snoc (l : IP) (x : Nat) :
    nextIP (l ++ [x]) = if 0 < (x + 1) % 256 then l ++ [(x + 1) % 256] else nextIP l ++ [0] := by
  have key : nextIP (l ++ [x])
      = if 0 < ((l ++ [x]).getD l.length 0 + 1) % 256
        then (l ++ [x]).set l.length (((l ++ [x]).getD l.length 0 + 1) % 256)
        else nextIPLoop l.length
          ((l ++ [x]).set l.length (((l ++ [x]).getD l.length 0 + 1) % 256)) := by
    unfold nextIP
    have hlen : (l ++ [x]).length = l.length + 1 := by simp
    rw [hlen]
    rfl
  have e1 : (l ++ [x]).getD l.length 0 = x := by
    simp [List.getD_eq_getElem?_getD]
  have e2 : ∀ v, (l ++ [x]).set l.length v = l ++ [v] := by
    intro v
    simp [List.set_append_right]
  rw [key, e1, e2]
  split
  · rfl
  · rename_i h
    have h0 : (x + 1) % 256 = 0 := by omega
    rw [h0, nextIPLoop_append _ _ _ (le_refl _)]
    rfl

/-- The increment on encodings: `nextIP` adds one modulo `256 ^ n`. -/
theorem nextIP_ofVal : ∀ (n v : Nat), nextIP (ofVal n v) = ofVal n (v + 1) := by
  intro n
  induction n with
  | zero => intro v; rfl
  | succ n ih =>
    intro v
    simp only [ofVal]
    rw [nextIP_snoc]
    have hm : v % 256 % 256 = v % 256 := Nat.mod_mod _ _
    by_cases h : v % 256 = 255
    · have h1 : (v % 256 + 1) % 256 = 0 := by omega
      have h2 : (v + 1) / 256 = v / 256 + 1 := by omega
      have h3 : (v + 1) % 256 = 0 := by omega
      rw [h1, if_neg (by omega), ih, h2, h3]
    · have h1 : (v % 256 + 1) % 256 = v % 256 + 1 := by omega
      have h2 : (v + 1) / 256 = v / 256 := by omega
      have h3 : (v + 1) % 256 = v % 256 + 1 := by omega
      rw [h1, if_pos (by omega), h2, h3]

theorem validIP_ofVal (n v : Nat) :
    validIP (ofVal (n + 1) v)
      = if v % 256 = 0 ∨ v % 256 = 1 ∨ v % 256 = 255 then some false else some true := by
  simp [validIP, ofVal]

/-! ## The candidate loop -/

theorem ofVal_eq_iff (n a b : Nat) : ofVal n a = ofVal n b ↔ a % 256 ^ n = b % 256 ^ n := by
  constructor
  · intro h
    rw [← ipVal_ofVal, ← ipVal_ofVal, h]
  · intro h
    rw [← ofVal_mod n a, ← ofVal_mod n b, h]

theorem ipEqual_same_length (a b : IP) (h : a.length = b.length) :
    ipEqual a b = decide (a = b) := by
  unfold ipEqual
  rw [if_pos h]

theorem ipEqual_ofVal (n a b : Nat) :
    ipEqual (ofVal n a) (ofVal n b) = decide (a % 256 ^ n = b % 256 ^ n) := by
  rw [ipEqual_same_length _ _ (by rw [ofVal_length, ofVal_length])]
  simp only [ofVal_eq_iff]

theorem allocLoop_skip (lookup : List (Str × Str)) (e ip : IP) (f : Nat)
    (hne : ipEqual ip e = false) (hs : skipped lookup ip) :
    allocLoop lookup e (f + 1) ip = allocLoop lookup e f (nextIP ip) := by
  rw [allocLoop, hne]
  simp only [Bool.false_eq_true, if_false]
  rcases hs with hs | ⟨hv, hs⟩
  · rw [hs]
  · rw [hv]
    simp only [hs, if_true]

theorem allocLoop_stop (lookup : List (Str × Str)) (e ip : IP) (f : Nat)
    (hne : ipEqual ip e = false) (hv : validIP ip = some true)
    (hl : (mapGet lookup (ipString ip)).isSome = false) :
    allocLoop lookup e (f + 1) ip = .ok (some ip) := by
  rw [allocLoop, hne, hv]
  simp [hl]

theorem allocLoop_exit (lookup : List (Str × Str)) (e ip : IP) (f : Nat)
    (heq : ipEqual ip e = true) : allocLoop lookup e (f + 1) ip = .ok none := by
  rw [allocLoop, heq]
  simp

/-- The loop passes over `k` candidates and then meets the end address: it exits without a
candidate. Values are taken modulo `256 ^ n`, so the statement covers a scan that wraps. -/
theorem allocLoop_exhaust (lookup : List (Str × Str)) (n e : Nat) :
    ∀ (k v fuel : Nat), k < fuel →
      (∀ j, j < k → (v + j) % 256 ^ n ≠ e % 256 ^ n) → (v + k) % 256 ^ n = e % 256 ^ n →
      (∀ j, j < k → skipped lookup (ofVal n (v + j))) →
      allocLoop lookup (ofVal n e) fuel (ofVal n v) = .ok none := by
  intro k
  induction k with
  | zero =>
    intro v fuel hf _ heq _
    obtain ⟨f, rfl⟩ : ∃ f, fuel = f + 1 := ⟨fuel - 1, by omega⟩
    apply allocLoop_exit
    rw [ipEqual_ofVal]
    simpa using heq
  | succ k ih =>
    intro v fuel hf hne heq hs
    obtain ⟨f, rfl⟩ : ∃ f, fuel = f + 1 := ⟨fuel - 1, by omega⟩
    have hs0 : skipped lookup (ofVal n v) := by simpa using hs 0 (by omega)
    rw [allocLoop_skip _ _ _ _ _ hs0, nextIP_ofVal]
    · apply ih (v + 1) f (by omega)
      · intro j hj
        have := hne (j + 1) (by omega)
        rwa [show v + 1 + j = v + (j + 1) by omega]
      · rwa [show v + 1 + k = v + (k + 1) by omega]
      · intro j hj
        have := hs (j + 1) (by omega)
        rwa [show v + 1 + j = v + (j + 1) by omega]
    · rw [ipEqual_ofVal]
      simpa using hne 0 (by omega)

/-- The loop passes over `k` candidates and stops at the next one, which `validIP` accepts
and the lookup table does not hold. -/
theorem allocLoop_found (lookup : List (Str × Str)) (n e : Nat) :
    ∀ (k v fuel : Nat), k < fuel →
      (∀ j, j ≤ k → (v + j) % 256 ^ n ≠ e % 256 ^ n) →
      (∀ j, j < k → skipped lookup (ofVal n (v + j))) →
      validIP (ofVal n (v + k)) = some true →
      (mapGet lookup (ipString (ofVal n (v + k)))).isSome = false →
      allocLoop lookup (ofVal n e) fuel (ofVal n v) = .ok (some (ofVal n (v + k))) := by
  intro k
  induction k with
  | zero =>
    intro v fuel hf hne _ hv hl
    obtain ⟨f, rfl⟩ : ∃ f, fuel = f + 1 := ⟨fuel - 1, by omega⟩
    apply allocLoop_stop _ _ _ _ _ hv hl
    rw [ipEqual_ofVal]
    simpa using hne 0 (by omega)
  | succ k ih =>
    intro v fuel hf hne hs hv hl
    obtain ⟨f, rfl⟩ : ∃ f, fuel = f + 1 := ⟨fuel - 1, by omega⟩
    have hs0 : skipped lookup (ofVal n v) := by simpa using hs 0 (by omega)
    rw [allocLoop_skip _ _ _ _ _ hs0, nextIP_ofVal]
    · rw [show v + (k + 1) = v + 1 + k by omega] at hv hl ⊢
      apply ih (v + 1) f (by omega) _ _ hv hl
      · intro j hj
        have := hne (j + 1) (by omega)
        rwa [show v + 1 + j = v + (j + 1) by omega]
      · intro j hj
        have := hs (j + 1) (by omega)
        rwa [show v + 1 + j = v + (j + 1) by omega]
    · rw [ipEqual_ofVal]
      simpa using hne 0 (by omega)

/-! ## Reading back the text of an address -/

theorem dtoiLoop_stop (rest : Str) (n i : Nat)
    (hr : rest = [] ∨ ∃ c t, rest = c :: t ∧ ¬ isDig c) : dtoiLoop rest n i = (n, i, true) := by
  rcases hr with rfl | ⟨c, t, rfl, hc⟩
  · rfl
  · unfold dtoiLoop
    rw [if_neg (show ¬ (48 ≤ c.toNat ∧ c.toNat ≤ 57) from hc)]

theorem dtoiLoop_digits (ds : Str) : ∀ (n i v : Nat) (rest : Str), digitsVal ds n = some v →
    (rest = [] ∨ ∃ c t, rest = c :: t ∧ ¬ isDig c) →
    dtoiLoop (ds ++ rest) n i = (v, i + ds.length, true) := by
  induction ds with
  | nil =>
    intro n i v rest h hr
    simp only [digitsVal, Option.some.injEq] at h
    subst h
    simpa using dtoiLoop_stop rest n i hr
  | cons c cs ih =>
    intro n i v rest h hr
    unfold digitsVal at h
    split at h
    · rename_i hc
      split at h
      · simp at h
      · rename_i hb
        rw [List.cons_append]
        unfold dtoiLoop
        rw [if_pos hc, if_neg hb, ih _ _ _ _ h hr]
        simp only [List.length_cons]
        congr 2
        omega
    · simp at h

theorem dtoi_digits_append (ds rest : Str) (v : Nat) (hne : ds ≠ [])
    (h : digitsVal ds 0 = some v) (hr : rest = [] ∨ ∃ c t, rest = c :: t ∧ ¬ isDig c) :
    dtoi (ds ++ rest) = (v, ds.length, true) := by
  unfold dtoi
  rw [dtoiLoop_digits ds 0 0 v rest h hr]
  have hl : 0 < ds.length := List.length_pos.mpr hne
  simp only [Nat.zero_add]
  rw [if_neg (by omega)]

set_option maxRecDepth 1000000 in
theorem uitoa_byte : ∀ a, a < 256 → uitoa a ≠ [] ∧ digitsVal (uitoa a) 0 = some a := by
  decide

theorem dtoi_uitoa (a : Nat) (rest : Str) (ha : a < 256)
    (hr : rest = [] ∨ ∃ c t, rest = c :: t ∧ ¬ isDig c) :
    dtoi (uitoa a ++ rest) = (a, (uitoa a).length, true) :=
  dtoi_digits_append _ _ _ (uitoa_byte a ha).1 (uitoa_byte a ha).2 hr

theorem digitsVal_isDig (ds : Str) : ∀ (n v : Nat), digitsVal ds n = some v →
    ∀ c ∈ ds, isDig c := by
  induction ds with
  | nil => intro n v _ c hc; simp at hc
  | cons d t ih =>
    intro n v h c hc
    unfold digitsVal at h
    split at h
    · rename_i hd
      split at h
      · simp at h
      · rcases List.mem_cons.mp hc with rfl | hc
        · exact hd
        · exact ih _ _ h c hc
    · simp at h

theorem uitoa_isDig (a : Nat) (ha : a < 256) : ∀ c ∈ uitoa a, isDig c :=
  digitsVal_isDig _ _ _ (uitoa_byte a ha).2

set_option maxRecDepth 1000000 in
theorem uitoa_no_leading_zero : ∀ a, a < 256 →
    ¬ (1 < (uitoa a).length ∧ (uitoa a).head? = some '0') := by
  decide

theorem parseIPv4Octets_step (k i a : Nat) (rest : Str) (p : List Nat) (ha : a < 256)
    (hr : rest = [] ∨ ∃ c t, rest = c :: t ∧ ¬ isDig c) :
    parseIPv4Octets (k + 1) i ((if 0 < i then ['.'] else []) ++ (uitoa a ++ rest)) p
      = parseIPv4Octets k (i + 1) rest (p ++ [a]) := by
  have hne := (uitoa_byte a ha).1
  have hd := dtoi_uitoa a rest ha hr
  have hskip : skipDot i ((if 0 < i then ['.'] else []) ++ (uitoa a ++ rest))
      = some (uitoa a ++ rest) := by
    unfold skipDot
    by_cases hi : 0 < i
    · simp [hi]
    · simp [hi]
  have hlen : ((if 0 < i then ['.'] else []) ++ (uitoa a ++ rest)).length ≠ 0 := by
    have : 0 < (uitoa a).length := List.length_pos.mpr hne
    simp only [List.length_append]
    omega
  have hz : ¬ (1 < (uitoa a).length ∧ (uitoa a ++ rest).head? = some '0') := by
    rw [List.head?_append_of_ne_nil _ hne]
    exact uitoa_no_leading_zero a ha
  rw [parseIPv4Octets, if_neg hlen, hskip]
  simp only [hd]
  rw [if_neg (by simp; omega), if_neg hz, List.drop_left']
  rfl

theorem not_isDig_dot : ¬ isDig '.' := by unfold isDig; decide

/-- The dotted-decimal text of four bytes reads back as the 16-byte form of the address. -/
theorem parseIPv4_dotted (a b c d : Nat) (ha : a < 256) (hb : b < 256) (hc : c < 256)
    (hd : d < 256) :
    parseIPv4 (uitoa a ++ '.' :: (uitoa b ++ '.' :: (uitoa c ++ '.' :: uitoa d)))
      = IPv4 a b c d := by
  have hdot : ∀ t : Str, ('.' :: t = [] ∨ ∃ c0 t0, '.' :: t = c0 :: t0 ∧ ¬ isDig c0) :=
    fun t => Or.inr ⟨'.', t, rfl, not_isDig_dot⟩
  have s0 := parseIPv4Octets_step 3 0 a ('.' :: (uitoa b ++ '.' :: (uitoa c ++ '.' :: uitoa d)))
    [] ha (hdot _)
  have s1 := parseIPv4Octets_step 2 1 b ('.' :: (uitoa c ++ '.' :: uitoa d)) [a] hb (hdot _)
  have s2 := parseIPv4Octets_step 1 2 c ('.' :: uitoa d) [a, b] hc (hdot _)
  have s3 := parseIPv4Octets_step 0 3 d [] [a, b, c] hd (Or.inl rfl)
  simp only [Nat.lt_irrefl, if_false, List.nil_append, Nat.zero_lt_succ, if_true,
    List.singleton_append, List.cons_append, List.append_nil, Nat.reduceAdd, Nat.lt_add_one,
    Nat.zero_lt_one, Nat.reduceLT] at s0 s1 s2 s3
  unfold parseIPv4
  simp only [IPv4len]
  rw [s0, s1, s2, s3]
  rfl

theorem parseIPv4Octets_bytes : ∀ (k i : Nat) (s : Str) (p p1 : List Nat) (rest : Str),
    parseIPv4Octets k i s p = some (p1, rest) → (∀ x ∈ p, x < 256) →
    (∀ x ∈ p1, x < 256) ∧ p1.length = p.length + k := by
  intro k
  induction k with
  | zero =>
    intro i s p p1 rest h hp
    simp only [parseIPv4Octets, Option.some.injEq, Prod.mk.injEq] at h
    rw [← h.1]
    exact ⟨hp, rfl⟩
  | succ k ih =>
    intro i s p p1 rest h hp
    unfold parseIPv4Octets at h
    split at h
    · simp at h
    · split at h
      · simp at h
      · split at h
        · simp at h
        · rename_i s1 _ hc
          split at h
          · simp at h
          obtain ⟨h1, h2⟩ := ih _ _ _ _ _ h (by
            intro x hx
            simp only [List.mem_append, List.mem_singleton] at hx
            rcases hx with hx | rfl
            · exact hp x hx
            · simp only [not_or, not_lt] at hc
              omega)
          refine ⟨h1, ?_⟩
          rw [h2]
          simp only [List.length_append, List.length_singleton]
          omega

theorem IPv4_isAddr (a b c d : Nat) (ha : a < 256) (hb : b < 256) (hc : c < 256)
    (hd : d < 256) : isAddr 16 (IPv4 a b c d) := by
  refine ⟨rfl, ?_⟩
  intro x hx
  simp only [IPv4, v4InV6Pfx, List.cons_append, List.nil_append, List.mem_cons,
    List.mem_singleton, List.not_mem_nil, or_false] at hx
  omega

theorem getD_lt (p : List Nat) (i : Nat) (h : ∀ x ∈ p, x < 256) : p.getD i 0 < 256 := by
  rw [List.getD_eq_getElem?_getD]
  cases hg : p[i]? with
  | none => simp
  | some v =>
    simp only [Option.getD_some]
    exact h v (List.getElem?_mem hg)

theorem parseIPv4_isAddr (s : Str) : parseIPv4 s = [] ∨ isAddr 16 (parseIPv4 s) := by
  unfold parseIPv4
  split
  · rename_i p hp
    obtain ⟨hb, -⟩ := parseIPv4Octets_bytes _ _ _ _ _ _ hp (by simp)
    exact Or.inr (IPv4_isAddr _ _ _ _ (getD_lt p 0 hb) (getD_lt p 1 hb) (getD_lt p 2 hb)
      (getD_lt p 3 hb))
  · exact Or.inl rfl

/-- The octets of an address that `parseIPv4` returned are bytes. -/
theorem parseIPv4_octets (A : Str) (a b c d : Nat) (h : parseIPv4 A = IPv4 a b c d) :
    a < 256 ∧ b < 256 ∧ c < 256 ∧ d < 256 := by
  rcases parseIPv4_isAddr A with h0 | h1
  · rw [h] at h0
    simp [IPv4, v4InV6Pfx] at h0
  · rw [h] at h1
    have := h1.2
    simp only [IPv4, v4InV6Pfx, List.cons_append, List.nil_append, List.mem_cons,
      List.mem_singleton, List.not_mem_nil, or_false] at this
    exact ⟨this a (by simp), this b (by simp), this c (by simp), this d (by simp)⟩

/-! ### Hexadecimal fields -/

theorem hexVal_hexDigit : ∀ v, v < 16 → hexVal (hexDigit v) = some v := by decide

theorem hexDigit_ne : ∀ v, v < 16 → hexDigit v ≠ ':' ∧ hexDigit v ≠ '.' := by decide

theorem xtoiLoop_cons (c : Char) (cs : Str) (n i : Nat) :
    xtoiLoop (c :: cs) n i = match hexVal c with
      | some d => if big ≤ n * 16 + d then (0, i, false) else xtoiLoop cs (n * 16 + d) (i + 1)
      | none => (n, i, true) := rfl

theorem xtoiLoop_stop (rest : Str) (n i : Nat)
    (hr : rest = [] ∨ ∃ c t, rest = c :: t ∧ hexVal c = none) :
    xtoiLoop rest n i = (n, i, true) := by
  rcases hr with rfl | ⟨c, t, rfl, hc⟩
  · rfl
  · rw [xtoiLoop_cons, hc]

theorem xtoiLoop_hex (g : Nat) (hg : g < 65536) (rest : Str) : ∀ (j i : Nat),
    xtoiLoop (appendHexLoop j g ++ rest) (g / 16 ^ j) i
      = xtoiLoop rest g (i + (appendHexLoop j g).length) := by
  intro j
  induction j with
  | zero => intro i; simp [appendHexLoop]
  | succ j ih =>
    intro i
    have hdiv : g / 16 ^ (j + 1) = g / 16 ^ j / 16 := by
      rw [pow_succ, Nat.div_div_eq_div_mul]
    unfold appendHexLoop
    by_cases h0 : 0 < g / 16 ^ j
    · rw [if_pos h0]
      have hd : g / 16 ^ j % 16 < 16 := Nat.mod_lt _ (by omega)
      have hle : g / 16 ^ j ≤ g := Nat.div_le_self _ _
      have hval : g / 16 ^ (j + 1) * 16 + g / 16 ^ j % 16 = g / 16 ^ j := by
        rw [hdiv]; omega
      simp only [List.singleton_append, List.cons_append, List.length_cons]
      rw [xtoiLoop_cons, hexVal_hexDigit _ hd]
      simp only [hval]
      rw [if_neg (by unfold big; omega), List.nil_append, ih]
      congr 1
      omega
    · rw [if_neg h0]
      have hz : g / 16 ^ j = 0 := Nat.eq_zero_of_not_pos h0
      have hz1 : g / 16 ^ (j + 1) = 0 := by rw [hdiv, hz]
      rw [hz1, ← hz]
      simpa using ih i

theorem appendHexLoop_ne_nil (g j : Nat) (hg : 0 < g) : appendHexLoop (j + 1) g ≠ [] := by
  induction j with
  | zero =>
    unfold appendHexLoop
    simp [hg]
  | succ j ih =>
    unfold appendHexLoop
    intro h
    exact ih (List.append_eq_nil.mp h).2

theorem appendHex_ne_nil (g : Nat) : appendHex g ≠ [] := by
  unfold appendHex
  split
  · simp
  · exact appendHexLoop_ne_nil g 7 (by omega)

theorem appendHexLoop_chars (g : Nat) : ∀ (j : Nat) (c : Char), c ∈ appendHexLoop j g →
    ∃ v, v < 16 ∧ c = hexDigit v := by
  intro j
  induction j with
  | zero => intro c hc; simp [appendHexLoop] at hc
  | succ j ih =>
    intro c hc
    unfold appendHexLoop at hc
    rw [List.mem_append] at hc
    rcases hc with hc | hc
    · split at hc
      · rw [List.mem_singleton] at hc
        exact ⟨_, Nat.mod_lt _ (by omega), hc⟩
      · simp at hc
    · exact ih c hc

theorem appendHex_chars (g : Nat) (c : Char) (hc : c ∈ appendHex g) :
    ∃ v, v < 16 ∧ c = hexDigit v := by
  unfold appendHex at hc
  split at hc
  · rw [List.mem_singleton] at hc
    exact ⟨0, by omega, by rw [hc]; decide⟩
  · exact appendHexLoop_chars g 8 c hc

/-- The text of a 16-bit field reads back as the field, whatever follows that is not a
hexadecimal digit. -/
theorem appendHexLoop_length_le (g : Nat) : ∀ j, (appendHexLoop j g).length ≤ j := by
  intro j
  induction j with
  | zero => simp [appendHexLoop]
  | succ j ih =>
    rw [appendHexLoop, List.length_append]
    split
    · simp only [List.length_singleton]; omega
    · simp only [List.length_nil]; omega

theorem appendHexLoop_small (g : Nat) : ∀ (k j : Nat), g < 16 ^ j →
    appendHexLoop (j + k) g = appendHexLoop j g := by
  intro k
  induction k with
  | zero => intro j _; rfl
  | succ k ih =>
    intro j hj
    have h0 : g / 16 ^ (j + k) = 0 :=
      Nat.div_eq_of_lt (lt_of_lt_of_le hj (Nat.pow_le_pow_right (by omega) (by omega)))
    have e : appendHexLoop (j + (k + 1)) g
        = (if 0 < g / 16 ^ (j + k) then [hexDigit (g / 16 ^ (j + k) % 16)] else [])
          ++ appendHexLoop (j + k) g := rfl
    rw [e, h0, if_neg (by omega), List.nil_append, ih j hj]

/-- The text of a 16-bit field has at most four digits. -/
theorem appendHex_length_le (g : Nat) (hg : g < 65536) : (appendHex g).length ≤ 4 := by
  unfold appendHex
  split
  · simp
  · rw [show (8 : Nat) = 4 + 4 from rfl, appendHexLoop_small g 4 4 (by omega)]
    exact appendHexLoop_length_le g 4

theorem xtoi_appendHex (g : Nat) (hg : g < 65536) (rest : Str)
    (hr : rest = [] ∨ ∃ c t, rest = c :: t ∧ hexVal c = none) :
    xtoi (appendHex g ++ rest) = (g, (appendHex g).length, true) := by
  have hl : 0 < (appendHex g).length := List.length_pos.mpr (appendHex_ne_nil g)
  have key : xtoiLoop (appendHex g ++ rest) 0 0 = (g, (appendHex g).length, true) := by
    unfold appendHex
    split
    · rename_i h0
      subst h0
      have e : xtoiLoop (['0'] ++ rest) 0 0 = xtoiLoop rest 0 1 := by
        rw [List.singleton_append, xtoiLoop_cons]
        have : hexVal '0' = some 0 := by decide
        rw [this]
        simp [big]
      rw [e, xtoiLoop_stop rest 0 1 hr]
      rfl
    · have h8 : g / 16 ^ 8 = 0 := Nat.div_eq_of_lt (by omega)
      have := xtoiLoop_hex g hg rest 8 0
      rw [h8] at this
      rw [this, xtoiLoop_stop rest _ _ hr]
      simp
  unfold xtoi
  rw [key]
  simp only []
  rw [if_neg (by omega)]

/-! ### One round of the IPv6 reader -/

theorem hexVal_colon : hexVal ':' = none := by decide

theorem parseIPv6Loop_succ (f : Nat) (s : Str) (ip : IP) (ell : Option Nat) :
    parseIPv6Loop (f + 1) s ip ell =
    if IPv6len ≤ ip.length then some (s, ip, ell)
    else if (xtoi s).2.2 = false ∨ 0xFFFF < (xtoi s).1 ∨ 4 < (xtoi s).2.1 then none
    else if (xtoi s).2.1 < s.length ∧ s.getD (xtoi s).2.1 ' ' = '.' then
      if ell = none ∧ ip.length ≠ IPv6len - IPv4len then none
      else if IPv6len < ip.length + IPv4len then none
      else if parseIPv4 s = [] then none
      else some ([], ip ++ (parseIPv4 s).drop 12, ell)
    else if (s.drop (xtoi s).2.1).length = 0 then
      some ([], ip ++ [(xtoi s).1 / 256 % 256, (xtoi s).1 % 256], ell)
    else if (s.drop (xtoi s).2.1).head? ≠ some ':' ∨ (s.drop (xtoi s).2.1).length = 1 then none
    else if (s.drop ((xtoi s).2.1 + 1)).head? = some ':' then
      if ell ≠ none then none
      else if (s.drop ((xtoi s).2.1 + 2)).length = 0 then
        some ([], ip ++ [(xtoi s).1 / 256 % 256, (xtoi s).1 % 256], some (ip.length + 2))
      else
        parseIPv6Loop f (s.drop ((xtoi s).2.1 + 2))
          (ip ++ [(xtoi s).1 / 256 % 256, (xtoi s).1 % 256]) (some (ip.length + 2))
    else
      parseIPv6Loop f (s.drop ((xtoi s).2.1 + 1))
        (ip ++ [(xtoi s).1 / 256 % 256, (xtoi s).1 % 256]) ell := rfl

/-- A field at the end of the text. -/
theorem parseIPv6Loop_last (f g : Nat) (hg : g < 65536) (ip : IP) (ell : Option Nat)
    (hlen : ip.length < 16) :
    parseIPv6Loop (f + 1) (appendHex g) ip ell
      = some ([], ip ++ [g / 256 % 256, g % 256], ell) := by
  have hx := xtoi_appendHex g hg [] (Or.inl rfl)
  rw [List.append_nil] at hx
  have h4 := appendHex_length_le g hg
  rw [parseIPv6Loop_succ, hx]
  simp only [IPv6len]
  rw [if_neg (by omega), if_neg (by simp; omega), if_neg (by simp)]
  simp

/-- A field followed by a colon and more text that does not start with a colon. -/
theorem parseIPv6Loop_colon (f g : Nat) (hg : g < 65536) (ip : IP) (ell : Option Nat)
    (c : Char) (t : Str) (hc : c ≠ ':') (hlen : ip.length < 16) :
    parseIPv6Loop (f + 1) (appendHex g ++ ':' :: c :: t) ip ell
      = parseIPv6Loop f (c :: t) (ip ++ [g / 256 % 256, g % 256]) ell := by
  have hx := xtoi_appendHex g hg (':' :: c :: t) (Or.inr ⟨':', _, rfl, hexVal_colon⟩)
  have hd0 : (appendHex g ++ ':' :: c :: t).drop (appendHex g).length = ':' :: c :: t :=
    List.drop_left' rfl
  have hd1 : (appendHex g ++ ':' :: c :: t).drop ((appendHex g).length + 1) = c :: t := by
    rw [← List.drop_drop, hd0]; rfl
  have hg0 : (appendHex g ++ ':' :: c :: t).getD (appendHex g).length ' ' = ':' := by
    rw [List.getD_eq_getElem?_getD, List.getElem?_append_right (le_refl _)]
    simp
  have h4 := appendHex_length_le g hg
  rw [parseIPv6Loop_succ, hx]
  simp only [IPv6len, hd0, hd1, hg0]
  rw [if_neg (by omega), if_neg (by simp; omega), if_neg (by simp), if_neg (by simp),
    if_neg (by simp), if_neg (by simpa using hc)]

/-- A field followed by the ellipsis and more text. -/
theorem parseIPv6Loop_ellipsis (f g : Nat) (hg : g < 65536) (ip : IP)
    (c : Char) (t : Str) (hlen : ip.length < 16) :
    parseIPv6Loop (f + 1) (appendHex g ++ ':' :: ':' :: c :: t) ip none
      = parseIPv6Loop f (c :: t) (ip ++ [g / 256 % 256, g % 256]) (some (ip.length + 2)) := by
  have hx := xtoi_appendHex g hg (':' :: ':' :: c :: t) (Or.inr ⟨':', _, rfl, hexVal_colon⟩)
  have hd0 : (appendHex g ++ ':' :: ':' :: c :: t).drop (appendHex g).length
      = ':' :: ':' :: c :: t := List.drop_left' rfl
  have hd1 : (appendHex g ++ ':' :: ':' :: c :: t).drop ((appendHex g).length + 1)
      = ':' :: c :: t := by
    rw [← List.drop_drop, hd0]; rfl
  have hd2 : (appendHex g ++ ':' :: ':' :: c :: t).drop ((appendHex g).length + 2)
      = c :: t := by
    rw [← List.drop_drop, hd0]; rfl
  have hg0 : (appendHex g ++ ':' :: ':' :: c :: t).getD (appendHex g).length ' ' = ':' := by
    rw [List.getD_eq_getElem?_getD, List.getElem?_append_right (le_refl _)]
    simp
  have h4 := appendHex_length_le g hg
  rw [parseIPv6Loop_succ, hx]
  simp only [IPv6len, hd0, hd1, hd2, hg0]
  rw [if_neg (by omega), if_neg (by simp; omega), if_neg (by simp), if_neg (by simp),
    if_neg (by simp), if_pos (by simp), if_neg (by simp), if_neg (by simp)]

/-- A field followed by the ellipsis at the end of the text. -/
theorem parseIPv6Loop_ellipsis_end (f g : Nat) (hg : g < 65536) (ip : IP)
    (hlen : ip.length < 16) :
    parseIPv6Loop (f + 1) (appendHex g ++ [':', ':']) ip none
      = some ([], ip ++ [g / 256 % 256, g % 256], some (ip.length + 2)) := by
  have hx := xtoi_appendHex g hg [':', ':'] (Or.inr ⟨':', _, rfl, hexVal_colon⟩)
  have hd0 : (appendHex g ++ [':', ':']).drop (appendHex g).length = [':', ':'] :=
    List.drop_left' rfl
  have hd1 : (appendHex g ++ [':', ':']).drop ((appendHex g).length + 1) = [':'] := by
    rw [← List.drop_drop, hd0]; rfl
  have hd2 : (appendHex g ++ [':', ':']).drop ((appendHex g).length + 2) = [] := by
    rw [← List.drop_drop, hd0]; rfl
  have hg0 : (appendHex g ++ [':', ':']).getD (appendHex g).length ' ' = ':' := by
    rw [List.getD_eq_getElem?_getD, List.getElem?_append_right (le_refl _)]
    simp
  have h4 := appendHex_length_le g hg
  rw [parseIPv6Loop_succ, hx]
  simp only [IPv6len, hd0, hd1, hd2, hg0]
  rw [if_neg (by omega), if_neg (by simp; omega), if_neg (by simp), if_neg (by simp),
    if_neg (by simp), if_pos (by simp), if_neg (by simp), if_pos (by simp)]

/-! ### The zero run -/

theorem zeroRunEnd_spec (p : IP) : ∀ (f j : Nat), j % 2 = 0 → j ≤ 16 →
    j ≤ zeroRunEnd p f j ∧ zeroRunEnd p f j % 2 = 0 ∧ zeroRunEnd p f j ≤ 16
      ∧ ∀ k, j ≤ k → k < zeroRunEnd p f j → p.getD k 0 = 0 := by
  intro f
  induction f with
  | zero =>
    intro j hj hle
    simp only [zeroRunEnd]
    exact ⟨le_refl _, hj, hle, fun k h1 h2 => by omega⟩
  | succ f ih =>
    intro j hj hle
    unfold zeroRunEnd
    split
    · rename_i hc
      simp only [IPv6len] at hc
      obtain ⟨h1, h2, h3, h4⟩ := ih (j + 2) (by omega) (by omega)
      refine ⟨by omega, h2, h3, ?_⟩
      intro k hk1 hk2
      by_cases hkj : k = j
      · rw [hkj]; exact hc.2.1
      · by_cases hkj1 : k = j + 1
        · rw [hkj1]; exact hc.2.2
        · exact h4 k (by omega) hk2
    · exact ⟨le_refl _, hj, hle, fun k h1 h2 => by omega⟩

theorem zeroRunLoop_spec (p : IP) : ∀ (f i : Nat) (e : Option (Nat × Nat)), i % 2 = 0 →
    (∀ e0 e1, e = some (e0, e1) → goodRun p e0 e1) →
    ∀ e0 e1, zeroRunLoop p f i e = some (e0, e1) → goodRun p e0 e1 := by
  intro f
  induction f with
  | zero =>
    intro i e _ he e0 e1 h
    exact he e0 e1 h
  | succ f ih =>
    intro i e hi he e0 e1 h
    unfold zeroRunLoop at h
    split at h
    · exact he e0 e1 h
    · rename_i hlt
      simp only [IPv6len, not_le] at hlt
      obtain ⟨h1, h2, h3, h4⟩ := zeroRunEnd_spec p 8 i hi (by omega)
      simp only [] at h
      split at h
      · rename_i hc
        refine ih _ _ (by omega) ?_ e0 e1 h
        intro a b hab
        simp only [Option.some.injEq, Prod.mk.injEq] at hab
        obtain ⟨rfl, rfl⟩ := hab
        exact ⟨hi, h2, hc.1, h3, h4⟩
      · exact ih _ _ (by omega) he e0 e1 h

theorem zeroRun_spec (p : IP) (e0 e1 : Nat) (h : zeroRun p = some (e0, e1)) :
    goodRun p e0 e1 ∧ e0 + 4 ≤ e1 := by
  unfold zeroRun at h
  split at h
  · simp at h
  · rename_i a b hab
    split at h
    · simp at h
    · rename_i hgt
      simp only [Option.some.injEq, Prod.mk.injEq] at h
      obtain ⟨rfl, rfl⟩ := h
      have hg := zeroRunLoop_spec p 8 0 none rfl (by intro _ _ hx; simp at hx) _ _ hab
      refine ⟨hg, ?_⟩
      obtain ⟨g1, g2, g3, -, -⟩ := hg
      omega

/-! ### One round of the IPv6 writer -/

theorem string6Loop_end (p : IP) (e : Option (Nat × Nat)) (f i : Nat) (hi : 16 ≤ i) :
    string6Loop p e f i = [] := by
  cases f with
  | zero => rfl
  | succ f =>
    unfold string6Loop
    rw [if_pos (show IPv6len ≤ i from hi)]

theorem string6Loop_none (p : IP) (f i : Nat) (hi : i < 16) :
    string6Loop p none (f + 1) i
      = (if 0 < i then [':'] else []) ++ appendHex (field p i) ++ string6Loop p none f (i + 2) := by
  rw [string6Loop, if_neg (by simp only [IPv6len]; omega)]
  rfl

theorem string6Loop_some_ne (p : IP) (e0 e1 f i : Nat) (hi : i < 16) (hne : i ≠ e0) :
    string6Loop p (some (e0, e1)) (f + 1) i
      = (if 0 < i then [':'] else []) ++ appendHex (field p i)
        ++ string6Loop p (some (e0, e1)) f (i + 2) := by
  rw [string6Loop, if_neg (by simp only [IPv6len]; omega)]
  simp only [runAt, hne, if_false]

theorem string6Loop_some_eq (p : IP) (e0 e1 f : Nat) (hi : e0 < 16) :
    string6Loop p (some (e0, e1)) (f + 1) e0
      = [':', ':'] ++ (if 16 ≤ e1 then []
          else appendHex (field p e1) ++ string6Loop p (some (e0, e1)) f (e1 + 2)) := by
  rw [string6Loop, if_neg (by simp only [IPv6len]; omega)]
  simp only [runAt, if_true, IPv6len]

/-! ### Fields and bytes -/

theorem field_lt (p : IP) (i : Nat) (hp : ∀ x ∈ p, x < 256) : field p i < 65536 := by
  unfold field
  have h1 := getD_lt p i hp
  have h2 := getD_lt p (i + 1) hp
  omega

theorem field_bytes (p : IP) (i : Nat) (hp : ∀ x ∈ p, x < 256) :
    [field p i / 256 % 256, field p i % 256] = [p.getD i 0, p.getD (i + 1) 0] := by
  unfold field
  have h1 := getD_lt p i hp
  have h2 := getD_lt p (i + 1) hp
  congr 1
  · omega
  · congr 1
    omega

theorem drop_two (p : IP) (i : Nat) (h : i + 2 ≤ p.length) :
    p.drop i = p.getD i 0 :: p.getD (i + 1) 0 :: p.drop (i + 2) := by
  have h1 : i < p.length := by omega
  have h2 : i + 1 < p.length := by omega
  rw [List.drop_eq_getElem_cons h1, List.drop_eq_getElem_cons h2]
  simp [List.getD_eq_getElem?_getD, List.getElem?_eq_getElem h1, List.getElem?_eq_getElem h2]

theorem take_two (p : IP) (i : Nat) (h : i + 2 ≤ p.length) :
    p.take (i + 2) = p.take i ++ [p.getD i 0, p.getD (i + 1) 0] := by
  have h1 : i < p.length := by omega
  have h2 : i + 1 < p.length := by omega
  rw [show i + 2 = i + 1 + 1 from rfl, List.take_succ, List.take_succ,
    List.getElem?_eq_getElem h1, List.getElem?_eq_getElem h2]
  simp only [Option.toList, List.append_assoc, List.singleton_append,
    List.getD_eq_getElem?_getD, List.getElem?_eq_getElem h1, List.getElem?_eq_getElem h2,
    Option.getD_some]

theorem appendHex_head (g : Nat) : ∃ c t, appendHex g = c :: t ∧ c ≠ ':' := by
  cases h : appendHex g with
  | nil => exact absurd h (appendHex_ne_nil g)
  | cons c t =>
    refine ⟨c, t, rfl, ?_⟩
    obtain ⟨v, hv, rfl⟩ := appendHex_chars g c (by rw [h]; simp)
    exact (hexDigit_ne v hv).1

/-! ### Writing then reading an IPv6 text -/

theorem drop_len (p : IP) (hp : isAddr 16 p) : p.drop 16 = [] := by
  rw [List.drop_eq_nil_iff]
  exact le_of_eq hp.1

theorem take_len (p : IP) (hp : isAddr 16 p) : p.take 16 = p := by
  rw [List.take_of_length_le (le_of_eq hp.1)]

/-- After the ellipsis: the fields from byte `i` on are read to the end of the text. -/
theorem parse_tail (p : IP) (hp : isAddr 16 p) (e0 e1 : Nat) (he : e0 < e1) :
    ∀ (k i F f : Nat) (acc : IP) (ell : Option Nat), i + 2 * (k + 1) = 16 → e1 ≤ i →
      16 ≤ 2 * f + (i + 2) → k + 1 ≤ F → acc.length + 2 * (k + 1) ≤ 16 →
      parseIPv6Loop F (appendHex (field p i) ++ string6Loop p (some (e0, e1)) f (i + 2)) acc ell
        = some ([], acc ++ p.drop i, ell) := by
  intro k
  induction k with
  | zero =>
    intro i F f acc ell hi _ _ hF hacc
    obtain ⟨F1, rfl⟩ : ∃ F1, F = F1 + 1 := ⟨F - 1, by omega⟩
    have h14 : i = 14 := by omega
    subst h14
    rw [string6Loop_end _ _ _ _ (by omega), List.append_nil,
      parseIPv6Loop_last _ _ (field_lt p 14 hp.2) _ _ (by omega), field_bytes p 14 hp.2,
      drop_two p 14 (by rw [hp.1]), drop_len p hp]
  | succ k ih =>
    intro i F f acc ell hi hei hf hF hacc
    obtain ⟨F1, rfl⟩ : ∃ F1, F = F1 + 1 := ⟨F - 1, by omega⟩
    obtain ⟨f1, rfl⟩ : ∃ f1, f = f1 + 1 := ⟨f - 1, by omega⟩
    obtain ⟨c, t, hct, hc⟩ := appendHex_head (field p (i + 2))
    rw [string6Loop_some_ne p e0 e1 f1 (i + 2) (by omega) (by omega), if_pos (by omega)]
    have e : appendHex (field p i) ++ ([':'] ++ appendHex (field p (i + 2))
        ++ string6Loop p (some (e0, e1)) f1 (i + 2 + 2))
        = appendHex (field p i) ++ ':' :: c
          :: (t ++ string6Loop p (some (e0, e1)) f1 (i + 2 + 2)) := by
      rw [hct]; rfl
    rw [e, parseIPv6Loop_colon _ _ (field_lt p i hp.2) _ _ _ _ hc (by omega)]
    have e2 : c :: (t ++ string6Loop p (some (e0, e1)) f1 (i + 2 + 2))
        = appendHex (field p (i + 2)) ++ string6Loop p (some (e0, e1)) f1 (i + 2 + 2) := by
      rw [hct]; rfl
    rw [e2, ih (i + 2) F1 f1 _ ell (by omega) (by omega) (by omega) (by omega)
      (by simp only [List.length_append, List.length_cons, List.length_nil]; omega),
      field_bytes p i hp.2, drop_two p i (by rw [hp.1]; omega)]
    simp

/-- Without a zero run: the eight fields are read in turn. -/
theorem parse_head_none (p : IP) (hp : isAddr 16 p) :
    ∀ (k i F f : Nat), i + 2 * (k + 1) = 16 → 16 ≤ 2 * f + (i + 2) → k + 1 ≤ F →
      parseIPv6Loop F (appendHex (field p i) ++ string6Loop p none f (i + 2)) (p.take i) none
        = some ([], p, none) := by
  intro k
  induction k with
  | zero =>
    intro i F f hi _ hF
    obtain ⟨F1, rfl⟩ : ∃ F1, F = F1 + 1 := ⟨F - 1, by omega⟩
    have h14 : i = 14 := by omega
    subst h14
    rw [string6Loop_end _ _ _ _ (by omega), List.append_nil,
      parseIPv6Loop_last _ _ (field_lt p 14 hp.2) _ _
        (by rw [List.length_take, hp.1]; omega),
      field_bytes p 14 hp.2, ← take_two p 14 (by rw [hp.1]), take_len p hp]
  | succ k ih =>
    intro i F f hi hf hF
    obtain ⟨F1, rfl⟩ : ∃ F1, F = F1 + 1 := ⟨F - 1, by omega⟩
    obtain ⟨f1, rfl⟩ : ∃ f1, f = f1 + 1 := ⟨f - 1, by omega⟩
    obtain ⟨c, t, hct, hc⟩ := appendHex_head (field p (i + 2))
    rw [string6Loop_none p f1 (i + 2) (by omega), if_pos (by omega)]
    have e : appendHex (field p i) ++ ([':'] ++ appendHex (field p (i + 2))
        ++ string6Loop p none f1 (i + 2 + 2))
        = appendHex (field p i) ++ ':' :: c :: (t ++ string6Loop p none f1 (i + 2 + 2)) := by
      rw [hct]; rfl
    rw [e, parseIPv6Loop_colon _ _ (field_lt p i hp.2) _ _ _ _ hc
      (by rw [List.length_take, hp.1]; omega)]
    have e2 : c :: (t ++ string6Loop p none f1 (i + 2 + 2))
        = appendHex (field p (i + 2)) ++ string6Loop p none f1 (i + 2 + 2) := by
      rw [hct]; rfl
    rw [e2, field_bytes p i hp.2, ← take_two p i (by rw [hp.1]; omega),
      ih (i + 2) F1 f1 (by omega) (by omega) (by omega)]

/-- Before the ellipsis: the fields up to the zero run are read, the ellipsis is noted,
and the fields after the run are read. -/
theorem parse_head_some (p : IP) (hp : isAddr 16 p) (e0 e1 : Nat) (hg : goodRun p e0 e1)
    (h4 : e0 + 4 ≤ e1) :
    ∀ (k i F f : Nat), i + 2 * (k + 1) = 16 → i < e0 → i % 2 = 0 → 16 ≤ 2 * f + (i + 2) →
      k + 1 ≤ F →
      parseIPv6Loop F (appendHex (field p i) ++ string6Loop p (some (e0, e1)) f (i + 2))
          (p.take i) none
        = some ([], p.take e0 ++ p.drop e1, some e0) := by
  obtain ⟨g0, g1, g2, g3, -⟩ := hg
  intro k
  induction k with
  | zero =>
    intro i F f hi hie _ _ _
    omega
  | succ k ih =>
    intro i F f hi hie hev hf hF
    obtain ⟨F1, rfl⟩ : ∃ F1, F = F1 + 1 := ⟨F - 1, by omega⟩
    obtain ⟨f1, rfl⟩ : ∃ f1, f = f1 + 1 := ⟨f - 1, by omega⟩
    have hlen : (p.take i).length < 16 := by rw [List.length_take, hp.1]; omega
    by_cases hie0 : i + 2 = e0
    · have hl2 : (p.take i).length + 2 = e0 := by rw [List.length_take, hp.1]; omega
      rw [hie0, string6Loop_some_eq p e0 e1 f1 (by omega)]
      by_cases h16 : 16 ≤ e1
      · have he1 : e1 = 16 := by omega
        rw [if_pos h16, List.append_nil,
          parseIPv6Loop_ellipsis_end _ _ (field_lt p i hp.2) _ hlen, field_bytes p i hp.2,
          ← take_two p i (by rw [hp.1]; omega), hl2, hie0, he1, drop_len p hp, List.append_nil]
      · rw [if_neg h16]
        obtain ⟨c, t, hct, hc⟩ := appendHex_head (field p e1)
        have e : appendHex (field p i) ++ ([':', ':'] ++ (appendHex (field p e1)
            ++ string6Loop p (some (e0, e1)) f1 (e1 + 2)))
            = appendHex (field p i) ++ ':' :: ':' :: c
              :: (t ++ string6Loop p (some (e0, e1)) f1 (e1 + 2)) := by
          rw [hct]; rfl
        rw [e, parseIPv6Loop_ellipsis _ _ (field_lt p i hp.2) _ _ _ hlen]
        have e2 : c :: (t ++ string6Loop p (some (e0, e1)) f1 (e1 + 2))
            = appendHex (field p e1) ++ string6Loop p (some (e0, e1)) f1 (e1 + 2) := by
          rw [hct]; rfl
        rw [e2, field_bytes p i hp.2, ← take_two p i (by rw [hp.1]; omega), hl2, hie0]
        obtain ⟨k1, hk1⟩ : ∃ k1, e1 + 2 * (k1 + 1) = 16 := ⟨(16 - e1) / 2 - 1, by omega⟩
        exact parse_tail p hp e0 e1 g2 k1 e1 F1 f1 _ _ hk1 (le_refl _) (by omega) (by omega)
          (by rw [List.length_take, hp.1]; omega)
    · obtain ⟨c, t, hct, hc⟩ := appendHex_head (field p (i + 2))
      rw [string6Loop_some_ne p e0 e1 f1 (i + 2) (by omega) hie0, if_pos (by omega)]
      have e : appendHex (field p i) ++ ([':'] ++ appendHex (field p (i + 2))
          ++ string6Loop p (some (e0, e1)) f1 (i + 2 + 2))
          = appendHex (field p i) ++ ':' :: c
            :: (t ++ string6Loop p (some (e0, e1)) f1 (i + 2 + 2)) := by
        rw [hct]; rfl
      rw [e, parseIPv6Loop_colon _ _ (field_lt p i hp.2) _ _ _ _ hc hlen]
      have e2 : c :: (t ++ string6Loop p (some (e0, e1)) f1 (i + 2 + 2))
          = appendHex (field p (i + 2)) ++ string6Loop p (some (e0, e1)) f1 (i + 2 + 2) := by
        rw [hct]; rfl
      rw [e2, field_bytes p i hp.2, ← take_two p i (by rw [hp.1]; omega),
        ih (i + 2) F1 f1 (by omega) (by omega) (by omega) (by omega) (by omega)]

theorem zeros_between (p : IP) (e0 e1 : Nat) (hle : e0 ≤ e1) (hlen : e1 ≤ p.length)
    (hz : ∀ k, e0 ≤ k → k < e1 → p.getD k 0 = 0) :
    p.take e0 ++ List.replicate (e1 - e0) 0 ++ p.drop e1 = p := by
  have hmid : (p.drop e0).take (e1 - e0) = List.replicate (e1 - e0) 0 := by
    rw [List.eq_replicate_iff]
    refine ⟨by rw [List.length_take, List.length_drop]; omega, ?_⟩
    intro b hb
    obtain ⟨n, hn, rfl⟩ := List.mem_iff_getElem.mp hb
    rw [List.length_take, List.length_drop] at hn
    have hidx : e0 + n < p.length := by omega
    have := hz (e0 + n) (by omega) (by omega)
    rw [List.getD_eq_getElem?_getD, List.getElem?_eq_getElem hidx] at this
    simpa using this
  have hd : (p.drop e0).drop (e1 - e0) = p.drop e1 := by
    rw [List.drop_drop]
    congr 1
    omega
  rw [← hmid, ← hd, List.append_assoc, List.take_append_drop, List.take_append_drop]

theorem parseIPv6_ellipsis_only : parseIPv6 [':', ':'] = List.replicate 16 0 := by decide

theorem parseIPv6_lead (c : Char) (t : Str) :
    parseIPv6 (':' :: ':' :: c :: t) = parseIPv6Finish (parseIPv6Loop 9 (c :: t) [] (some 0)) := by
  rfl

theorem parseIPv6_plain (c : Char) (t : Str) (hc : c ≠ ':') :
    parseIPv6 (c :: t) = parseIPv6Finish (parseIPv6Loop 9 (c :: t) [] none) := by
  unfold parseIPv6
  split
  · rename_i h
    simp only [List.cons.injEq] at h
    exact absurd h.1 hc
  · rename_i h
    simp only [List.cons.injEq] at h
    exact absurd h.1 hc
  · rfl

theorem replicate_zero_of (p : IP) (hp : isAddr 16 p) (hz : ∀ k, 0 ≤ k → k < 16 → p.getD k 0 = 0) :
    List.replicate 16 0 = p := by
  have := zeros_between p 0 16 (by omega) (le_of_eq hp.1.symm) hz
  rw [List.take_zero, drop_len p hp] at this
  simpa using this

/-- The IPv6 text of a 16-byte address reads back as the address. -/
theorem parseIPv6_string6 (p : IP) (hp : isAddr 16 p) :
    parseIPv6 (string6Loop p (zeroRun p) 9 0) = p := by
  cases hrun : zeroRun p with
  | none =>
    obtain ⟨c, t, hct, hc⟩ := appendHex_head (field p 0)
    rw [string6Loop_none p 8 0 (by omega), if_neg (by omega), List.nil_append]
    have e : appendHex (field p 0) ++ string6Loop p none 8 (0 + 2)
        = c :: (t ++ string6Loop p none 8 (0 + 2)) := by rw [hct]; rfl
    rw [e, parseIPv6_plain c _ hc, ← e]
    have := parse_head_none p hp 7 0 9 8 (by omega) (by omega) (by omega)
    rw [List.take_zero] at this
    rw [this]
    simp [parseIPv6Finish, hp.1, IPv6len]
  | some e =>
    obtain ⟨e0, e1⟩ := e
    obtain ⟨hg, h4⟩ := zeroRun_spec p e0 e1 hrun
    have hg' := hg
    obtain ⟨g0, g1, g2, g3, gz⟩ := hg'
    by_cases h0 : e0 = 0
    · subst h0
      rw [string6Loop_some_eq p 0 e1 8 (by omega)]
      by_cases h16 : 16 ≤ e1
      · have he1 : e1 = 16 := by omega
        subst he1
        rw [if_pos h16, List.append_nil, parseIPv6_ellipsis_only]
        exact replicate_zero_of p hp gz
      · rw [if_neg h16]
        obtain ⟨c, t, hct, hc⟩ := appendHex_head (field p e1)
        have e : [':', ':'] ++ (appendHex (field p e1) ++ string6Loop p (some (0, e1)) 8 (e1 + 2))
            = ':' :: ':' :: c :: (t ++ string6Loop p (some (0, e1)) 8 (e1 + 2)) := by
          rw [hct]; rfl
        have e2 : c :: (t ++ string6Loop p (some (0, e1)) 8 (e1 + 2))
            = appendHex (field p e1) ++ string6Loop p (some (0, e1)) 8 (e1 + 2) := by
          rw [hct]; rfl
        rw [e, parseIPv6_lead, e2]
        obtain ⟨k1, hk1⟩ : ∃ k1, e1 + 2 * (k1 + 1) = 16 := ⟨(16 - e1) / 2 - 1, by omega⟩
        rw [parse_tail p hp 0 e1 g2 k1 e1 9 8 [] (some 0) hk1 (le_refl _) (by omega) (by omega)
          (by simp only [List.length_nil]; omega)]
        have hl : (([] : IP) ++ p.drop e1).length = 16 - e1 := by
          rw [List.nil_append, List.length_drop, hp.1]
        unfold parseIPv6Finish
        simp only [List.length_nil, ne_eq, not_true_eq_false, if_false, hl, IPv6len]
        rw [if_pos (by omega)]
        simp only [List.take_zero, List.nil_append, List.drop_zero]
        have := zeros_between p 0 e1 (by omega) (by rw [hp.1]; exact g3) gz
        rw [List.take_zero, List.nil_append] at this
        rw [show 16 - (16 - e1) = e1 - 0 by omega]
        exact this
    · obtain ⟨c, t, hct, hc⟩ := appendHex_head (field p 0)
      rw [string6Loop_some_ne p e0 e1 8 0 (by omega) (fun h => h0 h.symm), if_neg (by omega),
        List.nil_append]
      have e : appendHex (field p 0) ++ string6Loop p (some (e0, e1)) 8 (0 + 2)
          = c :: (t ++ string6Loop p (some (e0, e1)) 8 (0 + 2)) := by rw [hct]; rfl
      rw [e, parseIPv6_plain c _ hc, ← e]
      have := parse_head_some p hp e0 e1 hg h4 7 0 9 8 (by omega) (by omega) (by omega)
        (by omega) (by omega)
      rw [List.take_zero] at this
      rw [this]
      have hl : (p.take e0 ++ p.drop e1).length = 16 - (e1 - e0) := by
        rw [List.length_append, List.length_take, List.length_drop, hp.1]; omega
      unfold parseIPv6Finish
      simp only [List.length_nil, ne_eq, not_true_eq_false, if_false, hl, IPv6len]
      rw [if_pos (by omega)]
      have ht : (p.take e0 ++ p.drop e1).take e0 = p.take e0 := by
        rw [List.take_append_of_le_length (by rw [List.length_take, hp.1]; omega),
          List.take_take]
        simp
      have hd : (p.take e0 ++ p.drop e1).drop e0 = p.drop e1 := by
        rw [List.drop_append_of_le_length (by rw [List.length_take, hp.1]; omega),
          List.drop_take]
        simp
      rw [ht, hd, show 16 - (16 - (e1 - e0)) = e1 - e0 by omega]
      exact zeros_between p e0 e1 (by omega) (by rw [hp.1]; exact g3) gz

theorem string6Loop_chars (p : IP) (e : Option (Nat × Nat)) : ∀ (f i : Nat) (c : Char),
    c ∈ string6Loop p e f i → c = ':' ∨ ∃ v, v < 16 ∧ c = hexDigit v := by
  intro f
  induction f with
  | zero => intro i c hc; simp [string6Loop] at hc
  | succ f ih =>
    intro i c hc
    rw [string6Loop] at hc
    split at hc
    · simp at hc
    · split at hc
      · rename_i e1 _
        simp only [List.mem_append, List.mem_cons, List.not_mem_nil, or_false] at hc
        rcases hc with (hc | hc) | hc
        · exact Or.inl hc
        · exact Or.inl hc
        · split at hc
          · simp at hc
          · rw [List.mem_append] at hc
            rcases hc with hc | hc
            · exact Or.inr (appendHex_chars _ c hc)
            · exact ih _ c hc
      · simp only [List.mem_append] at hc
        rcases hc with (hc | hc) | hc
        · split at hc
          · rw [List.mem_singleton] at hc
            exact Or.inl hc
          · simp at hc
        · exact Or.inr (appendHex_chars _ c hc)
        · exact ih _ c hc

theorem string6Loop_colon_mem (p : IP) (e : Option (Nat × Nat)) (f i : Nat) (h0 : 0 < i)
    (hi : i < 16) : ':' ∈ string6Loop p e (f + 1) i := by
  rw [string6Loop, if_neg (by simp only [IPv6len]; omega)]
  split
  · simp
  · rw [if_pos h0]
    simp

theorem string6_colon_mem (p : IP) (e : Option (Nat × Nat)) : ':' ∈ string6Loop p e 9 0 := by
  rw [string6Loop, if_neg (by simp only [IPv6len]; omega)]
  split
  · simp
  · rw [List.mem_append]
    exact Or.inr (string6Loop_colon_mem p e 7 2 (by omega) (by omega))

theorem parseIPScan_v6 (s : Str) : ∀ t : Str, (∀ c ∈ t, c ≠ '.') → ':' ∈ t →
    parseIPScan s t = parseIPv6 s := by
  intro t
  induction t with
  | nil => intro _ h; simp at h
  | cons c cs ih =>
    intro hall hmem
    unfold parseIPScan
    rw [if_neg (hall c (by simp))]
    by_cases hc : c = ':'
    · rw [if_pos hc]
    · rw [if_neg hc]
      apply ih
      · intro x hx; exact hall x (by simp [hx])
      · rcases List.mem_cons.mp hmem with h | h
        · exact absurd h.symm hc
        · exact h

theorem v4_form (ip : IP) (hip : isAddr 16 ip)
    (h : ip.take 10 = List.replicate 10 0 ∧ ip.getD 10 0 = 0xff ∧ ip.getD 11 0 = 0xff) :
    ip = IPv4 (ip.getD 12 0) (ip.getD 13 0) (ip.getD 14 0) (ip.getD 15 0)
      ∧ ip.drop 12 = [ip.getD 12 0, ip.getD 13 0, ip.getD 14 0, ip.getD 15 0] := by
  have h12 : ip.take 12 = v4InV6Pfx := by
    rw [take_two ip 10 (by have := hip.1; omega), h.1, h.2.1, h.2.2]
    rfl
  have hd : ip.drop 12 = [ip.getD 12 0, ip.getD 13 0, ip.getD 14 0, ip.getD 15 0] := by
    rw [drop_two ip 12 (by have := hip.1; omega), drop_two ip 14 (by have := hip.1; omega), drop_len ip hip]
  refine ⟨?_, hd⟩
  unfold IPv4
  rw [← h12, ← hd, List.take_append_drop]

/-- The text of a 16-byte address reads back as the address. -/
theorem ParseIP_ipString (ip : IP) (h : isAddr 16 ip) : ParseIP (ipString ip) = ip := by
  unfold ipString
  rw [if_neg (by rw [h.1]; omega)]
  simp only []
  by_cases hv4 : ip.take 10 = List.replicate 10 0 ∧ ip.getD 10 0 = 0xff ∧ ip.getD 11 0 = 0xff
  · obtain ⟨hform, hd⟩ := v4_form ip h hv4
    have hto4 : ipTo4 ip = ip.drop 12 := by
      unfold ipTo4
      rw [if_neg (by rw [h.1]; simp [IPv4len]), if_pos ⟨h.1, hv4⟩]
    rw [hto4, hd]
    simp only [List.length_cons, List.length_nil, IPv4len, if_true, List.getD_cons_zero,
      List.getD_cons_succ, Nat.reduceAdd, List.append_assoc, List.singleton_append,
      List.cons_append, List.nil_append]
    have b12 := getD_lt ip 12 h.2
    have b13 := getD_lt ip 13 h.2
    have b14 := getD_lt ip 14 h.2
    have b15 := getD_lt ip 15 h.2
    have hp4 := parseIPv4_dotted _ _ _ _ b12 b13 b14 b15
    rw [ParseIP_v4 _ (by rw [hp4]; simp [IPv4, v4InV6Pfx]), hp4]
    exact hform.symm
  · have hto4 : ipTo4 ip = [] := by
      unfold ipTo4
      rw [if_neg (by rw [h.1]; simp [IPv4len]), if_neg (fun hc => hv4 hc.2)]
    rw [hto4]
    simp only [List.length_nil, IPv4len]
    rw [if_neg (by omega), if_neg (by rw [h.1]; simp [IPv6len])]
    unfold ParseIP
    rw [parseIPScan_v6 _ _ ?_ (string6_colon_mem ip _), parseIPv6_string6 ip h]
    intro c hc
    rcases string6Loop_chars ip _ _ _ c hc with rfl | ⟨v, hv, rfl⟩
    · decide
    · exact (hexDigit_ne v hv).2

/-! ### What the readers return -/

theorem parseIPv6Loop_inv : ∀ (F : Nat) (s : Str) (ip : IP) (ell : Option Nat) (s1 : Str)
    (ip1 : IP) (ell1 : Option Nat), parseIPv6Loop F s ip ell = some (s1, ip1, ell1) →
    ip.length % 2 = 0 → ip.length ≤ 16 → (∀ x ∈ ip, x < 256) → (∀ e, ell = some e → e ≤ ip.length) →
    ip1.length ≤ 16 ∧ (∀ x ∈ ip1, x < 256) ∧ (∀ e, ell1 = some e → e ≤ ip1.length) := by
  intro F
  induction F with
  | zero =>
    intro s ip ell s1 ip1 ell1 h _ hle hb he
    simp only [parseIPv6Loop, Option.some.injEq, Prod.mk.injEq] at h
    obtain ⟨-, rfl, rfl⟩ := h
    exact ⟨hle, hb, he⟩
  | succ F ih =>
    intro s ip ell s1 ip1 ell1 h hev hle hb he
    have hb2 : ∀ x ∈ ip ++ [(xtoi s).1 / 256 % 256, (xtoi s).1 % 256], x < 256 := by
      intro x hx
      simp only [List.mem_append, List.mem_cons, List.not_mem_nil, or_false] at hx
      rcases hx with hx | rfl | rfl
      · exact hb x hx
      · exact Nat.mod_lt _ (by omega)
      · exact Nat.mod_lt _ (by omega)
    have hl2 : (ip ++ [(xtoi s).1 / 256 % 256, (xtoi s).1 % 256]).length = ip.length + 2 := by
      simp
    rw [parseIPv6Loop_succ] at h
    simp only [IPv6len, IPv4len] at h
    split at h
    · simp only [Option.some.injEq, Prod.mk.injEq] at h
      obtain ⟨-, rfl, rfl⟩ := h
      exact ⟨hle, hb, he⟩
    · rename_i hlt
      split at h
      · simp at h
      · split at h
        · split at h
          · simp at h
          · split at h
            · simp at h
            · rename_i hroom
              split at h
              · simp at h
              · rename_i hne
                simp only [Option.some.injEq, Prod.mk.injEq] at h
                obtain ⟨-, rfl, rfl⟩ := h
                have h4 : isAddr 16 (parseIPv4 s) := by
                  rcases parseIPv4_isAddr s with h0 | h1
                  · exact absurd h0 hne
                  · exact h1
                refine ⟨?_, ?_, ?_⟩
                · rw [List.length_append, List.length_drop, h4.1]; omega
                · intro x hx
                  rw [List.mem_append] at hx
                  rcases hx with hx | hx
                  · exact hb x hx
                  · exact h4.2 x (List.mem_of_mem_drop hx)
                · intro e hee
                  have := he e hee
                  rw [List.length_append]
                  omega
        · split at h
          · simp only [Option.some.injEq, Prod.mk.injEq] at h
            obtain ⟨-, rfl, rfl⟩ := h
            refine ⟨by rw [hl2]; omega, hb2, ?_⟩
            intro e hee
            have := he e hee
            rw [hl2]; omega
          · split at h
            · simp at h
            · split at h
              · split at h
                · simp at h
                · split at h
                  · simp only [Option.some.injEq, Prod.mk.injEq] at h
                    obtain ⟨-, rfl, rfl⟩ := h
                    refine ⟨by rw [hl2]; omega, hb2, ?_⟩
                    intro e hee
                    simp only [Option.some.injEq] at hee
                    rw [hl2]; omega
                  · refine ih _ _ _ _ _ _ h (by rw [hl2]; omega) (by rw [hl2]; omega) hb2 ?_
                    intro e hee
                    simp only [Option.some.injEq] at hee
                    rw [hl2]; omega
              · refine ih _ _ _ _ _ _ h (by rw [hl2]; omega) (by rw [hl2]; omega) hb2 ?_
                intro e hee
                have := he e hee
                rw [hl2]; omega

theorem parseIPv6Finish_isAddr (r : Option (Str × IP × Option Nat))
    (h : ∀ s1 ip1 ell1, r = some (s1, ip1, ell1) →
      ip1.length ≤ 16 ∧ (∀ x ∈ ip1, x < 256) ∧ (∀ e, ell1 = some e → e ≤ ip1.length)) :
    parseIPv6Finish r = [] ∨ isAddr 16 (parseIPv6Finish r) := by
  cases r with
  | none => exact Or.inl rfl
  | some v =>
    obtain ⟨s1, ip1, ell1⟩ := v
    obtain ⟨h1, h2, h3⟩ := h s1 ip1 ell1 rfl
    unfold parseIPv6Finish
    simp only [IPv6len]
    split
    · exact Or.inl rfl
    · split
      · rename_i hlt
        cases ell1 with
        | none => exact Or.inl rfl
        | some e =>
          have he := h3 e rfl
          refine Or.inr ⟨?_, ?_⟩
          · simp only [List.length_append, List.length_take, List.length_replicate,
              List.length_drop]
            omega
          · intro x hx
            simp only [List.mem_append, List.mem_replicate] at hx
            rcases hx with (hx | hx) | hx
            · exact h2 x (List.mem_of_mem_take hx)
            · omega
            · exact h2 x (List.mem_of_mem_drop hx)
      · rename_i hge
        cases ell1 with
        | none => exact Or.inr (show isAddr 16 ip1 from ⟨by omega, h2⟩)
        | some e => exact Or.inl rfl

theorem parseIPv6_isAddr (s : Str) : parseIPv6 s = [] ∨ isAddr 16 (parseIPv6 s) := by
  unfold parseIPv6
  split
  · refine Or.inr ⟨by simp [IPv6len], ?_⟩
    intro x hx
    rw [List.mem_replicate] at hx
    omega
  · apply parseIPv6Finish_isAddr
    intro s1 ip1 ell1 h
    exact parseIPv6Loop_inv _ _ _ _ _ _ _ h rfl (by simp) (by simp) (by
      intro e he
      simp only [Option.some.injEq] at he
      simp [← he])
  · apply parseIPv6Finish_isAddr
    intro s1 ip1 ell1 h
    exact parseIPv6Loop_inv _ _ _ _ _ _ _ h rfl (by simp) (by simp) (by simp)

theorem parseIPScan_isAddr (s : Str) : ∀ t : Str,
    parseIPScan s t = [] ∨ isAddr 16 (parseIPScan s t) := by
  intro t
  induction t with
  | nil => exact Or.inl rfl
  | cons c cs ih =>
    unfold parseIPScan
    split
    · exact parseIPv4_isAddr s
    · split
      · exact parseIPv6_isAddr s
      · exact ih

/-- The function `ParseIP` returns `nil` or a 16-byte address. -/
theorem ParseIP_isAddr (s : Str) : ParseIP s = [] ∨ isAddr 16 (ParseIP s) :=
  parseIPScan_isAddr s s

/-- The address that `ParseCIDR` returns is a 16-byte address. -/
theorem ParseCIDR_isAddr (s : Str) (ip : IP) (net : IPNet) (h : ParseCIDR s = .ok (ip, net)) :
    isAddr 16 ip := by
  unfold ParseCIDR at h
  cases hi : indexByte s '/' with
  | none => rw [hi] at h; simp at h
  | some i =>
    rw [hi] at h
    simp only [] at h
    by_cases h4 : parseIPv4 (s.take i) = []
    · simp only [h4, if_true] at h
      split at h
      · simp at h
      · rename_i hc
        simp only [not_or] at hc
        simp only [Outcome.ok.injEq, Prod.mk.injEq] at h
        obtain ⟨rfl, -⟩ := h
        rcases parseIPv6_isAddr (s.take i) with h0 | h1
        · exact absurd h0 hc.1
        · exact h1
    · simp only [h4, if_false] at h
      split at h
      · simp at h
      · simp only [Outcome.ok.injEq, Prod.mk.injEq] at h
        obtain ⟨rfl, -⟩ := h
        rcases parseIPv4_isAddr (s.take i) with h0 | h1
        · exact absurd h0 h4
        · exact h1

/-! ## The lease table as the allocator reads it -/

theorem mapGet_cons {α : Type} (e : Str × α) (t : List (Str × α)) (k : Str) :
    mapGet (e :: t) k = if e.1 = k then some e.2 else mapGet t k := rfl

theorem mapGet_isSome {α : Type} (m : List (Str × α)) (k : Str) :
    (mapGet m k).isSome = true ↔ ∃ e, e ∈ m ∧ e.1 = k := by
  induction m with
  | nil =>
    constructor
    · intro h; exact absurd h (by simp [mapGet])
    · rintro ⟨e, he, -⟩; exact absurd he (List.not_mem_nil e)
  | cons e t ih =>
    rw [mapGet_cons]
    by_cases h : e.1 = k
    · rw [if_pos h]
      exact ⟨fun _ => ⟨e, List.mem_cons_self e t, h⟩, fun _ => rfl⟩
    · rw [if_neg h, ih]
      constructor
      · rintro ⟨x, hx, hk⟩
        exact ⟨x, List.mem_cons_of_mem e hx, hk⟩
      · rintro ⟨x, hx, hk⟩
        rcases List.mem_cons.mp hx with rfl | hx
        · exact absurd hk h
        · exact ⟨x, hx, hk⟩

theorem mapGet_eq_none {α : Type} (m : List (Str × α)) (k : Str) :
    mapGet m k = none ↔ ∀ e, e ∈ m → e.1 ≠ k := by
  induction m with
  | nil =>
    constructor
    · intro _ e he; exact absurd he (List.not_mem_nil e)
    · intro _; rfl
  | cons e t ih =>
    rw [mapGet_cons]
    by_cases h : e.1 = k
    · rw [if_pos h]
      constructor
      · intro h1; exact absurd h1 (by simp)
      · intro h1; exact absurd h (h1 e (List.mem_cons_self e t))
    · rw [if_neg h, ih]
      constructor
      · intro h1 x hx
        rcases List.mem_cons.mp hx with rfl | hx
        · exact h
        · exact h1 x hx
      · intro h1 x hx
        exact h1 x (List.mem_cons_of_mem e hx)

theorem mapGet_map_none {α β : Type} (m : List (Str × α)) (g : α → β) (k : Str)
    (h : mapGet m k = none) : mapGet (m.map (fun e => (e.1, g e.2))) k = none := by
  rw [mapGet_eq_none] at h ⊢
  intro e he
  simp only [List.mem_map] at he
  obtain ⟨x, hx, rfl⟩ := he
  exact h x hx

/-- The text of an address determines it, among the results of `ParseIP`. -/
theorem ipString_inj (x ip : IP) (hx : x = [] ∨ isAddr 16 x) (hip : isAddr 16 ip)
    (h : ipString x = ipString ip) : x = ip := by
  rcases hx with rfl | hx
  · have h1 := ParseIP_ipString ip hip
    rw [← h] at h1
    have h2 : ParseIP (ipString []) = [] := by decide
    rw [h2] at h1
    exact h1
  · rw [← ParseIP_ipString x hx, ← ParseIP_ipString ip hip, h]

/-- The lookup table of `allocateIP` holds the text of `ip` exactly when `ip` is a value of
the lease table. -/
theorem lookup_isSome (T : List (Str × Str)) (ip : IP) (hip : isAddr 16 ip) :
    (mapGet ((T.map (fun e => (e.1, ParseIP e.2))).map (fun e => (ipString e.2, e.1)))
      (ipString ip)).isSome = true ↔ leased T ip := by
  rw [mapGet_isSome]
  unfold leased
  constructor
  · rintro ⟨e, he, hk⟩
    simp only [List.mem_map] at he
    obtain ⟨x, ⟨y, hy, rfl⟩, rfl⟩ := he
    exact ⟨y, hy, ipString_inj _ _ (ParseIP_isAddr _) hip hk⟩
  · rintro ⟨e, he, rfl⟩
    exact ⟨(ipString (ParseIP e.2), e.1), by
      simp only [List.mem_map]
      exact ⟨(e.1, ParseIP e.2), ⟨e, he, rfl⟩, rfl⟩, rfl⟩

theorem hset_absent (T : List (Str × Str)) (id v : Str) (h : mapGet T id = none) :
    hset T id v = T ++ [(id, v)] := by
  unfold hset
  rw [mapGet_eq_none] at h
  rw [List.filter_eq_self.mpr]
  intro e he
  simpa using h e he

theorem isAddr_set (n : Nat) (ip : IP) (i v : Nat) (h : isAddr n ip) (hv : v < 256) :
    isAddr n (ip.set i v) := by
  refine ⟨by rw [List.length_set]; exact h.1, ?_⟩
  intro x hx
  rcases List.mem_or_eq_of_mem_set hx with hx | rfl
  · exact h.2 x hx
  · exact hv

/-- What `parseSubnetRange` returns: the end is a 16-byte address, the start is one too or
is `nil`. -/
theorem parseSubnetRange_isAddr (spec : Str) (r : subnetRange)
    (h : parseSubnetRange spec = .ok r) :
    isAddr 16 r.End ∧ (r.Start = [] ∨ isAddr 16 r.Start) := by
  unfold parseSubnetRange at h
  simp only [] at h
  split at h
  · split at h
    · rename_i ip sub hc
      have hip := ParseCIDR_isAddr _ _ _ hc
      split at h
      · simp at h
      · simp only [Outcome.ok.injEq] at h
        subst h
        exact ⟨isAddr_set _ _ _ _ hip (by omega), Or.inr hip⟩
    all_goals simp at h
  · split at h
    · simp at h
    · split at h
      · rename_i ip sub hc
        have hip := ParseCIDR_isAddr _ _ _ hc
        simp only [Outcome.ok.injEq] at h
        subst h
        exact ⟨hip, ParseIP_isAddr _⟩
      all_goals simp at h

theorem validIP_reserved (a : IP) (n : Nat) (h : isAddr (n + 1) a) :
    (validIP a = some false ↔ reservedSuffix a) ∧ (validIP a = some true ↔ ¬ reservedSuffix a) := by
  rcases List.eq_nil_or_concat a with h0 | ⟨l, x, rfl⟩
  · rw [h0] at h; exact absurd h.1 (by simp)
  · rw [List.concat_eq_append]
    unfold validIP reservedSuffix
    have hl : (l ++ [x]).getLast? = some x := by simp
    rw [hl]
    by_cases hx : x = 0 ∨ x = 1 ∨ x = 255
    · simp [hx]
    · simp [hx]

/-! ## Allocation -/

theorem getIP_absent (b : Backend) (id : Str) (hb : b.reachable = true)
    (hid : mapGet b.ips id = none) : getIP b id = .ok [] := by
  unfold getIP getIPs getConn
  rw [if_pos hb]
  simp only []
  rw [mapGet_map_none _ _ _ hid]

/-- The function `allocateIP` for an identifier without an entry: its result is that of the
candidate loop over the range. -/
theorem allocateIP_absent (b : Backend) (id : Str) (r : subnetRange) (hb : b.reachable = true)
    (hid : mapGet b.ips id = none) :
    allocateIP b id r =
      match allocLoop ((b.ips.map (fun e => (e.1, ParseIP e.2))).map
          (fun e => (ipString e.2, e.1))) r.End (256 ^ r.Start.length) r.Start with
      | .ok (some ip) => (.ok ip, { b with ips := b.ips ++ [(id, ipString ip)] })
      | .ok none => (.err (.errorString "no available IPs".data), b)
      | .err e => (.err e, b)
      | .panic => (.panic, b)
      | .diverges => (.diverges, b) := by
  unfold allocateIP getIPs getConn
  rw [if_pos hb]
  simp only []
  rw [mapGet_map_none _ _ _ hid]
  simp only []
  split <;> simp_all [hset_absent]

theorem getOrAllocateIP_absent (b : Backend) (id spec : Str) (r : subnetRange)
    (hb : b.reachable = true) (hp : parseSubnetRange spec = .ok r)
    (hid : mapGet b.ips id = none) :
    getOrAllocateIP b id spec =
      match allocLoop ((b.ips.map (fun e => (e.1, ParseIP e.2))).map
          (fun e => (ipString e.2, e.1))) r.End (256 ^ r.Start.length) r.Start with
      | .ok (some ip) => (.ok (ip, r.Subnet), { b with ips := b.ips ++ [(id, ipString ip)] })
      | .ok none => (.err (.errorString "no available IPs".data), b)
      | .err e => (.err e, b)
      | .panic => (.panic, b)
      | .diverges => (.diverges, b) := by
  unfold getOrAllocateIP
  rw [hp]
  simp only []
  rw [getIP_absent b id hb hid]
  simp only [ne_eq, not_true_eq_false, if_false]
  rw [allocateIP_absent b id r hb hid]
  generalize allocLoop ((b.ips.map (fun e => (e.1, ParseIP e.2))).map
    (fun e => (ipString e.2, e.1))) r.End (256 ^ r.Start.length) r.Start = x
  cases x with
  | ok o => cases o <;> rfl
  | err e => rfl
  | panic => rfl
  | diverges => rfl

/-- Candidates below the least eligible address are passed over. -/
theorem skipped_of_not_eligible (T : List (Str × Str)) (r : subnetRange) (a : IP)
    (hlen : r.Start.length = 16) (ha : isAddr 16 a)
    (h1 : ipVal r.Start ≤ ipVal a) (h2 : ipVal a < ipVal r.End) (hne : ¬ eligible T r a) :
    skipped ((T.map (fun e => (e.1, ParseIP e.2))).map (fun e => (ipString e.2, e.1))) a := by
  have hv := validIP_reserved a 15 ha
  unfold skipped
  by_cases hr : reservedSuffix a
  · exact Or.inl (hv.1.mpr hr)
  · refine Or.inr ⟨hv.2.mpr hr, ?_⟩
    rw [lookup_isSome T a ha]
    by_contra hl
    exact hne ⟨by rw [hlen]; exact ha, h1, h2, hr, hl⟩

/-- C1: first fit. For a range that `parseSubnetRange` accepts, with start and end of the
same length, and an identifier without an entry, if `m` is the numerically least address
in `[start, end)` whose final octet is not 0, 1 or 255 and which is not a value of the
lease table, then `getOrAllocateIP` returns `m` with the parsed subnet, and the table
afterwards is the old one with the single entry `id -> text of m` added, a text that reads
back as `m`. -/
theorem getOrAllocateIP_first_fit (b : Backend) (id spec : Str) (r : subnetRange) (m : IP)
    (hb : b.reachable = true) (hp : parseSubnetRange spec = .ok r)
    (hlen : r.Start.length = r.End.length) (hid : mapGet b.ips id = none)
    (hm : eligible b.ips r m) (hmin : ∀ a, eligible b.ips r a → ipVal m ≤ ipVal a) :
    getOrAllocateIP b id spec
        = (.ok (m, r.Subnet), { b with ips := b.ips ++ [(id, ipString m)] })
      ∧ ParseIP (ipString m) = m := by
  obtain ⟨hE, hS⟩ := parseSubnetRange_isAddr spec r hp
  have hS16 : isAddr 16 r.Start := by
    rcases hS with h0 | h
    · rw [h0, hE.1] at hlen; exact absurd hlen (by simp)
    · exact h
  have hl16 : r.Start.length = 16 := hS16.1
  obtain ⟨hma, hm1, hm2, hm3, hm4⟩ := hm
  rw [hl16] at hma
  refine ⟨?_, ParseIP_ipString m hma⟩
  have heN := ipVal_lt 16 _ hE
  have key : allocLoop ((b.ips.map (fun e => (e.1, ParseIP e.2))).map
      (fun e => (ipString e.2, e.1))) r.End (256 ^ r.Start.length) r.Start = .ok (some m) := by
    have h := allocLoop_found ((b.ips.map (fun e => (e.1, ParseIP e.2))).map
      (fun e => (ipString e.2, e.1))) 16 (ipVal r.End) (ipVal m - ipVal r.Start)
      (ipVal r.Start) (256 ^ 16) (by omega) ?_ ?_ ?_ ?_
    · rw [ofVal_ipVal 16 _ hE, ofVal_ipVal 16 _ hS16,
        show ipVal r.Start + (ipVal m - ipVal r.Start) = ipVal m by omega,
        ofVal_ipVal 16 _ hma] at h
      rw [hl16]
      exact h
    · intro j hj
      rw [Nat.mod_eq_of_lt (by omega), Nat.mod_eq_of_lt heN]
      omega
    · intro j hj
      have hv : ipVal (ofVal 16 (ipVal r.Start + j)) = ipVal r.Start + j := by
        rw [ipVal_ofVal, Nat.mod_eq_of_lt (by omega)]
      apply skipped_of_not_eligible b.ips r _ hl16 (ofVal_isAddr 16 _)
      · rw [hv]; omega
      · rw [hv]; omega
      · intro he
        have := hmin _ he
        rw [hv] at this
        omega
    · rw [show ipVal r.Start + (ipVal m - ipVal r.Start) = ipVal m by omega,
        ofVal_ipVal 16 _ hma]
      exact (validIP_reserved m 15 hma).2.mpr hm3
    · rw [show ipVal r.Start + (ipVal m - ipVal r.Start) = ipVal m by omega,
        ofVal_ipVal 16 _ hma]
      cases hc : (mapGet ((b.ips.map (fun e => (e.1, ParseIP e.2))).map
        (fun e => (ipString e.2, e.1))) (ipString m)).isSome
      · rfl
      · exact absurd ((lookup_isSome b.ips m hma).mp hc) hm4
  rw [getOrAllocateIP_absent b id spec r hb hp hid, key]

/-- The candidate loop over a parsed range without an eligible address exits without a
candidate. -/
theorem allocLoop_no_eligible (T : List (Str × Str)) (spec : Str) (r : subnetRange)
    (hp : parseSubnetRange spec = .ok r) (hlen : r.Start.length = r.End.length)
    (hle : ipVal r.Start ≤ ipVal r.End) (hnone : ∀ a, ¬ eligible T r a) :
    allocLoop ((T.map (fun e => (e.1, ParseIP e.2))).map (fun e => (ipString e.2, e.1)))
      r.End (256 ^ r.Start.length) r.Start = .ok none := by
  obtain ⟨hE, hS⟩ := parseSubnetRange_isAddr spec r hp
  have hS16 : isAddr 16 r.Start := by
    rcases hS with h0 | h
    · rw [h0, hE.1] at hlen; exact absurd hlen (by simp)
    · exact h
  have hl16 : r.Start.length = 16 := hS16.1
  have heN := ipVal_lt 16 _ hE
  have h := allocLoop_exhaust ((T.map (fun e => (e.1, ParseIP e.2))).map
    (fun e => (ipString e.2, e.1))) 16 (ipVal r.End) (ipVal r.End - ipVal r.Start)
    (ipVal r.Start) (256 ^ 16) (by omega) ?_ ?_ ?_
  · rw [ofVal_ipVal 16 _ hE, ofVal_ipVal 16 _ hS16] at h
    rw [hl16]
    exact h
  · intro j hj
    rw [Nat.mod_eq_of_lt (by omega), Nat.mod_eq_of_lt heN]
    omega
  · rw [show ipVal r.Start + (ipVal r.End - ipVal r.Start) = ipVal r.End by omega]
  · intro j hj
    have hv : ipVal (ofVal 16 (ipVal r.Start + j)) = ipVal r.Start + j := by
      rw [ipVal_ofVal, Nat.mod_eq_of_lt (by omega)]
    apply skipped_of_not_eligible T r _ hl16 (ofVal_isAddr 16 _)
    · rw [hv]; omega
    · rw [hv]; omega
    · exact hnone _

/-- The candidate loop started at the `nil` address panics at its first candidate. -/
theorem allocLoop_nil_start (lookup : List (Str × Str)) (e : IP) (he : isAddr 16 e) :
    allocLoop lookup e (256 ^ ([] : IP).length) [] = .panic := by
  have h1 : ipEqual [] e = false := by
    unfold ipEqual
    simp [he.1, IPv4len, IPv6len]
  have e1 : 256 ^ ([] : IP).length = 0 + 1 := rfl
  rw [e1, allocLoop, h1]
  simp [validIP]

/-- C7: exhaustion. For a range that `parseSubnetRange` accepts with start not above end,
and an identifier without an entry, if no address in `[start, end)` has a final octet
outside 0, 1, 255 and is absent from the values of the lease table, then: when the start
is an address, `getOrAllocateIP` fails with `no available IPs` and the table is unchanged;
when the start is the `nil` that `parseSubnetRange` lets through, `getOrAllocateIP` panics
instead of failing with that error. -/
theorem getOrAllocateIP_exhausted (b : Backend) (id spec : Str) (r : subnetRange)
    (hb : b.reachable = true) (hp : parseSubnetRange spec = .ok r)
    (hle : ipVal r.Start ≤ ipVal r.End)
    (hid : mapGet b.ips id = none) (hnone : ∀ a, ¬ eligible b.ips r a) :
    (r.Start ≠ [] →
        getOrAllocateIP b id spec = (.err (.errorString "no available IPs".data), b))
      ∧ (r.Start = [] → getOrAllocateIP b id spec = (.panic, b)) := by
  obtain ⟨hE, hS⟩ := parseSubnetRange_isAddr spec r hp
  constructor
  · intro hne
    have hS16 : isAddr 16 r.Start := hS.resolve_left hne
    rw [getOrAllocateIP_absent b id spec r hb hp hid,
      allocLoop_no_eligible b.ips spec r hp (by rw [hS16.1, hE.1]) hle hnone]
  · intro h0
    rw [getOrAllocateIP_absent b id spec r hb hp hid, h0, allocLoop_nil_start _ r.End hE]

theorem eligible_ofVal (T : List (Str × Str)) (r : subnetRange) (a : IP) (h : eligible T r a) :
    a = ofVal r.Start.length (ipVal a) := (ofVal_ipVal _ a h.1).symm

/-- C1, on the range `10.100.0.1/24` with `10.100.0.2` leased to `c1`: the start has the
reserved final octet 1, the next address is leased, and `c2` gets `10.100.0.3`. -/
theorem getOrAllocateIP_first_fit_witness :
    (({ reachable := true, ips := [("c1".data, "10.100.0.2".data)] } : Backend).reachable = true
      ∧ parseSubnetRange "10.100.0.1/24".data = .ok
          { Start := IPv4 10 100 0 1, End := IPv4 10 100 0 254,
            Subnet := { IP := [10, 100, 0, 0], Mask := [255, 255, 255, 0] } }
      ∧ (IPv4 10 100 0 1).length = (IPv4 10 100 0 254).length
      ∧ mapGet [("c1".data, "10.100.0.2".data)] "c2".data = none
      ∧ eligible [("c1".data, "10.100.0.2".data)]
          { Start := IPv4 10 100 0 1, End := IPv4 10 100 0 254,
            Subnet := { IP := [10, 100, 0, 0], Mask := [255, 255, 255, 0] } } (IPv4 10 100 0 3)
      ∧ ∀ a, eligible [("c1".data, "10.100.0.2".data)]
          { Start := IPv4 10 100 0 1, End := IPv4 10 100 0 254,
            Subnet := { IP := [10, 100, 0, 0], Mask := [255, 255, 255, 0] } } a
          → ipVal (IPv4 10 100 0 3) ≤ ipVal a)
    ∧ (getOrAllocateIP { reachable := true, ips := [("c1".data, "10.100.0.2".data)] }
          "c2".data "10.100.0.1/24".data
        = (.ok (IPv4 10 100 0 3, { IP := [10, 100, 0, 0], Mask := [255, 255, 255, 0] }),
           { reachable := true,
             ips := [("c1".data, "10.100.0.2".data)]
               ++ [("c2".data, ipString (IPv4 10 100 0 3))] })
      ∧ ParseIP (ipString (IPv4 10 100 0 3)) = IPv4 10 100 0 3) :=
  have hp : parseSubnetRange "10.100.0.1/24".data = .ok
      { Start := IPv4 10 100 0 1, End := IPv4 10 100 0 254,
        Subnet := { IP := [10, 100, 0, 0], Mask := [255, 255, 255, 0] } } := by decide
  have hm : eligible [("c1".data, "10.100.0.2".data)]
      { Start := IPv4 10 100 0 1, End := IPv4 10 100 0 254,
        Subnet := { IP := [10, 100, 0, 0], Mask := [255, 255, 255, 0] } } (IPv4 10 100 0 3) := by
    unfold eligible isAddr reservedSuffix leased
    decide
  have hmin : ∀ a, eligible [("c1".data, "10.100.0.2".data)]
      { Start := IPv4 10 100 0 1, End := IPv4 10 100 0 254,
        Subnet := { IP := [10, 100, 0, 0], Mask := [255, 255, 255, 0] } } a
      → ipVal (IPv4 10 100 0 3) ≤ ipVal a := by
    intro a ha
    have hs : ipVal (IPv4 10 100 0 1) ≤ ipVal a := ha.2.1
    have e1 : ipVal (IPv4 10 100 0 1) = 281470856069121 := by decide
    have e3 : ipVal (IPv4 10 100 0 3) = 281470856069123 := by decide
    rw [e3]
    rw [e1] at hs
    by_contra hlt
    have hcase : ipVal a = 281470856069121 ∨ ipVal a = 281470856069122 := by omega
    have hofv := eligible_ofVal _ _ a ha
    rcases hcase with hc | hc
    · rw [hc] at hofv
      apply ha.2.2.2.1
      rw [hofv]
      unfold reservedSuffix
      decide
    · rw [hc] at hofv
      apply ha.2.2.2.2
      rw [hofv]
      unfold leased
      decide
  ⟨⟨rfl, hp, by decide, by decide, hm, hmin⟩,
    getOrAllocateIP_first_fit _ _ _ _ _ rfl hp (by decide) (by decide) hm hmin⟩

set_option maxRecDepth 100000 in
/-- C7, on the range `10.0.0.1-10.0.0.3/24` with `10.0.0.2` leased to `c1`, where the
start has the reserved final octet 1 and the only other candidate is leased: the call fails
with `no available IPs`. And on the range `bogus-::/0`, accepted with a `nil` start and
holding no address between start and end: the call panics. -/
theorem getOrAllocateIP_exhausted_witness :
    (((Backend.mk true [("c1".data, "10.0.0.2".data)]).reachable = true
      ∧ parseSubnetRange "10.0.0.1-10.0.0.3/24".data = .ok
          { Start := IPv4 10 0 0 1, End := IPv4 10 0 0 3,
            Subnet := { IP := [10, 0, 0, 0], Mask := [255, 255, 255, 0] } }
      ∧ ipVal (IPv4 10 0 0 1) ≤ ipVal (IPv4 10 0 0 3)
      ∧ mapGet [("c1".data, "10.0.0.2".data)] "c2".data = none
      ∧ ∀ a, ¬ eligible [("c1".data, "10.0.0.2".data)]
          { Start := IPv4 10 0 0 1, End := IPv4 10 0 0 3,
            Subnet := { IP := [10, 0, 0, 0], Mask := [255, 255, 255, 0] } } a)
      ∧ getOrAllocateIP (Backend.mk true [("c1".data, "10.0.0.2".data)])
          "c2".data "10.0.0.1-10.0.0.3/24".data
        = (.err (.errorString "no available IPs".data),
           Backend.mk true [("c1".data, "10.0.0.2".data)]))
    ∧ (((Backend.mk true []).reachable = true
      ∧ parseSubnetRange "bogus-::/0".data = .ok
          { Start := [], End := List.replicate 16 0,
            Subnet := { IP := List.replicate 16 0, Mask := List.replicate 16 0 } }
      ∧ ipVal [] ≤ ipVal (List.replicate 16 0)
      ∧ mapGet ([] : List (Str × Str)) "c1".data = none
      ∧ ∀ a, ¬ eligible []
          { Start := [], End := List.replicate 16 0,
            Subnet := { IP := List.replicate 16 0, Mask := List.replicate 16 0 } } a)
      ∧ getOrAllocateIP (Backend.mk true []) "c1".data "bogus-::/0".data
        = (.panic, Backend.mk true [])) :=
  have hp : parseSubnetRange "10.0.0.1-10.0.0.3/24".data = .ok
      { Start := IPv4 10 0 0 1, End := IPv4 10 0 0 3,
        Subnet := { IP := [10, 0, 0, 0], Mask := [255, 255, 255, 0] } } := by decide
  have hnone : ∀ a, ¬ eligible [("c1".data, "10.0.0.2".data)]
      { Start := IPv4 10 0 0 1, End := IPv4 10 0 0 3,
        Subnet := { IP := [10, 0, 0, 0], Mask := [255, 255, 255, 0] } } a := by
    intro a ha
    have hs : ipVal (IPv4 10 0 0 1) ≤ ipVal a := ha.2.1
    have he : ipVal a < ipVal (IPv4 10 0 0 3) := ha.2.2.1
    have e1 : ipVal (IPv4 10 0 0 1) = 281470849515521 := by decide
    have e3 : ipVal (IPv4 10 0 0 3) = 281470849515523 := by decide
    rw [e1] at hs
    rw [e3] at he
    have hcase : ipVal a = 281470849515521 ∨ ipVal a = 281470849515522 := by omega
    have hofv := eligible_ofVal _ _ a ha
    rcases hcase with hc | hc
    · rw [hc] at hofv
      apply ha.2.2.2.1
      rw [hofv]
      unfold reservedSuffix
      decide
    · rw [hc] at hofv
      apply ha.2.2.2.2
      rw [hofv]
      unfold leased
      decide
  have hp0 : parseSubnetRange "bogus-::/0".data = .ok
      { Start := [], End := List.replicate 16 0,
        Subnet := { IP := List.replicate 16 0, Mask := List.replicate 16 0 } } := by decide
  have hnone0 : ∀ a, ¬ eligible []
      { Start := [], End := List.replicate 16 0,
        Subnet := { IP := List.replicate 16 0, Mask := List.replicate 16 0 } } a := by
    intro a ha
    have he : ipVal a < ipVal (List.replicate 16 0) := ha.2.2.1
    have e0 : ipVal (List.replicate 16 0) = 0 := by decide
    rw [e0] at he
    omega
  ⟨⟨⟨rfl, hp, by decide, by decide, hnone⟩,
      (getOrAllocateIP_exhausted (Backend.mk true [("c1".data, "10.0.0.2".data)]) "c2".data
        "10.0.0.1-10.0.0.3/24".data _ rfl hp (by decide) (by decide) hnone).1 (by decide)⟩,
    ⟨⟨rfl, hp0, by decide, by decide, hnone0⟩,
      (getOrAllocateIP_exhausted (Backend.mk true []) "c1".data "bogus-::/0".data _ rfl hp0
        (by decide) (by decide) hnone0).2 rfl⟩⟩

theorem nextIP_isAddr (n : Nat) (ip : IP) (h : isAddr n ip) : isAddr n (nextIP ip) := by
  rw [← ofVal_ipVal n ip h, nextIP_ofVal]
  exact ofVal_isAddr n _

/-- A candidate returned by the loop has the length of the start address. -/
theorem allocLoop_isAddr (lookup : List (Str × Str)) (e : IP) (n : Nat) :
    ∀ (fuel : Nat) (ip x : IP), isAddr n ip → allocLoop lookup e fuel ip = .ok (some x) →
      isAddr n x := by
  intro fuel
  induction fuel with
  | zero => intro ip x _ h; simp [allocLoop] at h
  | succ f ih =>
    intro ip x hip h
    rw [allocLoop] at h
    split at h
    · simp at h
    · split at h
      · simp at h
      · exact ih _ _ (nextIP_isAddr n ip hip) h
      · split at h
        · exact ih _ _ (nextIP_isAddr n ip hip) h
        · simp only [Outcome.ok.injEq, Option.some.injEq] at h
          rw [← h]
          exact hip

theorem allocLoop_nil (lookup : List (Str × Str)) (e : IP) (he : isAddr 16 e) (fuel : Nat)
    (x : IP) : allocLoop lookup e fuel [] ≠ .ok (some x) := by
  cases fuel with
  | zero => simp [allocLoop]
  | succ f =>
    rw [allocLoop]
    have h1 : ipEqual [] e = false := by
      unfold ipEqual
      simp [he.1, IPv4len, IPv6len]
    rw [h1]
    simp [validIP]

/-- An address handed out by the loop over a parsed range is a 16-byte address. -/
theorem allocLoop_parsed_isAddr (lookup : List (Str × Str)) (spec : Str) (r : subnetRange)
    (hp : parseSubnetRange spec = .ok r) (fuel : Nat) (x : IP)
    (h : allocLoop lookup r.End fuel r.Start = .ok (some x)) : isAddr 16 x := by
  obtain ⟨hE, hS⟩ := parseSubnetRange_isAddr spec r hp
  rcases hS with h0 | hS
  · rw [h0] at h
    exact absurd h (allocLoop_nil lookup r.End hE fuel x)
  · exact allocLoop_isAddr lookup r.End 16 fuel _ x hS h

theorem mapGet_append_absent {α : Type} (m : List (Str × α)) (k : Str) (v : α)
    (h : mapGet m k = none) : mapGet (m ++ [(k, v)]) k = some v := by
  induction m with
  | nil => simp [mapGet]
  | cons e t ih =>
    rw [mapGet_cons] at h
    rw [List.cons_append, mapGet_cons]
    split at h
    · simp at h
    · rename_i hne
      rw [if_neg hne, ih h]

theorem getIP_of_mapGet (b : Backend) (id : Str) (hb : b.reachable = true) :
    getIP b id = match mapGet b.ips id with
      | some v => .ok (ParseIP v)
      | none => .ok [] := by
  unfold getIP getIPs getConn
  rw [if_pos hb]
  simp only []
  generalize b.ips = T
  induction T with
  | nil => rfl
  | cons e t ih =>
    rw [List.map_cons, mapGet_cons, mapGet_cons]
    by_cases h : e.1 = id
    · simp only [h, if_true]
    · simp only [h, if_false]
      exact ih

theorem allocateIP_present (b : Backend) (id : Str) (r : subnetRange) (v : Str)
    (hb : b.reachable = true) (hid : mapGet b.ips id = some v) :
    allocateIP b id r = (.ok (ParseIP v), b) := by
  have hm : mapGet (b.ips.map (fun e => (e.1, ParseIP e.2))) id = some (ParseIP v) := by
    revert hid
    generalize b.ips = T
    intro hid
    induction T with
    | nil => simp [mapGet] at hid
    | cons e t ih =>
      rw [mapGet_cons] at hid
      rw [List.map_cons, mapGet_cons]
      by_cases h : e.1 = id
      · simp only [h, if_true, Option.some.injEq] at hid ⊢
        rw [hid]
      · simp only [h, if_false] at hid ⊢
        exact ih hid
  unfold allocateIP getIPs getConn
  rw [if_pos hb]
  simp only []
  rw [hm]

theorem getOrAllocateIP_unreachable (b : Backend) (id spec : Str) (hb : b.reachable = false)
    (x : IP × IPNet) (b1 : Backend) : getOrAllocateIP b id spec ≠ (.ok x, b1) := by
  unfold getOrAllocateIP getIP getIPs getConn
  rw [hb]
  cases parseSubnetRange spec <;> simp

/-- The function `getOrAllocateIP` for an identifier that has an entry: no write. -/
theorem getOrAllocateIP_present (b : Backend) (id spec : Str) (r : subnetRange) (v : Str)
    (hb : b.reachable = true) (hp : parseSubnetRange spec = .ok r)
    (hid : mapGet b.ips id = some v) :
    getOrAllocateIP b id spec = (.ok (ParseIP v, r.Subnet), b) := by
  unfold getOrAllocateIP
  rw [hp]
  simp only []
  rw [getIP_of_mapGet b id hb, hid]
  simp only []
  by_cases h : ParseIP v = []
  · rw [if_neg (by simp [h]), allocateIP_present b id r v hb hid, h]
  · rw [if_pos h]

/-- C2: idempotence. If `getOrAllocateIP` succeeds with address `a` and subnet `net`,
leaving the backend in state `b1`, then the same call on `b1` returns the same address and
subnet and leaves `b1` as it is. -/
theorem getOrAllocateIP_idempotent (b b1 : Backend) (id spec : Str) (a : IP) (net : IPNet)
    (h : getOrAllocateIP b id spec = (.ok (a, net), b1)) :
    getOrAllocateIP b1 id spec = (.ok (a, net), b1) := by
  have hb : b.reachable = true := by
    cases hr : b.reachable
    · exact absurd h (getOrAllocateIP_unreachable b id spec hr _ _)
    · rfl
  cases hp : parseSubnetRange spec with
  | ok r =>
    cases hid : mapGet b.ips id with
    | some v =>
      rw [getOrAllocateIP_present b id spec r v hb hp hid] at h
      simp only [Prod.mk.injEq, Outcome.ok.injEq] at h
      obtain ⟨⟨ha, hn⟩, hb1⟩ := h
      subst hb1
      rw [getOrAllocateIP_present b id spec r v hb hp hid, ha, hn]
    | none =>
      rw [getOrAllocateIP_absent b id spec r hb hp hid] at h
      cases hl : allocLoop ((b.ips.map (fun e => (e.1, ParseIP e.2))).map
          (fun e => (ipString e.2, e.1))) r.End (256 ^ r.Start.length) r.Start with
      | ok o =>
        cases o with
        | none => rw [hl] at h; simp at h
        | some x =>
          rw [hl] at h
          simp only [Prod.mk.injEq, Outcome.ok.injEq] at h
          obtain ⟨⟨ha, hn⟩, hb1⟩ := h
          subst ha
          have hx := allocLoop_parsed_isAddr _ spec r hp _ _ hl
          have hid1 : mapGet b1.ips id = some (ipString x) := by
            rw [← hb1]
            exact mapGet_append_absent b.ips id _ hid
          have hb1r : b1.reachable = true := by rw [← hb1]; exact hb
          rw [getOrAllocateIP_present b1 id spec r _ hb1r hp hid1, ParseIP_ipString x hx, hn]
      | err e => rw [hl] at h; simp at h
      | panic => rw [hl] at h; simp at h
      | diverges => rw [hl] at h; simp at h
  | err e => unfold getOrAllocateIP at h; rw [hp] at h; simp at h
  | panic => unfold getOrAllocateIP at h; rw [hp] at h; simp at h
  | diverges => unfold getOrAllocateIP at h; rw [hp] at h; simp at h

set_option maxRecDepth 100000 in
/-- C2, on the range `10.100.0.1/24` and an empty table: the first call writes
`c1 -> 10.100.0.2`, the second returns the same address and writes nothing. -/
theorem getOrAllocateIP_idempotent_witness :
    getOrAllocateIP (Backend.mk true []) "c1".data "10.100.0.1/24".data
        = (.ok (IPv4 10 100 0 2, { IP := [10, 100, 0, 0], Mask := [255, 255, 255, 0] }),
           (Backend.mk true [("c1".data, "10.100.0.2".data)]))
    ∧ getOrAllocateIP (Backend.mk true [("c1".data, "10.100.0.2".data)])
          "c1".data "10.100.0.1/24".data
        = (.ok (IPv4 10 100 0 2, { IP := [10, 100, 0, 0], Mask := [255, 255, 255, 0] }),
           (Backend.mk true [("c1".data, "10.100.0.2".data)])) :=
  ⟨by decide, getOrAllocateIP_idempotent (Backend.mk true [])
    (Backend.mk true [("c1".data, "10.100.0.2".data)]) "c1".data "10.100.0.1/24".data
    (IPv4 10 100 0 2) { IP := [10, 100, 0, 0], Mask := [255, 255, 255, 0] } (by decide)⟩

/-! ## Release -/

theorem hdel_absent (T : List (Str × Str)) (id : Str) (h : mapGet T id = none) :
    hdel T id = T := by
  unfold hdel
  rw [mapGet_eq_none] at h
  rw [List.filter_eq_self]
  intro e he
  simpa using h e he

theorem mapGet_hdel_self (T : List (Str × Str)) (id : Str) : mapGet (hdel T id) id = none := by
  rw [mapGet_eq_none]
  intro e he
  unfold hdel at he
  rw [List.mem_filter] at he
  simpa using he.2

theorem mapGet_hdel_other (T : List (Str × Str)) (id k : Str) (hk : k ≠ id) :
    mapGet (hdel T id) k = mapGet T k := by
  unfold hdel
  induction T with
  | nil => rfl
  | cons e t ih =>
    by_cases he : e.1 = id
    · rw [List.filter_cons_of_neg (by simp [he]), ih, mapGet_cons,
        if_neg (by rw [he]; exact fun h => hk h.symm)]
    · rw [List.filter_cons_of_pos (by simp [he]), mapGet_cons, mapGet_cons, ih]

/-- C8: release. With a reachable backend and a lease table whose texts all read as
addresses, `releaseIP` returns no error and leaves the table with the entries of `id`
removed: `id` has no entry afterwards, every other identifier keeps its entry, a table
without an entry for `id` is unchanged, and a second release changes nothing more. -/
theorem releaseIP_removes (b : Backend) (id : Str) (hb : b.reachable = true)
    (hwf : ∀ e, e ∈ b.ips → ParseIP e.2 ≠ []) :
    releaseIP b id = (.ok (), { b with ips := hdel b.ips id })
      ∧ mapGet (releaseIP b id).2.ips id = none
      ∧ (∀ k, k ≠ id → mapGet (releaseIP b id).2.ips k = mapGet b.ips k)
      ∧ (mapGet b.ips id = none → (releaseIP b id).2 = b)
      ∧ releaseIP (releaseIP b id).2 id = (.ok (), (releaseIP b id).2) := by
  have key : ∀ (c : Backend), c.reachable = true → (∀ e, e ∈ c.ips → ParseIP e.2 ≠ []) →
      releaseIP c id = (.ok (), { c with ips := hdel c.ips id }) := by
    intro c hc hw
    unfold releaseIP getConn
    rw [if_pos hc]
    simp only []
    rw [getIP_of_mapGet c id hc]
    cases hid : mapGet c.ips id with
    | none =>
      simp only [ne_eq, not_true_eq_false, if_false]
      rw [hdel_absent c.ips id hid]
    | some v =>
      have hv : ParseIP v ≠ [] := by
        have hsome : (mapGet c.ips id).isSome = true := by rw [hid]; rfl
        obtain ⟨e, he, _⟩ := (mapGet_isSome c.ips id).mp hsome
        clear hsome
        revert hid
        generalize c.ips = T at hw
        intro hid
        induction T with
        | nil => simp [mapGet] at hid
        | cons e0 t ih =>
          rw [mapGet_cons] at hid
          by_cases h0 : e0.1 = id
          · simp only [h0, if_true, Option.some.injEq] at hid
            rw [← hid]
            exact hw e0 (List.mem_cons_self e0 t)
          · simp only [h0, if_false] at hid
            exact ih (fun x hx => hw x (List.mem_cons_of_mem e0 hx)) hid
      simp only []
      rw [if_pos hv]
  have h1 := key b hb hwf
  have hb2 : ({ b with ips := hdel b.ips id } : Backend).reachable = true := hb
  have hwf2 : ∀ e, e ∈ ({ b with ips := hdel b.ips id } : Backend).ips → ParseIP e.2 ≠ [] := by
    intro e he
    have : e ∈ hdel b.ips id := he
    unfold hdel at this
    exact hwf e (List.mem_filter.mp this).1
  refine ⟨h1, ?_, ?_, ?_, ?_⟩
  · rw [h1]; exact mapGet_hdel_self b.ips id
  · intro k hk; rw [h1]; exact mapGet_hdel_other b.ips id k hk
  · intro hid; rw [h1]; simp only []; rw [hdel_absent b.ips id hid]
  · rw [h1]
    simp only []
    rw [key _ hb2 hwf2]
    simp only []
    rw [hdel_absent (hdel b.ips id) id (mapGet_hdel_self b.ips id)]

/-- C8, on a table with two leases: releasing `c1` leaves the lease of `c0`. -/
theorem releaseIP_removes_witness :
    ((Backend.mk true [("c1".data, "10.0.0.2".data), ("c0".data, "10.0.0.3".data)]).reachable
        = true
      ∧ ∀ e, e ∈ [("c1".data, "10.0.0.2".data), ("c0".data, "10.0.0.3".data)] → ParseIP e.2 ≠ [])
    ∧ releaseIP (Backend.mk true [("c1".data, "10.0.0.2".data), ("c0".data, "10.0.0.3".data)]) "c1".data
      = (.ok (), (Backend.mk true [("c0".data, "10.0.0.3".data)])) :=
  have hwf : ∀ e, e ∈ [("c1".data, "10.0.0.2".data), ("c0".data, "10.0.0.3".data)]
      → ParseIP e.2 ≠ [] := by decide
  ⟨⟨rfl, hwf⟩, (releaseIP_removes
    (Backend.mk true [("c1".data, "10.0.0.2".data), ("c0".data, "10.0.0.3".data)])
    "c1".data rfl hwf).1⟩

/-- C10: release then reallocate. If `id1` and `id2` are identifiers without an entry (in
particular two distinct ones) and `getOrAllocateIP` for `id1` succeeds with address `a`,
then releasing `id1` succeeds and restores the table, and `getOrAllocateIP` for `id2` on
the result succeeds with exactly `a` and the same subnet. -/
theorem release_then_reallocate (b b1 : Backend) (id1 id2 spec : Str) (a : IP) (net : IPNet)
    (h1 : mapGet b.ips id1 = none) (h2 : mapGet b.ips id2 = none)
    (h : getOrAllocateIP b id1 spec = (.ok (a, net), b1)) :
    releaseIP b1 id1 = (.ok (), b)
      ∧ (getOrAllocateIP (releaseIP b1 id1).2 id2 spec).1 = .ok (a, net) := by
  have hb : b.reachable = true := by
    cases hr : b.reachable
    · exact absurd h (getOrAllocateIP_unreachable b id1 spec hr _ _)
    · rfl
  cases hp : parseSubnetRange spec with
  | ok r =>
    rw [getOrAllocateIP_absent b id1 spec r hb hp h1] at h
    cases hl : allocLoop ((b.ips.map (fun e => (e.1, ParseIP e.2))).map
        (fun e => (ipString e.2, e.1))) r.End (256 ^ r.Start.length) r.Start with
    | ok o =>
      cases o with
      | none => rw [hl] at h; simp at h
      | some x =>
        rw [hl] at h
        simp only [Prod.mk.injEq, Outcome.ok.injEq] at h
        obtain ⟨⟨ha, hn⟩, hb1⟩ := h
        subst ha
        have hx := allocLoop_parsed_isAddr _ spec r hp _ _ hl
        have hrel : releaseIP b1 id1 = (.ok (), b) := by
          have hb1r : b1.reachable = true := by rw [← hb1]; exact hb
          have hid1 : mapGet b1.ips id1 = some (ipString x) := by
            rw [← hb1]
            exact mapGet_append_absent b.ips id1 _ h1
          unfold releaseIP getConn
          rw [if_pos hb1r]
          simp only []
          rw [getIP_of_mapGet b1 id1 hb1r, hid1]
          simp only []
          rw [ParseIP_ipString x hx, if_pos (by intro h0; rw [h0] at hx; exact absurd hx.1 (by simp))]
          rw [← hb1]
          simp only [Prod.mk.injEq, true_and]
          have hd : hdel (b.ips ++ [(id1, ipString x)]) id1 = b.ips := by
            unfold hdel
            rw [List.filter_append, List.filter_eq_self.mpr, List.filter_cons_of_neg (by simp)]
            · simp
            · intro e he
              rw [mapGet_eq_none] at h1
              simpa using h1 e he
          rw [hd]
        refine ⟨hrel, ?_⟩
        rw [hrel]
        simp only []
        rw [getOrAllocateIP_absent b id2 spec r hb hp h2, hl, hn]
    | err e => rw [hl] at h; simp at h
    | panic => rw [hl] at h; simp at h
    | diverges => rw [hl] at h; simp at h
  | err e => unfold getOrAllocateIP at h; rw [hp] at h; simp at h
  | panic => unfold getOrAllocateIP at h; rw [hp] at h; simp at h
  | diverges => unfold getOrAllocateIP at h; rw [hp] at h; simp at h

set_option maxRecDepth 100000 in
/-- C10, on the range `10.100.0.1/24` with `10.100.0.2` leased to `c0`: `c1` gets
`10.100.0.3`, and after its release `c2` gets `10.100.0.3`. -/
theorem release_then_reallocate_witness :
    ("c1".data ≠ "c2".data
      ∧ mapGet [("c0".data, "10.100.0.2".data)] "c1".data = none
      ∧ mapGet [("c0".data, "10.100.0.2".data)] "c2".data = none
      ∧ getOrAllocateIP (Backend.mk true [("c0".data, "10.100.0.2".data)])
          "c1".data "10.100.0.1/24".data
        = (.ok (IPv4 10 100 0 3, { IP := [10, 100, 0, 0], Mask := [255, 255, 255, 0] }),
           (Backend.mk true [("c0".data, "10.100.0.2".data), ("c1".data, "10.100.0.3".data)])))
    ∧ (releaseIP (Backend.mk true [("c0".data, "10.100.0.2".data), ("c1".data, "10.100.0.3".data)]) "c1".data
        = (.ok (), (Backend.mk true [("c0".data, "10.100.0.2".data)]))
      ∧ (getOrAllocateIP (releaseIP (Backend.mk true [("c0".data, "10.100.0.2".data), ("c1".data, "10.100.0.3".data)])
            "c1".data).2 "c2".data "10.100.0.1/24".data).1
          = .ok (IPv4 10 100 0 3, { IP := [10, 100, 0, 0], Mask := [255, 255, 255, 0] })) :=
  ⟨⟨by decide, by decide, by decide, by decide⟩,
    release_then_reallocate (Backend.mk true [("c0".data, "10.100.0.2".data)]) _
      "c1".data "c2".data "10.100.0.1/24".data _ _ (by decide) (by decide) (by decide)⟩

/-! ## Allocation inside the subnet -/

/-- A candidate returned by a scan that does not wrap lies in `[start, end)`, has an
accepted final octet and is not in the lookup table. -/
theorem allocLoop_range (lookup : List (Str × Str)) (n e : Nat) :
    ∀ (fuel v : Nat) (x : IP), v ≤ e →
      allocLoop lookup (ofVal n e) fuel (ofVal n v) = .ok (some x) →
      ∃ k, v + k < e ∧ x = ofVal n (v + k) ∧ validIP x = some true
        ∧ (mapGet lookup (ipString x)).isSome = false := by
  intro fuel
  induction fuel with
  | zero => intro v x _ h; simp [allocLoop] at h
  | succ f ih =>
    intro v x hv h
    rw [allocLoop] at h
    split at h
    · simp at h
    · rename_i hne
      rw [ipEqual_ofVal] at hne
      have hvlt : v < e := by
        by_contra hc
        have : v = e := by omega
        rw [this] at hne
        simp at hne
      have step : ∀ y, allocLoop lookup (ofVal n e) f (nextIP (ofVal n v)) = .ok (some y) →
          ∃ k, v + k < e ∧ y = ofVal n (v + k) ∧ validIP y = some true
            ∧ (mapGet lookup (ipString y)).isSome = false := by
        intro y hy
        rw [nextIP_ofVal] at hy
        obtain ⟨k, hk1, hk2, hk3⟩ := ih (v + 1) y (by omega) hy
        exact ⟨k + 1, by omega, by rw [hk2]; congr 1; omega, hk3⟩
      split at h
      · simp at h
      · exact step x h
      · rename_i hval
        split at h
        · exact step x h
        · rename_i hl
          simp only [Outcome.ok.injEq, Option.some.injEq] at h
          subst h
          refine ⟨0, by omega, rfl, hval, ?_⟩
          simpa using hl

theorem ipVal_IPv4 (a b c d : Nat) :
    ipVal (IPv4 a b c d) = 281470681743360 + a * 16777216 + b * 65536 + c * 256 + d := by
  simp only [ipVal, IPv4, v4InV6Pfx, List.cons_append, List.nil_append, List.foldl_cons,
    List.foldl_nil]
  omega

theorem ofVal_IPv4 (a b c d k : Nat) (ha : a < 256) (hb : b < 256) (hc : c < 256)
    (hd : d + k < 256) : ofVal 16 (ipVal (IPv4 a b c d) + k) = IPv4 a b c (d + k) := by
  have h := ofVal_ipVal 16 _ (IPv4_isAddr a b c (d + k) ha hb hc hd)
  rw [ipVal_IPv4] at h ⊢
  rw [← h]
  congr 1
  omega

theorem ipTo4_IPv4 (a b c d : Nat) : ipTo4 (IPv4 a b c d) = [a, b, c, d] := by
  simp [ipTo4, IPv4, v4InV6Pfx, IPv4len, IPv6len]

theorem CIDRMask_le24_form : ∀ n, n ≤ 24 → CIDRMask n 32
    = [(CIDRMask n 32).getD 0 0, (CIDRMask n 32).getD 1 0, (CIDRMask n 32).getD 2 0, 0] := by
  decide

theorem CIDRMask_le24 (n : Nat) (hn : n ≤ 24) : ∃ m0 m1 m2, CIDRMask n 32 = [m0, m1, m2, 0] :=
  ⟨_, _, _, CIDRMask_le24_form n hn⟩

/-- With a mask whose last byte is zero, every address that shares the first three octets
belongs to the network. -/
theorem contains_last_octet (a b c d t m0 m1 m2 : Nat) :
    IPNet.Contains { IP := List.zipWith (fun x y => x &&& y) [a, b, c, d] [m0, m1, m2, 0],
                     Mask := [m0, m1, m2, 0] } (IPv4 a b c t) = true := by
  have h4 : ∀ x y z w : Nat, ipTo4 [x, y, z, w] = [x, y, z, w] := by
    intro x y z w
    simp [ipTo4, IPv4len]
  unfold IPNet.Contains networkNumberAndMask
  simp only [ipTo4_IPv4, List.zipWith_cons_cons, List.zipWith_nil_right, h4]
  simp [IPv4len, IPv6len, Nat.land_assoc]

set_option maxRecDepth 100000 in
/-- C9: the code does not keep allocation inside the subnet. For the CIDR-only text
`10.0.0.1/30` the parsed end `10.0.0.254` is outside the subnet `10.0.0.0/30`; with
`10.0.0.2`, the only address of the block that is not its network, gateway or broadcast
address, leased to `c1`, allocation for `c2` succeeds with the broadcast address
`10.0.0.3` instead of failing; and with `10.0.0.3` leased as well the next allocation
returns `10.0.0.4`, which is outside the subnet it is returned with. For `10.0.0.255/24`,
whose start is above its end, the scan wraps into `10.0.1.2`, outside `10.0.0.0/24`. -/
theorem cidr_slash30_leaves_subnet :
    parseSubnetRange "10.0.0.1/30".data = .ok
        { Start := IPv4 10 0 0 1, End := IPv4 10 0 0 254,
          Subnet := { IP := [10, 0, 0, 0], Mask := [255, 255, 255, 252] } }
    ∧ IPNet.Contains { IP := [10, 0, 0, 0], Mask := [255, 255, 255, 252] } (IPv4 10 0 0 254)
        = false
    ∧ (getOrAllocateIP (Backend.mk true [("c1".data, "10.0.0.2".data)]) "c2".data
        "10.0.0.1/30".data).1
        = .ok (IPv4 10 0 0 3, { IP := [10, 0, 0, 0], Mask := [255, 255, 255, 252] })
    ∧ (getOrAllocateIP (Backend.mk true [("c1".data, "10.0.0.2".data),
        ("c0".data, "10.0.0.3".data)]) "c2".data "10.0.0.1/30".data).1
        = .ok (IPv4 10 0 0 4, { IP := [10, 0, 0, 0], Mask := [255, 255, 255, 252] })
    ∧ IPNet.Contains { IP := [10, 0, 0, 0], Mask := [255, 255, 255, 252] } (IPv4 10 0 0 4)
        = false
    ∧ (getOrAllocateIP (Backend.mk true []) "c1".data "10.0.0.255/24".data).1
        = .ok (IPv4 10 0 1 2, { IP := [10, 0, 0, 0], Mask := [255, 255, 255, 0] })
    ∧ IPNet.Contains { IP := [10, 0, 0, 0], Mask := [255, 255, 255, 0] } (IPv4 10 0 1 2)
        = false := by
  refine ⟨by decide, by decide, by decide, by decide, by decide, by decide, by decide⟩

/-- Where the code does keep allocation inside the subnet: for a CIDR-only text `A/m`
with a prefix length of at most 24 and a final octet of `A` other than 255 (a sufficient
condition, not a necessary one), the parsed start and end lie within the parsed subnet; for an
identifier without an entry, an address that `getOrAllocateIP` hands out comes with that
subnet, belongs to it and has a final octet other than 0, 1 and 255; and when every
address of the subnet with such a final octet is a value of the lease table, the call fails
with `no available IPs` and leaves the table as it is. -/
theorem cidr_only_within_subnet (A m : Str) (a b c d n : Nat)
    (hA : parseIPv4 A = IPv4 a b c d) (hm : dtoi m = (n, m.length, true)) (hn : n ≤ 24)
    (hd : d ≠ 255) :
    ∃ r, parseSubnetRange (A ++ '/' :: m) = .ok r
      ∧ r.Subnet.Contains r.Start = true ∧ r.Subnet.Contains r.End = true
      ∧ ∀ (bk : Backend) (id : Str), bk.reachable = true → mapGet bk.ips id = none →
          (∀ x net bk1, getOrAllocateIP bk id (A ++ '/' :: m) = (.ok (x, net), bk1) →
            net = r.Subnet ∧ r.Subnet.Contains x = true ∧ ¬ reservedSuffix x)
          ∧ ((∀ x, isAddr 16 x → r.Subnet.Contains x = true → ¬ reservedSuffix x →
                leased bk.ips x) →
              getOrAllocateIP bk id (A ++ '/' :: m)
                = (.err (.errorString "no available IPs".data), bk)) := by
  obtain ⟨ha, hb, hc, hd256⟩ := parseIPv4_octets A a b c d hA
  have hp : parseSubnetRange (A ++ '/' :: m) = .ok
      { Start := IPv4 a b c d, End := IPv4 a b c 254,
        Subnet := { IP := List.zipWith (fun x y => x &&& y) [a, b, c, d] (CIDRMask n 32),
                    Mask := CIDRMask n 32 } } := by
    rw [parseSubnetRange_no_dash _ _ _
      (cidr_text_no_dash A m n (by rw [hA]; simp [IPv4, v4InV6Pfx]) hm)
      (ParseCIDR_v4 A m a b c d n hA hm (by omega)) (by simp [IPv4, v4InV6Pfx])]
    rfl
  obtain ⟨m0, m1, m2, hM⟩ := CIDRMask_le24 n hn
  rw [hM] at hp
  have hcont : ∀ t, IPNet.Contains
      { IP := List.zipWith (fun x y => x &&& y) [a, b, c, d] [m0, m1, m2, 0],
        Mask := [m0, m1, m2, 0] } (IPv4 a b c t) = true :=
    fun t => contains_last_octet a b c d t m0 m1 m2
  have hvs := ipVal_IPv4 a b c d
  have hve := ipVal_IPv4 a b c 254
  have hE : isAddr 16 (IPv4 a b c 254) := IPv4_isAddr a b c 254 ha hb hc (by omega)
  have hS : isAddr 16 (IPv4 a b c d) := IPv4_isAddr a b c d ha hb hc hd256
  refine ⟨_, hp, hcont d, hcont 254, ?_⟩
  intro bk id hreach hid
  constructor
  · intro x net bk1 hx
    rw [getOrAllocateIP_absent bk id _ _ hreach hp hid] at hx
    simp only [] at hx
    cases hl : allocLoop ((bk.ips.map (fun e => (e.1, ParseIP e.2))).map
        (fun e => (ipString e.2, e.1))) (IPv4 a b c 254) (256 ^ (IPv4 a b c d).length)
        (IPv4 a b c d) with
    | ok o =>
      cases o with
      | none => rw [hl] at hx; simp at hx
      | some y =>
        rw [hl] at hx
        simp only [Prod.mk.injEq, Outcome.ok.injEq] at hx
        obtain ⟨⟨rfl, rfl⟩, -⟩ := hx
        rw [← ofVal_ipVal 16 _ hE, ← ofVal_ipVal 16 _ hS] at hl
        obtain ⟨k, hk1, hk2, hk3, -⟩ := allocLoop_range _ 16 _ _ _ y (by omega) hl
        have hdk : d + k < 254 := by omega
        rw [ofVal_IPv4 a b c d k ha hb hc (by omega)] at hk2
        refine ⟨rfl, ?_, ?_⟩
        · rw [hk2]; exact hcont (d + k)
        · have hy : isAddr 16 y := by
            rw [hk2]; exact IPv4_isAddr a b c (d + k) ha hb hc (by omega)
          exact (validIP_reserved y 15 hy).2.mp hk3
    | err e => rw [hl] at hx; simp at hx
    | panic => rw [hl] at hx; simp at hx
    | diverges => rw [hl] at hx; simp at hx
  · intro hall
    rw [getOrAllocateIP_absent bk id _ _ hreach hp hid,
      allocLoop_no_eligible bk.ips _ _ hp rfl (by simp only []; omega) ?_]
    intro x hx
    obtain ⟨hx1, hx2, hx3, hx4, hx5⟩ := hx
    simp only [] at hx1 hx2 hx3
    have hx16 : isAddr 16 x := hx1
    have hform : x = IPv4 a b c (d + (ipVal x - ipVal (IPv4 a b c d))) := by
      rw [← ofVal_IPv4 a b c d _ ha hb hc (by omega),
        show ipVal (IPv4 a b c d) + (ipVal x - ipVal (IPv4 a b c d)) = ipVal x by omega,
        ofVal_ipVal 16 x hx16]
    exact hx5 (hall x hx16 (by rw [hform]; exact hcont _) hx4)

set_option maxRecDepth 100000 in
/-- Allocation inside the subnet, on the text `10.100.0.1/24`. -/
theorem cidr_only_within_subnet_witness :
    (parseIPv4 "10.100.0.1".data = IPv4 10 100 0 1
      ∧ dtoi "24".data = (24, "24".data.length, true) ∧ 24 ≤ 24 ∧ 1 ≠ 255)
    ∧ ∃ r, parseSubnetRange ("10.100.0.1".data ++ '/' :: "24".data) = .ok r
      ∧ r.Subnet.Contains r.Start = true ∧ r.Subnet.Contains r.End = true
      ∧ ∀ (bk : Backend) (id : Str), bk.reachable = true → mapGet bk.ips id = none →
          (∀ x net bk1, getOrAllocateIP bk id ("10.100.0.1".data ++ '/' :: "24".data)
              = (.ok (x, net), bk1) →
            net = r.Subnet ∧ r.Subnet.Contains x = true ∧ ¬ reservedSuffix x)
          ∧ ((∀ x, isAddr 16 x → r.Subnet.Contains x = true → ¬ reservedSuffix x →
                leased bk.ips x) →
              getOrAllocateIP bk id ("10.100.0.1".data ++ '/' :: "24".data)
                = (.err (.errorString "no available IPs".data), bk)) :=
  ⟨⟨by decide, by decide, by decide, by decide⟩,
    cidr_only_within_subnet "10.100.0.1".data "24".data 10 100 0 1 24 (by decide) (by decide)
      (by decide) (by decide)⟩

/-! ## The address increment -/

theorem nextIP_replicate : ∀ (n : Nat), nextIP (List.replicate n 255) = List.replicate n 0 := by
  intro n
  induction n with
  | zero => rfl
  | succ n ih =>
    rw [List.replicate_succ', nextIP_snoc, if_neg (by decide), ih, List.replicate_succ']

/-- C16: the address increment. For a sequence `ip` of `n` bytes, `nextIP ip` is the
`n`-byte big-endian encoding of `value(ip) + 1`, so its value is `(value(ip) + 1) mod
2 ^ (8 n)` and its length is `n`; the last byte is incremented with 8-bit wrap-around and
a wrap to zero carries into the bytes before it; the sequence of `n` bytes `0xFF` becomes
`n` zero bytes. -/
theorem nextIP_increments (n : Nat) (ip : IP) (h : isAddr n ip) :
    nextIP ip = ofVal n (ipVal ip + 1)
      ∧ ipVal (nextIP ip) = (ipVal ip + 1) % 2 ^ (8 * n)
      ∧ (nextIP ip).length = n
      ∧ (∀ l x, ip = l ++ [x] → nextIP ip = if x = 255 then nextIP l ++ [0] else l ++ [x + 1])
      ∧ (ip = List.replicate n 255 → nextIP ip = List.replicate n 0) := by
  have h1 : nextIP ip = ofVal n (ipVal ip + 1) := by
    conv_lhs => rw [← ofVal_ipVal n ip h]
    exact nextIP_ofVal n _
  have hp : (2 : Nat) ^ (8 * n) = 256 ^ n := by rw [pow_mul]; norm_num
  refine ⟨h1, ?_, ?_, ?_, ?_⟩
  · rw [h1, ipVal_ofVal, hp]
  · rw [h1, ofVal_length]
  · intro l x hx
    subst hx
    have hx : x < 256 := h.2 x (by simp)
    rw [nextIP_snoc]
    by_cases h255 : x = 255
    · rw [if_pos h255, if_neg (by omega)]
    · rw [if_neg h255, if_pos (by omega), Nat.mod_eq_of_lt (by omega)]
  · intro hr
    rw [hr]
    exact nextIP_replicate n

/-- C16, on `10.0.0.255` and on `255.255.255.255` as 4-byte sequences. -/
theorem nextIP_increments_witness :
    isAddr 4 [10, 0, 0, 255]
      ∧ nextIP [10, 0, 0, 255] = [10, 0, 1, 0]
      ∧ nextIP [255, 255, 255, 255] = [0, 0, 0, 0]
      ∧ ipVal (nextIP [10, 0, 0, 255]) = (ipVal [10, 0, 0, 255] + 1) % 2 ^ (8 * 4) :=
  have h : isAddr 4 [10, 0, 0, 255] := by unfold isAddr; decide
  ⟨h, by decide, by decide, (nextIP_increments 4 [10, 0, 0, 255] h).2.1⟩

/-! ## The candidate loop: what it returns, and that it ends -/

/-- A candidate the loop stops at differs from the end address, is accepted by `validIP`
and is not a key of the lookup table. -/
theorem allocLoop_some (lookup : List (Str × Str)) (e : IP) :
    ∀ (fuel : Nat) (ip x : IP), allocLoop lookup e fuel ip = .ok (some x) →
      ipEqual x e = false ∧ validIP x = some true
        ∧ (mapGet lookup (ipString x)).isSome = false := by
  intro fuel
  induction fuel with
  | zero => intro ip x h; simp [allocLoop] at h
  | succ f ih =>
    intro ip x h
    rw [allocLoop] at h
    split at h
    · simp at h
    · rename_i hne
      split at h
      · simp at h
      · exact ih _ _ h
      · rename_i hval
        split at h
        · exact ih _ _ h
        · rename_i hl
          simp only [Outcome.ok.injEq, Option.some.injEq] at h
          subst h
          exact ⟨by simpa using hne, hval, by simpa using hl⟩

/-- The loop started `k` increments before the end address (modulo `256 ^ n`) ends within
`k + 1` loop tests, with a result that does not depend on the fuel. -/
theorem allocLoop_ends (lookup : List (Str × Str)) (n e : Nat) :
    ∀ (k v : Nat), (v + k) % 256 ^ n = e % 256 ^ n →
      ∃ o, ∀ fuel, k < fuel → allocLoop lookup (ofVal n e) fuel (ofVal n v) = .ok o := by
  intro k
  induction k with
  | zero =>
    intro v hk
    refine ⟨none, ?_⟩
    intro fuel hf
    obtain ⟨f, rfl⟩ : ∃ f, fuel = f + 1 := ⟨fuel - 1, by omega⟩
    apply allocLoop_exit
    rw [ipEqual_ofVal]
    simpa using hk
  | succ k ih =>
    intro v hk
    obtain ⟨o, ho⟩ := ih (v + 1) (by rwa [show v + 1 + k = v + (k + 1) by omega])
    by_cases heq : ipEqual (ofVal n v) (ofVal n e) = true
    · refine ⟨none, ?_⟩
      intro fuel hf
      obtain ⟨f, rfl⟩ : ∃ f, fuel = f + 1 := ⟨fuel - 1, by omega⟩
      exact allocLoop_exit _ _ _ _ heq
    · have hne : ipEqual (ofVal n v) (ofVal n e) = false := by simpa using heq
      have hn : n ≠ 0 := by
        intro h0
        subst h0
        simp [ipEqual, ofVal] at hne
      obtain ⟨m, rfl⟩ : ∃ m, n = m + 1 := ⟨n - 1, by omega⟩
      by_cases hs : skipped lookup (ofVal (m + 1) v)
      · refine ⟨o, ?_⟩
        intro fuel hf
        obtain ⟨f, rfl⟩ : ∃ f, fuel = f + 1 := ⟨fuel - 1, by omega⟩
        rw [allocLoop_skip _ _ _ _ hne hs, nextIP_ofVal]
        exact ho f (by omega)
      · refine ⟨some (ofVal (m + 1) v), ?_⟩
        intro fuel hf
        obtain ⟨f, rfl⟩ : ∃ f, fuel = f + 1 := ⟨fuel - 1, by omega⟩
        have hv : validIP (ofVal (m + 1) v) = some true := by
          by_contra hc
          apply hs
          left
          rw [validIP_ofVal] at hc ⊢
          split at hc
          · rename_i h1; rw [if_pos h1]
          · exact absurd rfl hc
        apply allocLoop_stop _ _ _ _ hne hv
        cases hl : (mapGet lookup (ipString (ofVal (m + 1) v))).isSome
        · rfl
        · exact absurd (Or.inr ⟨hv, hl⟩) hs

/-- For a start and an end of `n` bytes each, the candidate loop ends within `256 ^ n` loop
tests, whatever the order of the two. -/
theorem allocLoop_total (lookup : List (Str × Str)) (n : Nat) (s e : IP)
    (hs : isAddr n s) (he : isAddr n e) :
    ∃ o, ∀ fuel, 256 ^ n ≤ fuel → allocLoop lookup e fuel s = .ok o := by
  have hsN := ipVal_lt n s hs
  have heN := ipVal_lt n e he
  rw [← ofVal_ipVal n s hs, ← ofVal_ipVal n e he]
  by_cases hle : ipVal s ≤ ipVal e
  · obtain ⟨o, ho⟩ := allocLoop_ends lookup n (ipVal e) (ipVal e - ipVal s) (ipVal s)
      (by rw [show ipVal s + (ipVal e - ipVal s) = ipVal e by omega])
    exact ⟨o, fun fuel hf => ho fuel (by omega)⟩
  · obtain ⟨o, ho⟩ := allocLoop_ends lookup n (ipVal e) (ipVal e + 256 ^ n - ipVal s) (ipVal s)
      (by rw [show ipVal s + (ipVal e + 256 ^ n - ipVal s) = ipVal e + 256 ^ n by omega,
            Nat.add_mod_right])
    exact ⟨o, fun fuel hf => ho fuel (by omega)⟩

/-! ## Bounds and termination of the scan -/

set_option maxRecDepth 100000 in
/-- C17, the range `10.0.0.5-10.0.0.2/24` on an empty table: the range is accepted with
its start above its end, and the address handed out is the start `10.0.0.5`, which is not
below the end `10.0.0.2`. -/
theorem scan_start_above_end :
    parseSubnetRange "10.0.0.5-10.0.0.2/24".data
        = .ok { Start := IPv4 10 0 0 5, End := IPv4 10 0 0 2,
                Subnet := { IP := [10, 0, 0, 0], Mask := [255, 255, 255, 0] } }
      ∧ getOrAllocateIP (Backend.mk true []) "c1".data "10.0.0.5-10.0.0.2/24".data
        = (.ok (IPv4 10 0 0 5, { IP := [10, 0, 0, 0], Mask := [255, 255, 255, 0] }),
           Backend.mk true [("c1".data, "10.0.0.5".data)])
      ∧ ¬ ipVal (IPv4 10 0 0 5) < ipVal (IPv4 10 0 0 2) := by
  refine ⟨by decide, by decide, ?_⟩
  rw [ipVal_IPv4, ipVal_IPv4]
  omega

/-- C17, amended: scan bounds. For a range that `parseSubnetRange` accepts and an
identifier without an entry, an address `a` that `getOrAllocateIP` newly allocates is
never the end address, whatever the order of start and end; and when the start is not
above the end, `start <= a < end` numerically. -/
theorem getOrAllocateIP_scan_bounds (b b1 : Backend) (id spec : Str) (r : subnetRange)
    (a : IP) (net : IPNet) (hp : parseSubnetRange spec = .ok r)
    (hid : mapGet b.ips id = none) (h : getOrAllocateIP b id spec = (.ok (a, net), b1)) :
    a ≠ r.End
      ∧ (ipVal r.Start ≤ ipVal r.End → ipVal r.Start ≤ ipVal a ∧ ipVal a < ipVal r.End) := by
  have hb : b.reachable = true := by
    cases hr : b.reachable
    · exact absurd h (getOrAllocateIP_unreachable b id spec hr _ _)
    · rfl
  rw [getOrAllocateIP_absent b id spec r hb hp hid] at h
  obtain ⟨hE, hS⟩ := parseSubnetRange_isAddr spec r hp
  cases hl : allocLoop ((b.ips.map (fun e => (e.1, ParseIP e.2))).map
      (fun e => (ipString e.2, e.1))) r.End (256 ^ r.Start.length) r.Start with
  | ok o =>
    cases o with
    | none => rw [hl] at h; simp at h
    | some x =>
      rw [hl] at h
      simp only [Prod.mk.injEq, Outcome.ok.injEq] at h
      obtain ⟨⟨ha, _⟩, _⟩ := h
      subst ha
      have hx := allocLoop_parsed_isAddr _ spec r hp _ _ hl
      have hS16 : isAddr 16 r.Start := by
        rcases hS with h0 | hS
        · rw [h0] at hl
          exact absurd hl (allocLoop_nil _ r.End hE _ x)
        · exact hS
      obtain ⟨hne, _, _⟩ := allocLoop_some _ _ _ _ _ hl
      refine ⟨?_, ?_⟩
      · intro hxe
        rw [ipEqual_same_length _ _ (by rw [hx.1, hE.1])] at hne
        simp [hxe] at hne
      · intro hle
        rw [← ofVal_ipVal 16 r.End hE, ← ofVal_ipVal 16 r.Start hS16] at hl
        obtain ⟨k, hk, hxk, _⟩ := allocLoop_range _ 16 (ipVal r.End) _ (ipVal r.Start) x hle hl
        have heN := ipVal_lt 16 _ hE
        have hv : ipVal x = ipVal r.Start + k := by
          rw [hxk, ipVal_ofVal, Nat.mod_eq_of_lt (by omega)]
        omega
  | err e => rw [hl] at h; simp at h
  | panic => rw [hl] at h; simp at h
  | diverges => rw [hl] at h; simp at h

set_option maxRecDepth 100000 in
/-- C17, amended, on the range `10.0.0.5-10.0.0.9/24` and an empty table: `10.0.0.5` is
handed out, it is not the end `10.0.0.9`, and it lies in `[start, end)`. -/
theorem getOrAllocateIP_scan_bounds_witness :
    (parseSubnetRange "10.0.0.5-10.0.0.9/24".data
        = .ok { Start := IPv4 10 0 0 5, End := IPv4 10 0 0 9,
                Subnet := { IP := [10, 0, 0, 0], Mask := [255, 255, 255, 0] } }
      ∧ mapGet (Backend.mk true []).ips "c1".data = none
      ∧ getOrAllocateIP (Backend.mk true []) "c1".data "10.0.0.5-10.0.0.9/24".data
        = (.ok (IPv4 10 0 0 5, { IP := [10, 0, 0, 0], Mask := [255, 255, 255, 0] }),
           Backend.mk true [("c1".data, "10.0.0.5".data)]))
    ∧ (IPv4 10 0 0 5 ≠ IPv4 10 0 0 9
      ∧ (ipVal (IPv4 10 0 0 5) ≤ ipVal (IPv4 10 0 0 9) →
          ipVal (IPv4 10 0 0 5) ≤ ipVal (IPv4 10 0 0 5)
            ∧ ipVal (IPv4 10 0 0 5) < ipVal (IPv4 10 0 0 9))) :=
  ⟨⟨by decide, by decide, by decide⟩,
    getOrAllocateIP_scan_bounds (Backend.mk true [])
      (Backend.mk true [("c1".data, "10.0.0.5".data)]) "c1".data "10.0.0.5-10.0.0.9/24".data
      { Start := IPv4 10 0 0 5, End := IPv4 10 0 0 9,
        Subnet := { IP := [10, 0, 0, 0], Mask := [255, 255, 255, 0] } }
      (IPv4 10 0 0 5) { IP := [10, 0, 0, 0], Mask := [255, 255, 255, 0] }
      (by decide) (by decide) (by decide)⟩

/-- C20: the scan terminates. For a range whose start and end are addresses of `n` bytes
each, in either order, and every lookup table, the candidate loop of `allocateIP` ends
within `256 ^ n` loop tests with a result that more fuel does not change; with a reachable
backend `allocateIP` then returns an address or the error `no available IPs`. -/
theorem allocateIP_scan_terminates (b : Backend) (id : Str) (r : subnetRange) (n : Nat)
    (hb : b.reachable = true) (hS : isAddr n r.Start) (hE : isAddr n r.End) :
    (∀ lookup : List (Str × Str), ∃ o, ∀ fuel, 256 ^ n ≤ fuel →
        allocLoop lookup r.End fuel r.Start = .ok o)
      ∧ ((∃ a, (allocateIP b id r).1 = .ok a)
          ∨ (allocateIP b id r).1 = .err (.errorString "no available IPs".data)) := by
  refine ⟨fun lookup => allocLoop_total lookup n r.Start r.End hS hE, ?_⟩
  cases hid : mapGet b.ips id with
  | some v =>
    rw [allocateIP_present b id r v hb hid]
    exact Or.inl ⟨_, rfl⟩
  | none =>
    rw [allocateIP_absent b id r hb hid]
    obtain ⟨o, ho⟩ := allocLoop_total ((b.ips.map (fun e => (e.1, ParseIP e.2))).map
      (fun e => (ipString e.2, e.1))) n r.Start r.End hS hE
    rw [ho (256 ^ r.Start.length) (by rw [hS.1])]
    cases o with
    | none => exact Or.inr rfl
    | some x => exact Or.inl ⟨x, rfl⟩

/-- C20, on the one-byte range from `255` to `2`, where the scan wraps: `255`, `0` and `1`
are passed over, the end `2` is reached, and the result is `no available IPs`. -/
theorem allocateIP_scan_terminates_witness :
    ((Backend.mk true []).reachable = true ∧ isAddr 1 [255] ∧ isAddr 1 [2])
    ∧ ((∀ lookup : List (Str × Str), ∃ o, ∀ fuel, 256 ^ 1 ≤ fuel →
          allocLoop lookup [2] fuel [255] = .ok o)
      ∧ ((∃ a, (allocateIP (Backend.mk true []) "c1".data
              (subnetRange.mk [255] [2] (IPNet.mk [] []))).1 = .ok a)
          ∨ (allocateIP (Backend.mk true []) "c1".data
              (subnetRange.mk [255] [2] (IPNet.mk [] []))).1
            = .err (.errorString "no available IPs".data))) :=
  have h1 : isAddr 1 [255] := by unfold isAddr; decide
  have h2 : isAddr 1 [2] := by unfold isAddr; decide
  ⟨⟨rfl, h1, h2⟩, allocateIP_scan_terminates (Backend.mk true []) "c1".data
    (subnetRange.mk [255] [2] (IPNet.mk [] [])) 1 rfl h1 h2⟩

/-! ## The unchecked start address -/

/-- C19: a range that `parseSubnetRange` accepts may carry the `nil` start that `ParseIP`
returned; for every such range, every reachable backend and every identifier without an
entry, `validIP` is evaluated on the empty address and `getOrAllocateIP` panics on the
last-octet index, leaving the table as it was. -/
theorem getOrAllocateIP_nil_start_panics (b : Backend) (id spec : Str) (r : subnetRange)
    (hb : b.reachable = true) (hp : parseSubnetRange spec = .ok r) (hS : r.Start = [])
    (hid : mapGet b.ips id = none) :
    validIP r.Start = none ∧ getOrAllocateIP b id spec = (.panic, b) := by
  obtain ⟨hE, _⟩ := parseSubnetRange_isAddr spec r hp
  refine ⟨by rw [hS]; rfl, ?_⟩
  rw [getOrAllocateIP_absent b id spec r hb hp hid, hS]
  have h1 : ipEqual [] r.End = false := by
    unfold ipEqual
    simp [hE.1, IPv4len, IPv6len]
  have h2 : ∀ lookup, allocLoop lookup r.End (256 ^ ([] : IP).length) [] = .panic := by
    intro lookup
    have e : 256 ^ ([] : IP).length = 0 + 1 := rfl
    rw [e, allocLoop, h1]
    simp [validIP]
  rw [h2]

set_option maxRecDepth 100000 in
/-- C19, on the range text `bogus-10.0.0.200/24` with one lease in the table. -/
theorem getOrAllocateIP_nil_start_panics_witness :
    ((Backend.mk true [("c0".data, "10.0.0.2".data)]).reachable = true
      ∧ parseSubnetRange "bogus-10.0.0.200/24".data = .ok
          { Start := [], End := IPv4 10 0 0 200,
            Subnet := { IP := [10, 0, 0, 0], Mask := [255, 255, 255, 0] } }
      ∧ mapGet [("c0".data, "10.0.0.2".data)] "c1".data = none)
    ∧ getOrAllocateIP (Backend.mk true [("c0".data, "10.0.0.2".data)]) "c1".data
        "bogus-10.0.0.200/24".data
      = (.panic, Backend.mk true [("c0".data, "10.0.0.2".data)]) :=
  ⟨⟨rfl, by decide, by decide⟩,
    (getOrAllocateIP_nil_start_panics (Backend.mk true [("c0".data, "10.0.0.2".data)])
      "c1".data "bogus-10.0.0.200/24".data
      { Start := [], End := IPv4 10 0 0 200,
        Subnet := { IP := [10, 0, 0, 0], Mask := [255, 255, 255, 0] } }
      rfl (by decide) rfl (by decide)).2⟩

/-! ## The choice of a candidate does not depend on the identifier -/

/-- The function `allocateIP` is its read phase followed by its write. -/
theorem allocateIP_phases (b : Backend) (id : Str) (r : subnetRange) :
    allocateIP b id r
      = ((allocateIPSelect b id r).1, allocateIPWrite b (allocateIPSelect b id r).2) := by
  unfold allocateIP allocateIPSelect
  cases getConn b with
  | ok u =>
    simp only []
    cases getIPs b with
    | ok T =>
      simp only []
      cases mapGet T id with
      | some ip => rfl
      | none =>
        simp only []
        cases allocLoop (T.map (fun e => (ipString e.2, e.1))) r.End
            (256 ^ r.Start.length) r.Start with
        | ok o => cases o <;> rfl
        | err e => rfl
        | panic => rfl
        | diverges => rfl
    | err e => rfl
    | panic => rfl
    | diverges => rfl
  | err e => rfl
  | panic => rfl
  | diverges => rfl

/-- The read phase for an identifier without an entry. -/
theorem allocateIPSelect_absent (b : Backend) (id : Str) (r : subnetRange)
    (hb : b.reachable = true) (hid : mapGet b.ips id = none) :
    allocateIPSelect b id r =
      match allocLoop ((b.ips.map (fun e => (e.1, ParseIP e.2))).map
          (fun e => (ipString e.2, e.1))) r.End (256 ^ r.Start.length) r.Start with
      | .ok (some ip) => (.ok ip, some (id, ipString ip))
      | .ok none => (.err (.errorString "no available IPs".data), none)
      | .err e => (.err e, none)
      | .panic => (.panic, none)
      | .diverges => (.diverges, none) := by
  unfold allocateIPSelect getIPs getConn
  rw [if_pos hb]
  simp only []
  rw [mapGet_map_none _ _ _ hid]

theorem mapGet_hset_self (T : List (Str × Str)) (k v : Str) :
    mapGet (hset T k v) k = some v :=
  mapGet_append_absent (hdel T k) k v (mapGet_hdel_self T k)

theorem mapGet_append_other {α : Type} (m : List (Str × α)) (k id : Str) (v : α)
    (hk : k ≠ id) : mapGet (m ++ [(id, v)]) k = mapGet m k := by
  induction m with
  | nil =>
    rw [List.nil_append, mapGet_cons, if_neg (fun h => hk h.symm)]
  | cons e t ih =>
    rw [List.cons_append, mapGet_cons, mapGet_cons, ih]

theorem mapGet_hset_other (T : List (Str × Str)) (k id v : Str) (hk : k ≠ id) :
    mapGet (hset T id v) k = mapGet T k := by
  have h : hset T id v = hdel T id ++ [(id, v)] := rfl
  rw [h, mapGet_append_other _ _ _ _ hk, mapGet_hdel_other T id k hk]

/-- C11: the chosen address does not depend on the identifier. For a backend state `b`, a
range `r` and two distinct identifiers without an entry in `b`, `allocateIP` for the one
and for the other against `b` return the same result, an address or a failure; and when
both have read `b` before either writes, the two writes, in either order, leave a table
that holds the text of that one address under both identifiers. -/
theorem allocateIP_same_choice (b : Backend) (id1 id2 : Str) (r : subnetRange)
    (hne : id1 ≠ id2) (h1 : mapGet b.ips id1 = none) (h2 : mapGet b.ips id2 = none) :
    (allocateIP b id1 r).1 = (allocateIP b id2 r).1
      ∧ (allocateIPSelect b id1 r).1 = (allocateIP b id1 r).1
      ∧ (allocateIPSelect b id2 r).1 = (allocateIP b id2 r).1
      ∧ ∀ a, (allocateIP b id1 r).1 = .ok a →
          mapGet (allocateIPWrite (allocateIPWrite b (allocateIPSelect b id1 r).2)
              (allocateIPSelect b id2 r).2).ips id1 = some (ipString a)
          ∧ mapGet (allocateIPWrite (allocateIPWrite b (allocateIPSelect b id1 r).2)
              (allocateIPSelect b id2 r).2).ips id2 = some (ipString a)
          ∧ mapGet (allocateIPWrite (allocateIPWrite b (allocateIPSelect b id2 r).2)
              (allocateIPSelect b id1 r).2).ips id1 = some (ipString a)
          ∧ mapGet (allocateIPWrite (allocateIPWrite b (allocateIPSelect b id2 r).2)
              (allocateIPSelect b id1 r).2).ips id2 = some (ipString a) := by
  rw [allocateIP_phases b id1 r, allocateIP_phases b id2 r]
  simp only [true_and]
  cases hb : b.reachable with
  | false =>
    have e : ∀ id, allocateIPSelect b id r = (.err .backend, none) := by
      intro id
      unfold allocateIPSelect getConn
      rw [hb]
      rfl
    rw [e id1, e id2]
    refine ⟨rfl, ?_⟩
    intro a ha
    exact absurd ha (by simp)
  | true =>
    rw [allocateIPSelect_absent b id1 r hb h1, allocateIPSelect_absent b id2 r hb h2]
    cases allocLoop ((b.ips.map (fun e => (e.1, ParseIP e.2))).map
        (fun e => (ipString e.2, e.1))) r.End (256 ^ r.Start.length) r.Start with
    | ok o =>
      cases o with
      | none => exact ⟨rfl, fun a ha => absurd ha (by simp)⟩
      | some x =>
        refine ⟨rfl, ?_⟩
        intro a ha
        simp only [Outcome.ok.injEq] at ha
        subst ha
        simp only [allocateIPWrite]
        refine ⟨?_, ?_, ?_, ?_⟩
        · rw [mapGet_hset_other _ _ _ _ hne, mapGet_hset_self]
        · rw [mapGet_hset_self]
        · rw [mapGet_hset_self]
        · rw [mapGet_hset_other _ _ _ _ (fun h => hne h.symm), mapGet_hset_self]
    | err e => exact ⟨rfl, fun a ha => absurd ha (by simp)⟩
    | panic => exact ⟨rfl, fun a ha => absurd ha (by simp)⟩
    | diverges => exact ⟨rfl, fun a ha => absurd ha (by simp)⟩

set_option maxRecDepth 100000 in
/-- C11, on the range of `10.100.0.1/24` with `10.100.0.2` leased to `c0`: the
allocations for `c1` and for `c2` both choose `10.100.0.3`, and after both writes the
table holds `10.100.0.3` under `c1` and under `c2`. -/
theorem allocateIP_same_choice_witness :
    ("c1".data ≠ "c2".data
      ∧ mapGet (Backend.mk true [("c0".data, "10.100.0.2".data)]).ips "c1".data = none
      ∧ mapGet (Backend.mk true [("c0".data, "10.100.0.2".data)]).ips "c2".data = none)
    ∧ (allocateIP (Backend.mk true [("c0".data, "10.100.0.2".data)]) "c1".data
          (subnetRange.mk (IPv4 10 100 0 1) (IPv4 10 100 0 254)
            (IPNet.mk [10, 100, 0, 0] [255, 255, 255, 0]))).1 = .ok (IPv4 10 100 0 3)
    ∧ (allocateIP (Backend.mk true [("c0".data, "10.100.0.2".data)]) "c1".data
          (subnetRange.mk (IPv4 10 100 0 1) (IPv4 10 100 0 254)
            (IPNet.mk [10, 100, 0, 0] [255, 255, 255, 0]))).1
        = (allocateIP (Backend.mk true [("c0".data, "10.100.0.2".data)]) "c2".data
          (subnetRange.mk (IPv4 10 100 0 1) (IPv4 10 100 0 254)
            (IPNet.mk [10, 100, 0, 0] [255, 255, 255, 0]))).1
    ∧ (allocateIPWrite (allocateIPWrite (Backend.mk true [("c0".data, "10.100.0.2".data)])
          (allocateIPSelect (Backend.mk true [("c0".data, "10.100.0.2".data)]) "c1".data
            (subnetRange.mk (IPv4 10 100 0 1) (IPv4 10 100 0 254)
              (IPNet.mk [10, 100, 0, 0] [255, 255, 255, 0]))).2)
          (allocateIPSelect (Backend.mk true [("c0".data, "10.100.0.2".data)]) "c2".data
            (subnetRange.mk (IPv4 10 100 0 1) (IPv4 10 100 0 254)
              (IPNet.mk [10, 100, 0, 0] [255, 255, 255, 0]))).2)
        = Backend.mk true [("c0".data, "10.100.0.2".data), ("c1".data, "10.100.0.3".data),
            ("c2".data, "10.100.0.3".data)] :=
  ⟨⟨by decide, by decide, by decide⟩, by decide,
    (allocateIP_same_choice (Backend.mk true [("c0".data, "10.100.0.2".data)])
      "c1".data "c2".data
      (subnetRange.mk (IPv4 10 100 0 1) (IPv4 10 100 0 254)
        (IPNet.mk [10, 100, 0, 0] [255, 255, 255, 0]))
      (by decide) (by decide) (by decide)).1, by decide⟩

/-! ## No shared address under sequential use -/

/-- The table after `getOrAllocateIP`: unchanged, or with one entry added for an identifier
that had none, whose address the scan accepted and no entry of the table reads as. -/
theorem getOrAllocateIP_table (b : Backend) (id spec : Str) :
    (getOrAllocateIP b id spec).2 = b
      ∨ ∃ x, isAddr 16 x ∧ validIP x = some true ∧ (∀ e ∈ b.ips, ParseIP e.2 ≠ x)
          ∧ mapGet b.ips id = none
          ∧ (getOrAllocateIP b id spec).2 = { b with ips := b.ips ++ [(id, ipString x)] } := by
  cases hp : parseSubnetRange spec with
  | ok r =>
    rcases Bool.eq_false_or_eq_true b.reachable with hb | hb
    · cases hid : mapGet b.ips id with
      | some v =>
        left
        rw [getOrAllocateIP_present b id spec r v hb hp hid]
      | none =>
        rw [getOrAllocateIP_absent b id spec r hb hp hid]
        cases hl : allocLoop ((b.ips.map (fun e => (e.1, ParseIP e.2))).map
            (fun e => (ipString e.2, e.1))) r.End (256 ^ r.Start.length) r.Start with
        | ok o =>
          cases o with
          | none => left; rfl
          | some x =>
            right
            have hx := allocLoop_parsed_isAddr _ spec r hp _ _ hl
            obtain ⟨_, hv, hm⟩ := allocLoop_some _ _ _ _ _ hl
            refine ⟨x, hx, hv, ?_, rfl, rfl⟩
            intro e he hex
            have hle : leased b.ips x := ⟨e, he, hex⟩
            rw [(lookup_isSome b.ips x hx).mpr hle] at hm
            exact absurd hm (by simp)
        | err e => left; rfl
        | panic => left; rfl
        | diverges => left; rfl
    · left
      unfold getOrAllocateIP getIP getIPs getConn
      rw [hp, hb]
      rfl
  | err e => left; unfold getOrAllocateIP; rw [hp]
  | panic => left; unfold getOrAllocateIP; rw [hp]
  | diverges => left; unfold getOrAllocateIP; rw [hp]

/-- The table after `releaseIP`: unchanged, or with the entries of `id` removed. -/
theorem releaseIP_table (b : Backend) (id : Str) :
    (releaseIP b id).2 = b ∨ (releaseIP b id).2 = { b with ips := hdel b.ips id } := by
  unfold releaseIP
  cases getConn b with
  | ok u =>
    simp only []
    cases getIP b id with
    | ok ip =>
      simp only []
      by_cases h : ip ≠ []
      · right; rw [if_pos h]
      · left; rw [if_neg h]
    | err e => left; rfl
    | panic => left; rfl
    | diverges => left; rfl
  | err e => left; rfl
  | panic => left; rfl
  | diverges => left; rfl

theorem noShared_hdel (T : List (Str × Str)) (id : Str) (h : noShared T) :
    noShared (hdel T id) := by
  intro e1 h1 e2 h2
  unfold hdel at h1 h2
  exact h e1 (List.mem_filter.mp h1).1 e2 (List.mem_filter.mp h2).1

theorem noShared_append (T : List (Str × Str)) (id : Str) (x : IP) (h : noShared T)
    (hx : isAddr 16 x) (hfree : ∀ e ∈ T, ParseIP e.2 ≠ x) :
    noShared (T ++ [(id, ipString x)]) := by
  have hr : ParseIP (ipString x) = x := ParseIP_ipString x hx
  intro e1 h1 e2 h2 hne hnil
  rw [List.mem_append, List.mem_singleton] at h1 h2
  rcases h1 with h1 | h1
  · rcases h2 with h2 | h2
    · exact h e1 h1 e2 h2 hne hnil
    · rw [h2]
      simp only []
      rw [hr]
      exact hfree e1 h1
  · rcases h2 with h2 | h2
    · rw [h1]
      simp only []
      rw [hr]
      exact fun he => hfree e2 h2 he.symm
    · rw [h1, h2] at hne
      exact absurd rfl hne

theorem step_noShared (b : Backend) (c : Call) (h : noShared b.ips) :
    noShared (step b c).ips := by
  cases c with
  | getOrAllocate id spec =>
    rcases getOrAllocateIP_table b id spec with e | ⟨x, hx, _, hfree, _, e⟩
    · change noShared (getOrAllocateIP b id spec).2.ips
      rw [e]; exact h
    · change noShared (getOrAllocateIP b id spec).2.ips
      rw [e]; exact noShared_append b.ips id x h hx hfree
  | release id =>
    rcases releaseIP_table b id with e | e
    · change noShared (releaseIP b id).2.ips
      rw [e]; exact h
    · change noShared (releaseIP b id).2.ips
      rw [e]; exact noShared_hdel b.ips id h

/-- An entry that a call adds to the table is the text of a 16-byte address that `validIP`
accepts. -/
theorem step_new_entry (b : Backend) (c : Call) (e : Str × Str) (he : e ∈ (step b c).ips)
    (hnew : e ∉ b.ips) :
    ∃ x, e.2 = ipString x ∧ ParseIP e.2 = x ∧ isAddr 16 x ∧ validIP x = some true
      ∧ ¬ reservedSuffix x := by
  cases c with
  | getOrAllocate id spec =>
    replace he : e ∈ (getOrAllocateIP b id spec).2.ips := he
    rcases getOrAllocateIP_table b id spec with h | ⟨x, hx, hv, _, _, h⟩
    · rw [h] at he; exact absurd he hnew
    · rw [h] at he
      simp only [List.mem_append, List.mem_singleton] at he
      rcases he with he | he
      · exact absurd he hnew
      · rw [he]
        exact ⟨x, rfl, ParseIP_ipString x hx, hx, hv, (validIP_reserved x 15 hx).2.mp hv⟩
  | release id =>
    replace he : e ∈ (releaseIP b id).2.ips := he
    rcases releaseIP_table b id with h | h
    · rw [h] at he; exact absurd he hnew
    · rw [h] at he
      have : e ∈ hdel b.ips id := he
      unfold hdel at this
      exact absurd (List.mem_filter.mp this).1 hnew

theorem run_noShared : ∀ (cs : List Call) (b : Backend), noShared b.ips →
    noShared (run b cs).ips := by
  intro cs
  induction cs with
  | nil => intro b h; exact h
  | cons c t ih =>
    intro b h
    exact ih (step b c) (step_noShared b c h)

theorem run_snoc (b : Backend) (cs : List Call) (c : Call) :
    run b (cs ++ [c]) = step (run b cs) c := by
  unfold run
  rw [List.foldl_append]
  rfl

/-- C18: no shared address under sequential use. From a lease table in which no two
identifiers hold the same address, every sequence of `getOrAllocateIP` and `releaseIP`
calls, run one after another with any identifiers and range texts, leaves a table in which
no two identifiers hold the same address; and every entry that a call of the sequence adds
to the table is the text of an address whose final octet is not 0, 1 or 255. -/
theorem sequential_no_shared (b : Backend) (cs : List Call) (h : noShared b.ips) :
    noShared (run b cs).ips
      ∧ ∀ (pre : List Call) (c : Call), pre ++ [c] <+: cs →
          ∀ e, e ∈ (run b (pre ++ [c])).ips → e ∉ (run b pre).ips →
            ∃ x, e.2 = ipString x ∧ ParseIP e.2 = x ∧ isAddr 16 x ∧ validIP x = some true
              ∧ ¬ reservedSuffix x := by
  refine ⟨run_noShared cs b h, ?_⟩
  intro pre c _ e he hnew
  rw [run_snoc] at he
  exact step_new_entry (run b pre) c e he hnew

set_option maxRecDepth 100000 in
/-- C18, from the table with `10.100.0.2` leased to `c0`: allocate for `c1`, release `c0`,
allocate for `c2`, all from `10.100.0.1/24`. -/
theorem sequential_no_shared_witness :
    noShared (Backend.mk true [("c0".data, "10.100.0.2".data)]).ips
    ∧ run (Backend.mk true [("c0".data, "10.100.0.2".data)])
        [Call.getOrAllocate "c1".data "10.100.0.1/24".data, Call.release "c0".data,
          Call.getOrAllocate "c2".data "10.100.0.1/24".data]
      = Backend.mk true [("c1".data, "10.100.0.3".data), ("c2".data, "10.100.0.2".data)]
    ∧ noShared (run (Backend.mk true [("c0".data, "10.100.0.2".data)])
        [Call.getOrAllocate "c1".data "10.100.0.1/24".data, Call.release "c0".data,
          Call.getOrAllocate "c2".data "10.100.0.1/24".data]).ips :=
  have h : noShared (Backend.mk true [("c0".data, "10.100.0.2".data)]).ips := by
    unfold noShared
    decide
  ⟨h, by decide, (sequential_no_shared (Backend.mk true [("c0".data, "10.100.0.2".data)])
    [Call.getOrAllocate "c1".data "10.100.0.1/24".data, Call.release "c0".data,
      Call.getOrAllocate "c2".data "10.100.0.1/24".data] h).1⟩

/-! ## Construction of the store client -/

/-- C12: a discovered master is adopted. When the `GET` of the master key returns the
text `m`, then for every `myAddress` the function `New` returns a `Store` and no error,
`RWConn` dials `m`, `Conn` dials the fixed local endpoint, the only command sent is the
`GET`, so the master key is not written, and no background task is left behind. -/
theorem New_adopts_master (env : Replies) (myAddress m : Str) (h : env.get = .value m) :
    (New env myAddress).err = none
      ∧ (∃ st, (New env myAddress).store = some st ∧ st.RWConn = m ∧ st.Conn = Address)
      ∧ (New env myAddress).sent = [.get MasterKey]
      ∧ pointerWrites (New env myAddress) = []
      ∧ (New env myAddress).refresh = none := by
  have e : New env myAddress
      = { store := some { m := { addr := m, maxIdle := 5 }, s := { addr := Address, maxIdle := 5 } },
          err := none, sent := [.get MasterKey], refresh := none } := by
    unfold New
    rw [h]
  rw [e]
  exact ⟨rfl, ⟨_, rfl, rfl, rfl⟩, rfl, rfl, rfl⟩

/-- C12, with the master `10.0.0.9:9300` found and the own address `10.0.0.5:9300`. -/
theorem New_adopts_master_witness :
    (Replies.mk (.value "10.0.0.9:9300".data) none).get = .value "10.0.0.9:9300".data
    ∧ New (Replies.mk (.value "10.0.0.9:9300".data) none) "10.0.0.5:9300".data
      = { store := some { m := { addr := "10.0.0.9:9300".data, maxIdle := 5 },
                          s := { addr := "127.0.0.1:9300".data, maxIdle := 5 } },
          err := none, sent := [.get MasterKey], refresh := none }
    ∧ (New (Replies.mk (.value "10.0.0.9:9300".data) none) "10.0.0.5:9300".data).err = none :=
  ⟨rfl, by decide,
    (New_adopts_master (Replies.mk (.value "10.0.0.9:9300".data) none) "10.0.0.5:9300".data
      "10.0.0.9:9300".data rfl).1⟩

/-- C13: when the pointer is written. Before it returns, `New` writes the master key
exactly when the `GET` reported `redis.ErrNil` and `myAddress` is not empty, and that
write is the single command `SETEX MasterKey 60 myAddress`. With an empty `myAddress` no
pointer is written and no background task is started, whatever the `GET` returned; and in
the case of the claim, where the `GET` reported `redis.ErrNil`, a `Store` is returned
without error whose two pools dial the local endpoint. -/
theorem New_pointer_write (env : Replies) (myAddress : Str) :
    (pointerWrites (New env myAddress) ≠ [] ↔ env.get = .errNil ∧ myAddress ≠ [])
      ∧ (env.get = .errNil → myAddress ≠ [] →
          pointerWrites (New env myAddress) = [.setex MasterKey 60 myAddress])
      ∧ (myAddress = [] →
          pointerWrites (New env myAddress) = [] ∧ (New env myAddress).refresh = none)
      ∧ (myAddress = [] → env.get = .errNil →
          (New env myAddress).err = none
            ∧ ∃ st, (New env myAddress).store = some st ∧ st.RWConn = Address
                ∧ st.Conn = Address) := by
  obtain ⟨g, sx⟩ := env
  by_cases ha : myAddress = []
  · subst ha
    cases g <;> simp [New, pointerWrites, Store.RWConn, Store.Conn]
  · cases g <;> cases sx <;> simp [New, pointerWrites, Store.RWConn, Store.Conn, ha]

/-- C13, with no master key and the own address `10.0.0.5:9300`: the pointer is written
once, with the own address and a time-to-live of 60. -/
theorem New_pointer_write_witness :
    pointerWrites (New (Replies.mk .errNil none) "10.0.0.5:9300".data)
        = [.setex MasterKey 60 "10.0.0.5:9300".data]
      ∧ (pointerWrites (New (Replies.mk .errNil none) "10.0.0.5:9300".data) ≠ []
          ↔ (Replies.mk .errNil none).get = .errNil ∧ "10.0.0.5:9300".data ≠ []) :=
  ⟨by decide, (New_pointer_write (Replies.mk .errNil none) "10.0.0.5:9300".data).1⟩

/-- C14, with no master key and the own address `10.0.0.5:9300`: the write pool of the
returned `Store` dials the local endpoint `127.0.0.1:9300`, not the own address. -/
theorem New_write_pool_stays_local :
    "10.0.0.5:9300".data ≠ ([] : Str)
      ∧ New (Replies.mk .errNil none) "10.0.0.5:9300".data
        = { store := some { m := { addr := "127.0.0.1:9300".data, maxIdle := 5 },
                            s := { addr := "127.0.0.1:9300".data, maxIdle := 5 } },
            err := none,
            sent := [.get MasterKey, .setex MasterKey 60 "10.0.0.5:9300".data],
            refresh := some (45, .setex MasterKey 60 "10.0.0.5:9300".data) }
      ∧ (∃ st, (New (Replies.mk .errNil none) "10.0.0.5:9300".data).store = some st
          ∧ st.RWConn = "127.0.0.1:9300".data ∧ st.RWConn ≠ "10.0.0.5:9300".data) := by
  refine ⟨by decide, by decide, ⟨_, rfl, by decide, by decide⟩⟩

/-- C14, amended: with no master key, the own address is what is written to the pointer,
not where writes go. For a non-empty `myAddress`, when the `GET` reported `redis.ErrNil`,
a `Store` that `New` returns has its write pool and its read pool at the fixed local
endpoint, so `RWConn` dials `myAddress` only when `myAddress` is the text of that
endpoint; when the `SETEX` succeeds, `New` returns such a `Store` and no error, after
sending `SETEX MasterKey 60 myAddress`, and leaves a task that repeats this command every
45 seconds; and when the `SETEX` fails, `New` returns no `Store`, only the error that wraps
the cause, and leaves no task. -/
theorem New_claims_mastership (env : Replies) (myAddress : Str) (hne : myAddress ≠ [])
    (hget : env.get = .errNil) :
    (∀ st, (New env myAddress).store = some st →
        st.RWConn = Address ∧ st.Conn = Address ∧ (st.RWConn = myAddress ↔ myAddress = Address))
      ∧ (env.setex = none →
          (New env myAddress).err = none
            ∧ (∃ st, (New env myAddress).store = some st)
            ∧ (New env myAddress).sent = [.get MasterKey, .setex MasterKey 60 myAddress]
            ∧ (New env myAddress).refresh = some (45, .setex MasterKey 60 myAddress))
      ∧ (∀ cause, env.setex = some cause →
          (New env myAddress).store = none
            ∧ (New env myAddress).err = some (.wrap cause "set master key with ttl".data)
            ∧ (New env myAddress).sent = [.get MasterKey, .setex MasterKey 60 myAddress]
            ∧ (New env myAddress).refresh = none) := by
  obtain ⟨g, sx⟩ := env
  simp only [] at hget
  subst hget
  cases sx with
  | none =>
    have e : New (Replies.mk .errNil none) myAddress
        = { store := some { m := { addr := Address, maxIdle := 5 },
                            s := { addr := Address, maxIdle := 5 } },
            err := none, sent := [.get MasterKey, .setex MasterKey 60 myAddress],
            refresh := some (45, .setex MasterKey 60 myAddress) } := by
      unfold New
      simp only [ne_eq, hne, not_false_eq_true, if_true]
    rw [e]
    refine ⟨?_, fun _ => ⟨rfl, ⟨_, rfl⟩, rfl, rfl⟩, fun cause h => absurd h (by simp)⟩
    intro st hst
    simp only [Option.some.injEq] at hst
    subst hst
    exact ⟨rfl, rfl, ⟨fun h => h.symm, fun h => h.symm⟩⟩
  | some cause =>
    have e : New (Replies.mk .errNil (some cause)) myAddress
        = { store := none, err := some (.wrap cause "set master key with ttl".data),
            sent := [.get MasterKey, .setex MasterKey 60 myAddress], refresh := none } := by
      unfold New
      simp only [ne_eq, hne, not_false_eq_true, if_true]
    rw [e]
    refine ⟨?_, fun h => absurd h (by simp), ?_⟩
    · intro st hst
      simp at hst
    · intro c hc
      simp only [Option.some.injEq] at hc
      subst hc
      exact ⟨rfl, rfl, rfl, rfl⟩

/-- C14, amended, with no master key and the own address `10.0.0.5:9300`. -/
theorem New_claims_mastership_witness :
    ("10.0.0.5:9300".data ≠ ([] : Str) ∧ (Replies.mk .errNil none).get = .errNil)
      ∧ ((Replies.mk .errNil none).setex = none →
          (New (Replies.mk .errNil none) "10.0.0.5:9300".data).err = none
            ∧ (∃ st, (New (Replies.mk .errNil none) "10.0.0.5:9300".data).store = some st)
            ∧ (New (Replies.mk .errNil none) "10.0.0.5:9300".data).sent
                = [.get MasterKey, .setex MasterKey 60 "10.0.0.5:9300".data]
            ∧ (New (Replies.mk .errNil none) "10.0.0.5:9300".data).refresh
                = some (45, .setex MasterKey 60 "10.0.0.5:9300".data)) :=
  ⟨⟨by decide, rfl⟩,
    (New_claims_mastership (Replies.mk .errNil none) "10.0.0.5:9300".data (by decide) rfl).2.1⟩

/-- C15: construction fails exactly on discovery or claim errors. The function `New`
returns an error exactly when the `GET` failed with an error other than `redis.ErrNil`, or
the `GET` reported `redis.ErrNil`, `myAddress` is not empty and the `SETEX` failed; the
error wraps the cause with `get master key` in the first case and with
`set master key with ttl` in the second. With an error no `Store` is returned, and without
one a `Store` is. -/
theorem New_error_iff (env : Replies) (myAddress : Str) :
    ((New env myAddress).err ≠ none ↔
        (∃ msg, env.get = .errOther msg)
          ∨ (env.get = .errNil ∧ myAddress ≠ [] ∧ env.setex ≠ none))
      ∧ (∀ msg, env.get = .errOther msg →
          (New env myAddress).err = some (.wrap msg "get master key".data))
      ∧ (∀ cause, env.get = .errNil → myAddress ≠ [] → env.setex = some cause →
          (New env myAddress).err = some (.wrap cause "set master key with ttl".data))
      ∧ ((New env myAddress).err ≠ none → (New env myAddress).store = none)
      ∧ ((New env myAddress).err = none → ∃ st, (New env myAddress).store = some st) := by
  obtain ⟨g, sx⟩ := env
  by_cases ha : myAddress = []
  · subst ha
    cases g <;> simp [New]
  · cases g <;> cases sx <;> simp [New, ha]

end Ion
